import Mathlib

/-!
Shallow embedding of the graph-algorithm library in `Graph.cpp` and
verification of its specification.  Weights are embedded as `Int` (the
library is generic over an ordered numeric weight type; we fix the
64-bit signed instantiation, whose infinity sentinel is `max / 10`).
Vectors become `List`s; out-of-range accesses of the C++ code, which are
undefined behaviour there, are embedded as `getD` defaults or explicit
error values where a claim is about them.
-/

namespace GraphLib

/-- The infinity sentinel `numeric_limits<T>::max() / 10` for `T = long long`. -/
def INF : Int := (2 ^ 63 - 1) / 10

/-- `Edge{from, to, weight}` from the source (`from` and `to` are Lean
keywords, so the fields are named `frm` and `tov`). -/
structure Edge where
  frm : Nat
  tov : Nat
  weight : Int
deriving DecidableEq

abbrev Edges := List Edge

abbrev Graph := List (List Edge)

abbrev Mat := List (List Int)

/-- `g[v].emplace_back(e)`: append one arc to the adjacency list of `v`.
Like the C++ `vector` subscript, an out-of-range `v` is not grown; `List.set`
leaves the graph unchanged in that (caller-error) case. -/
def pushEdge (g : Graph) (v : Nat) (e : Edge) : Graph :=
  g.set v (g.getD v [] ++ [e])

/-- `add_edge(g, from, to, w)`: undirected insertion, both arcs appended. -/
def add_edge (g : Graph) (a b : Nat) (w : Int) : Graph :=
  pushEdge (pushEdge g a ⟨a, b, w⟩) b ⟨b, a, w⟩

/-- `add_arc(g, from, to, w)`: directed insertion. -/
def add_arc (g : Graph) (a b : Nat) (w : Int) : Graph :=
  pushEdge g a ⟨a, b, w⟩

/-- `add_to_edges(e, from, to, w)`. -/
def add_to_edges (es : Edges) (a b : Nat) (w : Int) : Edges :=
  es ++ [⟨a, b, w⟩]

/-- `Graph<T> g(N)`: `N` empty adjacency lists. -/
def emptyGraph (n : Nat) : Graph := List.replicate n []

/-- Matrix read `m[i][j]` (out of range reads default to `0`; the C++
code never performs them on well-formed input). -/
def mget (m : Mat) (i j : Nat) : Int := (m.getD i []).getD j 0

/-- Matrix write `m[i][j] = x`. -/
def mset (m : Mat) (i j : Nat) (x : Int) : Mat :=
  m.set i ((m.getD i []).set j x)

/-- One relaxation `if (d[i][k]!=INF && d[k][j]!=INF) d[i][j] = min(d[i][j], d[i][k]+d[k][j])`. -/
def fwRelax (m : Mat) (k i j : Nat) : Mat :=
  if mget m i k ≠ INF ∧ mget m k j ≠ INF then
    mset m i j (min (mget m i j) (mget m i k + mget m k j))
  else m

/-- The inner `j`-loop of `WarshallFloyd`, restricted to `j < n`. -/
def fwRowN (n : Nat) (m : Mat) (k i : Nat) : Mat :=
  (List.range n).foldl (fun m j => fwRelax m k i j) m

/-- The `i`,`j` double loop of `WarshallFloyd` for one intermediate `k`. -/
def fwRoundN (V n : Nat) (m : Mat) (k : Nat) : Mat :=
  (List.range n).foldl (fun m i => fwRowN V m k i) m

/-- One full round (fixed `k`, all `i`, `j`). -/
def fwRound (V : Nat) (m : Mat) (k : Nat) : Mat := fwRoundN V V m k

/-- The initialization of `WarshallFloyd`: `INF` everywhere, `0` on the
diagonal, then `dist[e.from][e.to] = min(dist[e.from][e.to], e.weight)`
for every stored arc. -/
def initMatrix (g : Graph) : Mat :=
  let V := g.length
  let m0 : Mat := List.replicate V (List.replicate V INF)
  let m1 := (List.range V).foldl (fun m i => mset m i i 0) m0
  (List.range V).foldl
    (fun m i => (g.getD i []).foldl
      (fun m e => mset m e.frm e.tov (min (mget m e.frm e.tov) e.weight)) m) m1

/-- `WarshallFloyd(g)`. -/
def WarshallFloyd (g : Graph) : Mat :=
  (List.range g.length).foldl (fun m k => fwRound g.length m k) (initMatrix g)

/-- `add_edge_to_matrix(mat, from, to, weight)`: write
`min(mat[from][to], weight)` into both directions (the chained assignment
`mat[from][to] = mat[to][from] = min(mat[from][to], weight)` uses the value
computed from `mat[from][to]` for both cells), then re-relax with
intermediates `k ∈ {from, to}`. -/
def add_edge_to_matrix (m : Mat) (a b : Nat) (w : Int) : Mat :=
  let v := min (mget m a b) w
  let m1 := mset (mset m b a v) a b v
  [a, b].foldl (fun m k => fwRound m.length m k) m1

/-- One Bellman-Ford relaxation of a single edge, skipping edges whose
source is still at the sentinel. -/
def bfRelax (dist : List Int) (e : Edge) : List Int :=
  if dist.getD e.frm 0 = INF then dist
  else dist.set e.tov (min (dist.getD e.tov 0) (dist.getD e.frm 0 + e.weight))

/-- One pass of Bellman-Ford over the whole edge list. -/
def bfRound (es : Edges) (dist : List Int) : List Int :=
  es.foldl bfRelax dist

/-- `n` passes. -/
def bfRounds (es : Edges) (dist : List Int) : Nat → List Int
  | 0 => dist
  | n + 1 => bfRounds es (bfRound es dist) n

/-- Does some edge still relax (the negative-cycle test of `BellmanFord`)? -/
def bfRelaxable (es : Edges) (dist : List Int) : Bool :=
  es.any fun e =>
    if dist.getD e.frm 0 = INF then false
    else decide (dist.getD e.frm 0 + e.weight < dist.getD e.tov 0)

/-- `BellmanFord(edges, vertex, from)`: `vertex - 1` relaxation passes,
then one more sweep; if anything still relaxes, return the empty sequence. -/
def BellmanFord (es : Edges) (V : Nat) (s : Nat) : List Int :=
  let dist := bfRounds es ((List.replicate V INF).set s 0) (V - 1)
  if bfRelaxable es dist then [] else dist

/-- Insertion into the priority queue, modelled as a list sorted by the
`pair<T,int>` lexicographic order used by `priority_queue<..., greater<>>`. -/
def qInsert (p : Int × Nat) : List (Int × Nat) → List (Int × Nat)
  | [] => [p]
  | q :: qs =>
    if p.1 < q.1 ∨ (p.1 = q.1 ∧ p.2 ≤ q.2) then p :: q :: qs else q :: qInsert p qs

/-- The main loop of `Dijkstra`, with fuel for the (possibly divergent on
negative weights) `while (!que.empty())`. -/
def dijkstraLoop (g : Graph) : Nat → List (Int × Nat) → List Int → List Int
  | 0, _, dist => dist
  | _ + 1, [], dist => dist
  | fuel + 1, (w, idx) :: rest, dist =>
    if dist.getD idx 0 < w then dijkstraLoop g fuel rest dist
    else
      let st := (g.getD idx []).foldl
        (fun (st : List Int × List (Int × Nat)) e =>
          let nw := w + e.weight
          if st.1.getD e.tov 0 ≤ nw then st
          else (st.1.set e.tov nw, qInsert (nw, e.tov) st.2)) (dist, rest)
      dijkstraLoop g fuel st.2 st.1

/-- Total number of stored arcs. -/
def totalArcs (g : Graph) : Nat := (g.map List.length).sum

/-- `Dijkstra(g, from)`.  With non-negative weights every edge causes at
most one queue push, so `totalArcs g + 2` units of fuel always empty the
queue. -/
def Dijkstra (g : Graph) (s : Nat) : List Int :=
  dijkstraLoop g (totalArcs g + 2) [(0, s)] ((List.replicate g.length INF).set s 0)

/-- The `for (auto& e : g[v])` loop of `visit(v)` in `TopologicalSort`,
parameterized by the recursive visit of the next fuel level. -/
def tsArcsGo (visit : Nat → List Nat → List Nat →
    Option (Bool × List Nat × List Nat)) :
    List Edge → List Nat → List Nat → Option (Bool × List Nat × List Nat)
  | [], color, order => some (true, color, order)
  | e :: es, color, order =>
    if color.getD e.tov 0 = 2 then tsArcsGo visit es color order
    else if color.getD e.tov 0 = 1 then some (false, color, order)
    else
      match visit e.tov color order with
      | none => none
      | some (false, c, o) => some (false, c, o)
      | some (true, c, o) => tsArcsGo visit es c o

/-- Three-colour DFS of `TopologicalSort`: `visit(v)`.  The result carries
the updated colours and output order, `none` meaning the fuel ran out
(which provably cannot happen with enough fuel). -/
def tsVisit (g : Graph) : Nat → Nat → List Nat → List Nat →
    Option (Bool × List Nat × List Nat)
  | 0, _, _, _ => none
  | fuel + 1, v, color, order =>
    match tsArcsGo (tsVisit g fuel) (g.getD v []) (color.set v 1) order with
    | none => none
    | some (false, c, o) => some (false, c, o)
    | some (true, c, o) => some (true, c.set v 2, o ++ [v])

/-- The arc loop at a given fuel level. -/
def tsArcs (g : Graph) (fuel : Nat) : List Edge → List Nat → List Nat →
    Option (Bool × List Nat × List Nat) :=
  tsArcsGo (tsVisit g fuel)

/-- The `for (i...) if (!color[i] && !visit(i)) return false` driver loop. -/
def tsRoots (g : Graph) : List Nat → List Nat → List Nat →
    Option (Bool × List Nat × List Nat)
  | [], color, order => some (true, color, order)
  | i :: is, color, order =>
    if color.getD i 0 ≠ 0 then tsRoots g is color order
    else
      match tsVisit g (g.length + 1) i color order with
      | none => none
      | some (false, c, o) => some (false, c, o)
      | some (true, c, o) => tsRoots g is c o

/-- `TopologicalSort(g, order)`: the returned Bool, and the contents of
`order` after the call (reversed on success, partial otherwise).  The
`none` fuel case is unreachable and mapped to the failure result. -/
def TopologicalSort (g : Graph) : Bool × List Nat :=
  match tsRoots g (List.range g.length) (List.replicate g.length 0) [] with
  | some (true, _, order) => (true, order.reverse)
  | some (false, _, order) => (false, order)
  | none => (false, [])

/-- Error outcomes of the bipartiteness DFS in a total embedding:
an out-of-range vector index, or fuel exhaustion. -/
inductive DfsErr where
  | oob : DfsErr
  | fuel : DfsErr
deriving DecidableEq

/-- The edge loop of `dfs(i, clr)` in `isBipartiteGraph`, parameterized by
the recursive visit of the next fuel level. -/
def bipArcsGo (visit : Nat → Int → List Int → Bool →
    Except DfsErr (List Int × Bool)) :
    List Edge → Int → List Int → Bool → Except DfsErr (List Int × Bool)
  | [], _, color, ret => .ok (color, ret)
  | e :: es, clr, color, ret =>
    if e.tov < color.length then
      if color.getD e.tov 0 = 0 then
        match visit e.tov (-clr) color ret with
        | .error err => .error err
        | .ok (c, r) => bipArcsGo visit es clr c r
      else if color.getD e.tov 0 = clr then bipArcsGo visit es clr color false
      else bipArcsGo visit es clr color ret
    else .error .oob

/-- 2-colouring DFS of `isBipartiteGraph`: `dfs(i, clr)`.  State: colour
vector and the captured `ret`.  Reads outside the colour vector are
surfaced as `DfsErr.oob` (they are undefined behaviour in the C++). -/
def bipVisit (g : Graph) : Nat → Nat → Int → List Int → Bool →
    Except DfsErr (List Int × Bool)
  | 0, _, _, _, _ => .error .fuel
  | fuel + 1, i, clr, color, ret =>
    if i < color.length then
      if color.getD i 0 ≠ 0 then .ok (color, ret)
      else bipArcsGo (bipVisit g fuel) (g.getD i []) clr (color.set i clr) ret
    else .error .oob

/-- The edge loop at a given fuel level. -/
def bipArcs (g : Graph) (fuel : Nat) : List Edge → Int → List Int → Bool →
    Except DfsErr (List Int × Bool) :=
  bipArcsGo (bipVisit g fuel)

/-- `isBipartiteGraph(g)`: one DFS from vertex `0` (unconditionally, so a
zero-vertex graph hits the out-of-range access `color[0]`). -/
def isBipartiteGraph (g : Graph) : Except DfsErr Bool :=
  match bipVisit g (g.length + 1) 0 1 (List.replicate g.length 0) true with
  | .error err => .error err
  | .ok (_, ret) => .ok ret

/-! Specification-side notions, used to state the claims. -/

/-- A `V × V` matrix. -/
def SquareM (V : Nat) (m : Mat) : Prop := m.length = V ∧ ∀ r ∈ m, r.length = V

/-- All stored arcs stay inside `[0, vertexCount)` (the data-model
invariant; violating it is caller error in the source). -/
def WFGraph (g : Graph) : Prop :=
  ∀ l ∈ g, ∀ e ∈ l, e.frm < g.length ∧ e.tov < g.length

/-- Edge-list variant of the well-formedness invariant. -/
def WFEdges (es : Edges) (V : Nat) : Prop := ∀ e ∈ es, e.frm < V ∧ e.tov < V

/-- Graphs built from `Graph<T> g(N)` using only `add_edge`. -/
inductive BuiltByEdges : Graph → Prop
  | base (n : Nat) : BuiltByEdges (emptyGraph n)
  | step (g : Graph) (a b : Nat) (w : Int) :
      BuiltByEdges g → BuiltByEdges (add_edge g a b w)

/-- A directed path from `a` to `b` whose edges are drawn from `es`. -/
inductive IsChain (es : Edges) : Nat → List Edge → Nat → Prop
  | nil (v : Nat) : IsChain es v [] v
  | cons {e : Edge} {l : List Edge} {b : Nat} :
      e ∈ es → IsChain es e.tov l b → IsChain es e.frm (e :: l) b

/-- Total weight of a path. -/
def chainW (l : List Edge) : Int := (l.map Edge.weight).sum

/-- `b` is reachable from `a` along edges of `es`. -/
def ReachE (es : Edges) (a b : Nat) : Prop := ∃ l, IsChain es a l b

/-- The set of weights of paths from `a` to `b`. -/
def chainWeights (es : Edges) (a b : Nat) : Set Int :=
  {w | ∃ l, IsChain es a l b ∧ chainW l = w}

/-- A negative-weight cycle is reachable from `s`. -/
def NegCycleFrom (es : Edges) (s : Nat) : Prop :=
  ∃ u l, ReachE es s u ∧ l ≠ [] ∧ IsChain es u l u ∧ chainW l < 0

/-- Weights small enough that no intermediate quantity of a shortest-path
computation collides with the sentinel `INF` (the spec's "scaled to avoid
overflow" discipline, made precise). -/
def SmallW (es : Edges) (V : Nat) (B : Int) : Prop :=
  0 ≤ B ∧ (∀ e ∈ es, -B ≤ e.weight ∧ e.weight ≤ B) ∧
    ((V * es.length + V + 1 : Nat) : Int) * B < INF

/-- Adjacency as followed by the DFS routines: some stored arc of `u`
points to `v`. -/
def Adj (g : Graph) (u v : Nat) : Prop := ∃ e ∈ g.getD u [], e.tov = v

/-- Reachability along stored arcs. -/
def ReachG (g : Graph) : Nat → Nat → Prop := Relation.ReflTransGen (Adj g)

/-- A (nonempty) directed cycle exists. -/
def HasCycleG (g : Graph) : Prop := ∃ u v, Adj g u v ∧ ReachG g v u

/-- `c` is a proper 2-colouring: endpoints of every stored arc get
different colours. -/
def TwoColoring (g : Graph) (c : Nat → Bool) : Prop :=
  ∀ u < g.length, ∀ e ∈ g.getD u [], c u ≠ c e.tov

/-- The graph admits a proper 2-colouring. -/
def TwoColorable (g : Graph) : Prop := ∃ c, TwoColoring g c

/-- Every arc out of a coloured vertex either already reaches a vertex of
the opposite colour, or is still pending on the recursion stack `S`. -/
def PendOK (g : Graph) (c : List Int) (S : List (Nat × List Edge)) : Prop :=
  ∀ v, v < g.length → c.getD v 0 ≠ 0 → ∀ e ∈ g.getD v [],
    (c.getD e.tov 0 ≠ 0 ∧ c.getD e.tov 0 ≠ c.getD v 0) ∨
      ∃ p ∈ S, p.1 = v ∧ e ∈ p.2

/-- Common postcondition of `bipVisit`/`bipArcs`: lengths preserved,
colours persistent, uncoloured count non-increasing, new colours from
`{clr, -clr}`, and `ret` can only move from `true` to `false`. -/
def BipPost (clr : Int) (color : List Int) (ret : Bool) (c : List Int)
    (r : Bool) : Prop :=
  c.length = color.length ∧
  (∀ v, color.getD v 0 ≠ 0 → c.getD v 0 = color.getD v 0) ∧
  c.count 0 ≤ color.count 0 ∧
  (∀ v, c.getD v 0 = color.getD v 0 ∨ c.getD v 0 = clr ∨ c.getD v 0 = -clr) ∧
  (r = true → ret = true)

/-- Induction hypothesis shape for `bipVisit`. -/
def BipVisitOK (g : Graph) (fuel : Nat) : Prop :=
  ∀ i clr (color : List Int) ret, color.length = g.length → i < g.length →
    clr ≠ 0 → color.count 0 < fuel →
    ∃ c r, bipVisit g fuel i clr color ret = .ok (c, r) ∧
      BipPost clr color ret c r ∧
      (color.getD i 0 ≠ 0 → c = color ∧ r = ret) ∧
      (color.getD i 0 = 0 → c.getD i 0 = clr) ∧
      (∀ S, r = true → PendOK g color S → PendOK g c S)

/-- Induction hypothesis shape for `bipArcs` (vertex `i` coloured `clr`,
`es` a sub-collection of its arcs). -/
def BipArcsOK (g : Graph) (fuel : Nat) : Prop :=
  ∀ i es clr (color : List Int) ret, color.length = g.length →
    i < g.length → (∀ e ∈ es, e ∈ g.getD i []) → clr ≠ 0 →
    color.getD i 0 = clr → color.count 0 < fuel →
    ∃ c r, bipArcs g fuel es clr color ret = .ok (c, r) ∧
      BipPost clr color ret c r ∧
      (∀ S, r = true →
        PendOK g color ((i, es) :: S) → PendOK g c ((i, []) :: S))

/-! When a proper 2-colouring exists, the DFS never reports a conflict:
its colour assignments agree with (an encoding of) that colouring. -/

/-- Encodings of proper 2-colourings into the DFS colour values. -/
def EncOK (g : Graph) (enc : Nat → Int) : Prop :=
  (∀ v, enc v = 1 ∨ enc v = -1) ∧
  (∀ u, u < g.length → ∀ e ∈ g.getD u [], enc e.tov = -enc u)

/-- Induction shape: `bipVisit` at `enc i` keeps agreement and `ret = true`. -/
def BipVisitAgree (g : Graph) (enc : Nat → Int) (fuel : Nat) : Prop :=
  ∀ i (color : List Int), color.length = g.length → i < g.length →
    (∀ v, color.getD v 0 ≠ 0 → color.getD v 0 = enc v) →
    color.count 0 < fuel →
    ∃ c, bipVisit g fuel i (enc i) color true = .ok (c, true) ∧
      c.length = g.length ∧
      (∀ v, c.getD v 0 ≠ 0 → c.getD v 0 = enc v) ∧
      (∀ v, color.getD v 0 ≠ 0 → c.getD v 0 = color.getD v 0) ∧
      c.count 0 ≤ color.count 0

/-- Induction shape for the arc loop under agreement. -/
def BipArcsAgree (g : Graph) (enc : Nat → Int) (fuel : Nat) : Prop :=
  ∀ i es (color : List Int), color.length = g.length → i < g.length →
    (∀ e ∈ es, e ∈ g.getD i []) →
    (∀ v, color.getD v 0 ≠ 0 → color.getD v 0 = enc v) →
    color.count 0 < fuel →
    ∃ c, bipArcs g fuel es (enc i) color true = .ok (c, true) ∧
      c.length = g.length ∧
      (∀ v, c.getD v 0 ≠ 0 → c.getD v 0 = enc v) ∧
      (∀ v, color.getD v 0 ≠ 0 → c.getD v 0 = color.getD v 0) ∧
      c.count 0 ≤ color.count 0

/-- State invariant of `TopologicalSort`: colours match membership in the
output (black = finished = appended), the output is duplicate-free, lists
only real vertices, and every arc out of a finished vertex points to an
earlier finished vertex. -/
def TsInv (g : Graph) (color : List Nat) (order : List Nat) : Prop :=
  color.length = g.length ∧
  (∀ v, v < g.length → (color.getD v 0 = 2 ↔ v ∈ order)) ∧
  order.Nodup ∧
  (∀ v ∈ order, v < g.length) ∧
  (∀ v ∈ order, ∀ e ∈ g.getD v [], e.tov ∈ order ∧
      order.indexOf e.tov < order.indexOf v) ∧
  (∀ v, color.getD v 0 = 0 ∨ color.getD v 0 = 1 ∨ color.getD v 0 = 2)

/-- Induction shape for `tsVisit` (called on a white vertex, every gray
vertex reaches `v`). -/
def TsVisitOK (g : Graph) (fuel : Nat) : Prop :=
  ∀ v (color order : List Nat), TsInv g color order → v < g.length →
    color.getD v 0 = 0 → color.count 0 < fuel →
    (∀ u, u < g.length → color.getD u 0 = 1 → ReachG g u v) →
    (∃ c o, tsVisit g fuel v color order = some (false, c, o) ∧ HasCycleG g) ∨
    (∃ c o, tsVisit g fuel v color order = some (true, c, o) ∧
      TsInv g c o ∧ (∃ t, o = order ++ t) ∧
      c.count 0 ≤ color.count 0 ∧
      (∀ u, c.getD u 0 = 1 ↔ color.getD u 0 = 1) ∧
      (∀ u, color.getD u 0 = 2 → c.getD u 0 = 2) ∧
      c.getD v 0 = 2)

/-- Induction shape for the arc loop (vertex `v` gray). -/
def TsArcsOK (g : Graph) (fuel : Nat) : Prop :=
  ∀ v es (color order : List Nat), TsInv g color order → v < g.length →
    (∀ e ∈ es, e ∈ g.getD v []) →
    color.getD v 0 = 1 → color.count 0 < fuel →
    (∀ u, u < g.length → color.getD u 0 = 1 → ReachG g u v) →
    (∃ c o, tsArcs g fuel es color order = some (false, c, o) ∧ HasCycleG g) ∨
    (∃ c o, tsArcs g fuel es color order = some (true, c, o) ∧
      TsInv g c o ∧ (∃ t, o = order ++ t) ∧
      c.count 0 ≤ color.count 0 ∧
      (∀ u, c.getD u 0 = 1 ↔ color.getD u 0 = 1) ∧
      (∀ u, color.getD u 0 = 2 → c.getD u 0 = 2) ∧
      (∀ e ∈ es, c.getD e.tov 0 = 2))

/-! Closed form of one Floyd-Warshall round. -/

/-- The guarded relaxation on values. -/
def relaxV (cur x y : Int) : Int :=
  if x ≠ INF ∧ y ≠ INF then min cur (x + y) else cur

/-- Final value of the diagonal cell `(k, k)` after round `k`. -/
def dkkF (s : Mat) (k : Nat) : Int :=
  relaxV (mget s k k) (mget s k k) (mget s k k)

/-- Final value of a column-`k` cell `(i, k)`, `i ≠ k`, after round `k`. -/
def colF (s : Mat) (k i : Nat) : Int :=
  relaxV (mget s i k) (mget s i k) (if k < i then dkkF s k else mget s k k)

/-- Final value of a row-`k` cell `(k, j)`, `j ≠ k`, after round `k`. -/
def rowF (s : Mat) (k j : Nat) : Int :=
  relaxV (mget s k j) (if k < j then dkkF s k else mget s k k) (mget s k j)

/-- Final value of any cell after round `k` (row-major processing order). -/
def cellF (s : Mat) (k i j : Nat) : Int :=
  if i = k then (if j = k then dkkF s k else rowF s k j)
  else if j = k then colF s k i
  else
    relaxV (mget s i j) (if k < j then colF s k i else mget s i k)
      (if k < i then rowF s k j else mget s k j)

/-- Entry description while round `k` is being processed: cells strictly
before position `(i0, j0)` in row-major order hold their final value,
the rest still hold the start value. -/
def MidRound (V : Nat) (s : Mat) (k i0 j0 : Nat) (m : Mat) : Prop :=
  SquareM V m ∧ ∀ i j, i < V → j < V →
    mget m i j = if i < i0 ∨ (i = i0 ∧ j < j0) then cellF s k i j else mget s i j

/-- Pointwise symmetry of a matrix on `[0, V)²`. -/
def SymM (V : Nat) (m : Mat) : Prop :=
  ∀ i j, i < V → j < V → mget m i j = mget m j i

/-! The initial matrix of `WarshallFloyd` is symmetric for graphs built
only with `add_edge`. -/

/-- One arc-insertion step of the initialization. -/
def initStep (m : Mat) (e : Edge) : Mat :=
  mset m e.frm e.tov (min (mget m e.frm e.tov) e.weight)

/-- The diagonal-zero, `INF`-elsewhere starting matrix. -/
def diagStart (V : Nat) : Mat :=
  (List.range V).foldl (fun m i => mset m i i 0)
    (List.replicate V (List.replicate V INF))

/-- Weights of the stored arcs from `i` to `j`, in storage order. -/
def wgts (l : Edges) (i j : Nat) : List Int :=
  (l.filter (fun e => e.frm == i && e.tov == j)).map Edge.weight

/-- The vertex sequence visited by a chain. -/
def chainVerts (a : Nat) (l : List Edge) : List Nat := a :: l.map Edge.tov

/-- Soundness invariant: every finite entry is the weight of an actual
chain from the source, of bounded length. -/
def BFSound (es : Edges) (s V : Nat) (L : Nat) (d : List Int) : Prop :=
  d.length = V ∧ ∀ v, v < V →
    d.getD v 0 = INF ∨
      ∃ l, IsChain es s l v ∧ chainW l = d.getD v 0 ∧ l.length ≤ L

/-! Floyd-Warshall full correctness machinery (for the incremental-update
claim): weights are non-negative and bounded well below the sentinel. -/

/-- Non-negative weights, bounded so that no shortest-path quantity reaches
the `INF` sentinel. -/
def SmallNN (es : Edges) (V : Nat) (B : Int) : Prop :=
  0 ≤ B ∧ (∀ e ∈ es, 0 ≤ e.weight ∧ e.weight ≤ B) ∧
    ((V + 1 : Nat) : Int) * B < INF

/-- The intermediate vertices of a path (all visited vertices except the
two endpoints). -/
def chainInts (l : List Edge) : List Nat := (l.map Edge.tov).dropLast

/-- `x` is a valid matrix entry for the pair `(i, j)`: the sentinel, or the
weight of an actual path. -/
def SoundAt (es : Edges) (i j : Nat) (x : Int) : Prop :=
  x = INF ∨ ∃ l, IsChain es i l j ∧ chainW l = x

/-- Every in-range entry of `m` is a valid `(i, j)` entry. -/
def MSound (es : Edges) (V : Nat) (m : Mat) : Prop :=
  ∀ i j, i < V → j < V → SoundAt es i j (mget m i j)

/-- Every in-range entry of `m` is a lower bound on the weight of every
path whose intermediate vertices all satisfy `S`. -/
def MComplS (es : Edges) (V : Nat) (S : Nat → Prop) (m : Mat) : Prop :=
  ∀ i j, i < V → j < V → ∀ l, IsChain es i l j →
    (∀ x ∈ chainInts l, S x) → mget m i j ≤ chainW l

/-- The arc multiset is symmetric: every stored arc has a reverse arc of
the same weight. -/
def SymArcs (es : Edges) : Prop :=
  ∀ e ∈ es, ∃ e' ∈ es, e'.frm = e.tov ∧ e'.tov = e.frm ∧ e'.weight = e.weight

/-- One relaxation step of the inner `for (auto &e : g[idx])` loop of
`Dijkstra`, acting on the pair (dist, queue). -/
def dijRelax (w : Int) (st : List Int × List (Int × Nat)) (e : Edge) :
    List Int × List (Int × Nat) :=
  if st.1.getD e.tov 0 ≤ w + e.weight then st
  else (st.1.set e.tov (w + e.weight), qInsert (w + e.weight, e.tov) st.2)

/-- The Dijkstra loop invariant: distances are sound, queue entries are
sound and dominate the current distances, every finite vertex is settled
(in `P`) or has a fresh queue entry, the queue is sorted with per-vertex
distinct keys, settled vertices are fully relaxed with strictly larger
pending keys, and settled distances are below every pending key. -/
structure DijInv (g : Graph) (s : Nat) (P : List Nat)
    (q : List (Int × Nat)) (d : List Int) : Prop where
  len : d.length = g.length
  sound : ∀ v, v < g.length → d.getD v 0 = INF ∨
    ∃ l, IsChain g.flatten s l v ∧ chainW l = d.getD v 0
  qmem : ∀ p ∈ q, p.2 < g.length ∧ d.getD p.2 0 ≤ p.1 ∧
    ∃ l, IsChain g.flatten s l p.2 ∧ chainW l = p.1
  fresh : ∀ u, u < g.length → d.getD u 0 ≠ INF →
    u ∈ P ∨ (d.getD u 0, u) ∈ q
  sorted : q.Pairwise (fun x y => x.1 ≤ y.1)
  distinct : q.Pairwise (fun x y => x.2 = y.2 → x.1 ≠ y.1)
  procd : ∀ u ∈ P, u < g.length ∧
    (∀ e ∈ g.getD u [], d.getD e.tov 0 ≤ d.getD u 0 + e.weight) ∧
    (∀ p ∈ q, p.2 = u → d.getD u 0 < p.1)
  plow : ∀ u ∈ P, ∀ p ∈ q, d.getD u 0 ≤ p.1

/-- Fuel potential: pending queue entries plus arcs of unsettled
vertices. -/
def dijPot (g : Graph) (P : List Nat) (q : List (Int × Nat)) : Nat :=
  q.length + ((Finset.range g.length).filter (fun u => u ∉ P)).sum
    (fun u => (g.getD u []).length)

/-- Invariant maintained while the arcs of the popped vertex `idx`
(current key `w`, pre-pop distances `d0`) are being relaxed. -/
structure DijJ (g : Graph) (s : Nat) (P : List Nat) (idx : Nat) (w : Int)
    (d0 : List Int) (st : List Int × List (Int × Nat)) : Prop where
  len : st.1.length = g.length
  sound : ∀ v, v < g.length → st.1.getD v 0 = INF ∨
    ∃ l, IsChain g.flatten s l v ∧ chainW l = st.1.getD v 0
  qmem : ∀ p ∈ st.2, p.2 < g.length ∧ st.1.getD p.2 0 ≤ p.1 ∧
    ∃ l, IsChain g.flatten s l p.2 ∧ chainW l = p.1
  fresh : ∀ u, u < g.length → st.1.getD u 0 ≠ INF →
    u ∈ P ∨ u = idx ∨ (st.1.getD u 0, u) ∈ st.2
  sorted : st.2.Pairwise (fun x y => x.1 ≤ y.1)
  distinct : st.2.Pairwise (fun x y => x.2 = y.2 → x.1 ≠ y.1)
  pfix : ∀ u ∈ P, st.1.getD u 0 = d0.getD u 0
  prelax : ∀ u ∈ P, ∀ e ∈ g.getD u [],
    st.1.getD e.tov 0 ≤ st.1.getD u 0 + e.weight
  pstrict : ∀ u ∈ P, ∀ p ∈ st.2, p.2 = u → st.1.getD u 0 < p.1
  qge : ∀ p ∈ st.2, w ≤ p.1
  qidx : ∀ p ∈ st.2, p.2 = idx → w < p.1
  didx : st.1.getD idx 0 = w
  dmono : ∀ v, st.1.getD v 0 ≤ d0.getD v 0

/-! Kruskal machinery. -/

/-- Insertion into a weight-sorted edge list: models the effect of the
`sort` call in `Kruskal` (`std::sort` by ascending weight; the tie order
is unspecified in the source, so any weight-sorted permutation is a
faithful model). -/
def insSorted (e : Edge) : Edges → Edges
  | [] => [e]
  | f :: fs => if e.weight ≤ f.weight then e :: f :: fs else f :: insSorted e fs

/-- The sorted edge list used by `Kruskal`. -/
def sortE (es : Edges) : Edges := es.foldr insSorted []

/-- Modelled from the spec: the external `UnionFind tree(V)` collaborator
(`[注意] UnionFindを上で定義しておくこと`) starts with each vertex in its
own component; this model stores every element's representative
directly. -/
def ufInit (V : Nat) : List Nat := List.range V

/-- Modelled from the spec: the representative of `x`. -/
def ufFind (uf : List Nat) (x : Nat) : Nat := uf.getD x x

/-- Modelled from the spec: `unite(a, b)` returns whether `a` and `b` were
in distinct components, merging the two components if so. -/
def ufUnite (uf : List Nat) (a b : Nat) : Bool × List Nat :=
  if ufFind uf a = ufFind uf b then (false, uf)
  else (true, uf.map (fun r => if r = ufFind uf b then ufFind uf a else r))

/-- One step of the `for (auto &e : edges)` loop of `Kruskal`. -/
def kruskalFold (st : Int × List Nat) (e : Edge) : Int × List Nat :=
  let r := ufUnite st.2 e.frm e.tov
  if r.1 then (st.1 + e.weight, r.2) else (st.1, r.2)

/-- `Kruskal(edges, V)`: sort by weight, then add every edge that joins
two distinct components, returning the total added weight. -/
def Kruskal (es : Edges) (V : Nat) : Int :=
  ((sortE es).foldl kruskalFold (0, ufInit V)).1

/-- Undirected adjacency given by an edge multiset. -/
def UAdj (E : List Edge) (u v : Nat) : Prop :=
  ∃ e ∈ E, (e.frm = u ∧ e.tov = v) ∨ (e.frm = v ∧ e.tov = u)

/-- Undirected connectivity. -/
def UConn (E : List Edge) : Nat → Nat → Prop := Relation.ReflTransGen (UAdj E)

/-- No edge of `F` is redundant: removing any one occurrence disconnects
its endpoints. -/
def Acyclic (F : List Edge) : Prop :=
  ∀ F1 e F2, F = F1 ++ e :: F2 → ¬ UConn (F1 ++ F2) e.frm e.tov

/-- `F` is a spanning forest of the multigraph `es`: a sub-multiset,
acyclic, with the same connectivity. -/
def SpanningForest (es F : List Edge) : Prop :=
  F.Subperm es ∧ Acyclic F ∧ ∀ u v, UConn es u v → UConn F u v

/-- The union-find state faithfully represents connectivity of the
accepted edge multiset `A` on the vertices below `V`. -/
def UFRep (uf : List Nat) (A : List Edge) (V : Nat) : Prop :=
  uf.length = V ∧
  ∀ x y, x < V → y < V → (ufFind uf x = ufFind uf y ↔ UConn A x y)

/-- The reversal of a directed arc. -/
def erev (e : Edge) : Edge := ⟨e.tov, e.frm, e.weight⟩

/-- Both orientations of every edge: directed chains over `symCl E`
correspond to undirected walks over `E`. -/
def symCl (E : List Edge) : List Edge := E ++ E.map erev

/-- Loop invariant for the Kruskal fold over the sorted edge list: the
accumulator is the total weight of the accepted edge multiset `A`, the
union-find represents `A`-connectivity, `A` is an acyclic sub-multiset of
the processed prefix connecting both endpoints of every processed edge,
and `A` extends to some minimum spanning forest. -/
def KInv (es : Edges) (V : Nat) (done : List Edge) (st : Int × List Nat) : Prop :=
  ∃ A, st.1 = chainW A ∧ UFRep st.2 A V ∧ Acyclic A ∧ A.Subperm done ∧
    (∀ f ∈ done, UConn A f.frm f.tov) ∧
    ∃ F, SpanningForest es F ∧
      (∀ F2, SpanningForest es F2 → chainW F ≤ chainW F2) ∧ A.Subperm F

/-! Basic lemmas about the matrix accessors. -/

theorem List.getD_set_ne' {α : Type} {l : List α} {i j : Nat} {x d : α}
    (h : i ≠ j) : (l.set i x).getD j d = l.getD j d := by
  simp [List.getD_eq_getElem?_getD, List.getElem?_set_ne h]

theorem List.getD_oob {α : Type} {l : List α} {n : Nat} (d : α)
    (h : l.length ≤ n) : l.getD n d = d := by
  rw [List.getD_eq_getElem?_getD, List.getElem?_eq_none h]
  rfl

theorem List.set_getD_self {α : Type} (l : List α) (n : Nat) (d : α) :
    l.set n (l.getD n d) = l := by
  rcases Nat.lt_or_ge n l.length with h | h
  · apply List.ext_getElem?
    intro m
    rw [List.getElem?_set]
    split
    · next heq =>
      subst heq
      simp [h, List.getD_eq_getElem?_getD, List.getElem?_eq_getElem h]
    · rfl
  · exact List.set_eq_of_length_le h

theorem length_mset (m : Mat) (i j : Nat) (x : Int) :
    (mset m i j x).length = m.length := by
  simp [mset]

theorem mget_mset_ne {m : Mat} {i j a b : Nat} (x : Int)
    (h : ¬(a = i ∧ b = j)) : mget (mset m i j x) a b = mget m a b := by
  rcases eq_or_ne a i with rfl | hne
  · have hbj : b ≠ j := fun hb => h ⟨rfl, hb⟩
    unfold mget mset
    rcases Nat.lt_or_ge a m.length with hl | hl
    · rw [List.getD_eq_getElem?_getD (m.set a _), List.getElem?_set_self hl]
      simp [List.getD_eq_getElem?_getD m a, List.getD_eq_getElem?_getD _ b,
        List.getElem?_set_ne (Ne.symm hbj)]
    · rw [List.set_eq_of_length_le hl]
  · unfold mget mset
    rw [List.getD_set_ne' (Ne.symm hne)]

theorem squareM_mset {V : Nat} {m : Mat} (hsq : SquareM V m) (i j : Nat)
    (x : Int) : SquareM V (mset m i j x) := by
  obtain ⟨hlen, hrows⟩ := hsq
  rcases Nat.lt_or_ge i m.length with hl | hl
  · refine ⟨by simpa [mset] using hlen, ?_⟩
    intro r hr
    rcases List.mem_or_eq_of_mem_set hr with hr | rfl
    · exact hrows r hr
    · rw [List.length_set]
      exact hrows _ (List.getD_eq_getElem m [] hl ▸ List.getElem_mem hl)
  · unfold mset
    rw [List.set_eq_of_length_le hl]
    exact ⟨hlen, hrows⟩

theorem mget_mset_self {V : Nat} {m : Mat} (hsq : SquareM V m) {i j : Nat}
    (hi : i < V) (hj : j < V) (x : Int) : mget (mset m i j x) i j = x := by
  obtain ⟨hlen, hrows⟩ := hsq
  have hi' : i < m.length := hlen ▸ hi
  have hrow : (m.getD i []).length = V := by
    rw [List.getD_eq_getElem m [] hi']
    exact hrows _ (List.getElem_mem hi')
  have hj' : j < (m.getD i []).length := hrow ▸ hj
  unfold mget mset
  rw [List.getD_eq_getElem?_getD (m.set i _), List.getElem?_set_self hi',
    Option.getD_some, List.getD_eq_getElem?_getD, List.getElem?_set_self hj',
    Option.getD_some]

theorem mget_oob {V : Nat} {m : Mat} (hsq : SquareM V m) {a b : Nat}
    (h : V ≤ a ∨ V ≤ b) : mget m a b = 0 := by
  obtain ⟨hlen, hrows⟩ := hsq
  rcases Nat.lt_or_ge a m.length with hl | hl
  · have hrow : (m.getD a []).length = V := by
      rw [List.getD_eq_getElem m [] hl]
      exact hrows _ (List.getElem_mem hl)
    have hb : V ≤ b := by
      rcases h with h | h
      · exact absurd (hlen ▸ hl) (Nat.not_lt.mpr h)
      · exact h
    exact List.getD_oob 0 (le_of_eq_of_le hrow hb)
  · unfold mget
    rw [List.getD_oob [] hl]
    rfl

theorem mset_oob_or_self (m : Mat) (i j : Nat) (x : Int) :
    mget (mset m i j x) i j = x ∨ mset m i j x = m := by
  rcases Nat.lt_or_ge i m.length with hi | hi
  · rcases Nat.lt_or_ge j (m.getD i []).length with hj | hj
    · left
      unfold mget mset
      rw [List.getD_eq_getElem?_getD (m.set i _), List.getElem?_set_self hi,
        Option.getD_some, List.getD_eq_getElem?_getD, List.getElem?_set_self hj,
        Option.getD_some]
    · right
      unfold mset
      rw [List.set_eq_of_length_le hj, List.set_getD_self]
  · right
    unfold mset
    exact List.set_eq_of_length_le hi

/-! Relaxation only decreases matrix entries. -/

theorem mget_fwRelax_le (m : Mat) (k i j a b : Nat) :
    mget (fwRelax m k i j) a b ≤ mget m a b := by
  unfold fwRelax
  split
  · rcases Decidable.em (a = i ∧ b = j) with ⟨rfl, rfl⟩ | hne
    · rcases mset_oob_or_self m a b (min (mget m a b) (mget m a k + mget m k b))
        with h | h
      · rw [h]
        exact min_le_left _ _
      · rw [h]
    · rw [mget_mset_ne _ hne]
  · exact le_refl _

theorem mget_foldl_le {α : Type} {f : Mat → α → Mat}
    (hf : ∀ m x a b, mget (f m x) a b ≤ mget m a b) (l : List α) :
    ∀ (m : Mat) (a b : Nat), mget (l.foldl f m) a b ≤ mget m a b := by
  induction l with
  | nil => intro m a b; exact le_refl _
  | cons x xs ih =>
    intro m a b
    exact le_trans (ih (f m x) a b) (hf m x a b)

theorem mget_fwRowN_le (n : Nat) (m : Mat) (k i a b : Nat) :
    mget (fwRowN n m k i) a b ≤ mget m a b :=
  mget_foldl_le (fun m j a b => mget_fwRelax_le m k i j a b) _ m a b

theorem mget_fwRoundN_le (V n : Nat) (m : Mat) (k a b : Nat) :
    mget (fwRoundN V n m k) a b ≤ mget m a b :=
  mget_foldl_le (fun m i a b => mget_fwRowN_le V m k i a b) _ m a b

set_option maxRecDepth 8000 in
/-- C7, counterexample: on an asymmetric matrix the chained assignment
stores `min(mat[0][1], 7) = 5` into `mat[1][0]`, not
`min(mat[1][0], 7) = 7`, so "each direction is the minimum of its
previous value and `w`" fails. -/
theorem claim_C7_counterexample :
    mget (add_edge_to_matrix [[0, 5], [100, 0]] 0 1 7) 1 0 ≠
      min (mget [[0, 5], [100, 0]] 1 0) 7 := by decide

/-- C7 (amended): after `add_edge_to_matrix(mat, a, b, w)` on a
`V × V` matrix with `a, b < V`, both `mat[a][b]` and `mat[b][a]` are at
most `min` of the previous `mat[a][b]` and `w`: the insertion writes that
value into both directions and the `k ∈ {a, b}` re-relaxation can only
decrease entries further. -/
theorem claim_C7_insert_min_upper (m : Mat) (V a b : Nat) (w : Int)
    (hsq : SquareM V m) (ha : a < V) (hb : b < V) :
    mget (add_edge_to_matrix m a b w) a b ≤ min (mget m a b) w ∧
    mget (add_edge_to_matrix m a b w) b a ≤ min (mget m a b) w := by
  unfold add_edge_to_matrix
  have hsq2 : SquareM V (mset m b a (min (mget m a b) w)) := squareM_mset hsq _ _ _
  have hab : mget (mset (mset m b a (min (mget m a b) w)) a b
      (min (mget m a b) w)) a b = min (mget m a b) w :=
    mget_mset_self hsq2 ha hb _
  have hba : mget (mset (mset m b a (min (mget m a b) w)) a b
      (min (mget m a b) w)) b a = min (mget m a b) w := by
    rcases eq_or_ne a b with rfl | hne
    · exact hab
    · have h1 : mget (mset (mset m b a (min (mget m a b) w)) a b
          (min (mget m a b) w)) b a =
          mget (mset m b a (min (mget m a b) w)) b a :=
        mget_mset_ne (min (mget m a b) w) (fun hc => hne hc.2)
      rw [h1]
      exact mget_mset_self hsq hb ha _
  constructor
  · refine le_trans ?_ (le_of_eq hab)
    exact mget_foldl_le (fun m k a b => mget_fwRoundN_le _ _ m k a b) _ _ a b
  · refine le_trans ?_ (le_of_eq hba)
    exact mget_foldl_le (fun m k a b => mget_fwRoundN_le _ _ m k a b) _ _ b a

/-- Witness for `claim_C7_insert_min_upper` at a concrete input. -/
theorem claim_C7_witness :
    mget (add_edge_to_matrix [[0, 5], [100, 0]] 0 1 7) 0 1 ≤
      min (mget [[0, 5], [100, 0]] 0 1) 7 ∧
    mget (add_edge_to_matrix [[0, 5], [100, 0]] 0 1 7) 1 0 ≤
      min (mget [[0, 5], [100, 0]] 0 1) 7 :=
  claim_C7_insert_min_upper [[0, 5], [100, 0]] 2 0 1 7
    ⟨by decide, by decide⟩ (by decide) (by decide)

/-! Unfolding lemmas for the mutually recursive DFS functions. -/

theorem bipVisit_succ (g : Graph) (fuel i : Nat) (clr : Int) (color : List Int)
    (ret : Bool) :
    bipVisit g (fuel + 1) i clr color ret =
      if i < color.length then
        if color.getD i 0 ≠ 0 then .ok (color, ret)
        else bipArcs g fuel (g.getD i []) clr (color.set i clr) ret
      else .error .oob := rfl

theorem bipArcs_cons (g : Graph) (fuel : Nat) (e : Edge) (es : List Edge)
    (clr : Int) (color : List Int) (ret : Bool) :
    bipArcs g fuel (e :: es) clr color ret =
      if e.tov < color.length then
        if color.getD e.tov 0 = 0 then
          match bipVisit g fuel e.tov (-clr) color ret with
          | .error err => .error err
          | .ok (c, r) => bipArcs g fuel es clr c r
        else if color.getD e.tov 0 = clr then bipArcs g fuel es clr color false
        else bipArcs g fuel es clr color ret
      else .error .oob := rfl

theorem bipArcs_nil (g : Graph) (fuel : Nat) (clr : Int) (color : List Int)
    (ret : Bool) : bipArcs g fuel [] clr color ret = .ok (color, ret) := rfl

/-! Counting uncoloured vertices. -/

theorem count_zero_pos {l : List Int} {i : Nat} (hi : i < l.length)
    (h0 : l.getD i 0 = 0) : 0 < l.count 0 := by
  induction l generalizing i with
  | nil => exact absurd hi (by simp)
  | cons a t ih =>
    cases i with
    | zero =>
      simp only [List.getD_cons_zero] at h0
      subst h0
      simp [List.count_cons]
    | succ i =>
      have := ih (Nat.lt_of_succ_lt_succ hi) (by simpa using h0)
      simp only [List.count_cons]
      omega

theorem count_zero_set {l : List Int} {i : Nat} {x : Int} (hi : i < l.length)
    (h0 : l.getD i 0 = 0) (hx : x ≠ 0) :
    (l.set i x).count 0 + 1 = l.count 0 := by
  induction l generalizing i with
  | nil => exact absurd hi (by simp)
  | cons a t ih =>
    cases i with
    | zero =>
      simp only [List.getD_cons_zero] at h0
      subst h0
      simp [List.count_cons, hx]
    | succ i =>
      have := ih (Nat.lt_of_succ_lt_succ hi) (by simpa using h0)
      simp only [List.set_cons_succ, List.count_cons]
      omega

theorem getD_set_self' {l : List Int} {i : Nat} (x : Int) (hi : i < l.length) :
    (l.set i x).getD i 0 = x := by
  rw [List.getD_eq_getElem?_getD, List.getElem?_set_self hi, Option.getD_some]

theorem getD_replicate' {n m : Nat} {a : Int} :
    (List.replicate n a).getD m 0 = if m < n then a else 0 := by
  rw [List.getD_eq_getElem?_getD, List.getElem?_replicate]
  split
  · rfl
  · rfl

/-! Invariants of the bipartiteness DFS. -/

/-- Arc targets of well-formed graphs are in range. -/
theorem wf_arc {g : Graph} (hwf : WFGraph g) {i : Nat} (hi : i < g.length)
    {e : Edge} (he : e ∈ g.getD i []) : e.frm < g.length ∧ e.tov < g.length :=
  hwf _ (List.getD_eq_getElem g [] hi ▸ List.getElem_mem hi) e he

theorem bipPost_refl (clr : Int) (color : List Int) (ret : Bool) :
    BipPost clr color ret color ret :=
  ⟨rfl, fun _ _ => rfl, le_refl _, fun _ => Or.inl rfl, fun h => h⟩

theorem bipPost_trans {clr clr' : Int} {color c1 c : List Int}
    {ret r1 r : Bool} (hpal : clr' = clr ∨ clr' = -clr)
    (h1 : BipPost clr' color ret c1 r1) (h2 : BipPost clr c1 r1 c r) :
    BipPost clr color ret c r := by
  obtain ⟨hl1, hp1, hc1, hv1, hr1⟩ := h1
  obtain ⟨hl2, hp2, hc2, hv2, hr2⟩ := h2
  refine ⟨hl2.trans hl1, ?_, hc2.trans hc1, ?_, fun h => hr1 (hr2 h)⟩
  · intro v hv
    rw [hp2 v (by rw [hp1 v hv]; exact hv), hp1 v hv]
  · intro v
    rcases hv2 v with h | h | h
    · rcases hv1 v with h' | h' | h'
      · exact Or.inl (h.trans h')
      · rcases hpal with rfl | rfl
        · exact Or.inr (Or.inl (h.trans h'))
        · exact Or.inr (Or.inr (h.trans h'))
      · rcases hpal with rfl | rfl
        · exact Or.inr (Or.inr (h.trans h'))
        · exact Or.inr (Or.inl (by rw [h, h', neg_neg]))
    · exact Or.inr (Or.inl h)
    · exact Or.inr (Or.inr h)

theorem bip_arcs_ok (g : Graph) (hwf : WFGraph g) (fuel : Nat)
    (hA : BipVisitOK g fuel) : BipArcsOK g fuel := by
  intro i es clr
  induction es with
  | nil =>
    intro color ret hlen hi _ _ _ _
    refine ⟨color, ret, bipArcs_nil g fuel clr color ret,
      bipPost_refl clr color ret, ?_⟩
    intro S _ hpend v hv hcv e he
    rcases hpend v hv hcv e he with hgood | ⟨p, hp, hpv, hpe⟩
    · exact Or.inl hgood
    · exact Or.inr ⟨p, hp, hpv, hpe⟩
  | cons e es ih =>
    intro color ret hlen hi hsub hclr hci hfuel
    have hee : e ∈ g.getD i [] := hsub e (List.mem_cons_self e es)
    have hetov : e.tov < g.length := (wf_arc hwf hi hee).2
    have hetov' : e.tov < color.length := hlen ▸ hetov
    rw [bipArcs_cons, if_pos hetov']
    by_cases h0 : color.getD e.tov 0 = 0
    · rw [if_pos h0]
      obtain ⟨c1, r1, hrun1, hpost1, _, hset1, htrans1⟩ :=
        hA e.tov (-clr) color ret hlen hetov (neg_ne_zero.mpr hclr) hfuel
      have hlen1 : c1.length = g.length := hpost1.1.trans hlen
      have hci1 : c1.getD i 0 = clr := by
        rw [hpost1.2.1 i (by rw [hci]; exact hclr), hci]
      have hfuel1 : c1.count 0 < fuel := lt_of_le_of_lt hpost1.2.2.1 hfuel
      obtain ⟨c, r, hrun2, hpost2, htrans2⟩ :=
        ih c1 r1 hlen1 hi (fun e' he' => hsub e' (List.mem_cons_of_mem e he'))
          hclr hci1 hfuel1
      refine ⟨c, r, ?_, bipPost_trans (Or.inr rfl) hpost1 hpost2, ?_⟩
      · simp only [hrun1]
        exact hrun2
      · intro S hr hpend
        have hr1 : r1 = true := hpost2.2.2.2.2 hr
        have hpend1 : PendOK g c1 ((i, e :: es) :: S) :=
          htrans1 ((i, e :: es) :: S) hr1 hpend
        have hpend2 : PendOK g c1 ((i, es) :: S) := by
          intro v hv hcv e' he'
          rcases hpend1 v hv hcv e' he' with hgood | ⟨p, hp, hpv, hpe⟩
          · exact Or.inl hgood
          · rcases List.mem_cons.mp hp with rfl | hp
            · rcases List.mem_cons.mp hpe with rfl | hpe
              · left
                have hv1 : c1.getD e'.tov 0 = -clr := hset1 h0
                constructor
                · rw [hv1]
                  exact neg_ne_zero.mpr hclr
                · rw [hv1, ← hpv, hci1]
                  intro hcontra
                  exact hclr (by omega)
              · exact Or.inr ⟨(i, es), List.mem_cons_self _ _, hpv, hpe⟩
            · exact Or.inr ⟨p, List.mem_cons_of_mem _ hp, hpv, hpe⟩
        exact htrans2 S hr hpend2
    · rw [if_neg h0]
      by_cases hc : color.getD e.tov 0 = clr
      · rw [if_pos hc]
        obtain ⟨c, r, hrun2, hpost2, htrans2⟩ :=
          ih color false hlen hi
            (fun e' he' => hsub e' (List.mem_cons_of_mem e he')) hclr hci hfuel
        have hrf : r = false := by
          cases hr : r
          · rfl
          · exact absurd (hpost2.2.2.2.2 hr) (by simp)
        refine ⟨c, r, hrun2, ?_, ?_⟩
        · obtain ⟨h1, h2, h3, h4, _⟩ := hpost2
          exact ⟨h1, h2, h3, h4, fun h => absurd (hrf ▸ h) (by simp)⟩
        · intro S hr
          exact absurd (hrf ▸ hr) (by simp)
      · rw [if_neg hc]
        obtain ⟨c, r, hrun2, hpost2, htrans2⟩ :=
          ih color ret hlen hi
            (fun e' he' => hsub e' (List.mem_cons_of_mem e he')) hclr hci hfuel
        refine ⟨c, r, hrun2, hpost2, ?_⟩
        intro S hr hpend
        refine htrans2 S hr ?_
        intro v hv hcv e' he'
        rcases hpend v hv hcv e' he' with hgood | ⟨p, hp, hpv, hpe⟩
        · exact Or.inl hgood
        · rcases List.mem_cons.mp hp with rfl | hp
          · rcases List.mem_cons.mp hpe with rfl | hpe
            · left
              rw [← hpv, hci]
              exact ⟨h0, hc⟩
            · exact Or.inr ⟨(i, es), List.mem_cons_self _ _, hpv, hpe⟩
          · exact Or.inr ⟨p, List.mem_cons_of_mem _ hp, hpv, hpe⟩

theorem bip_visit_ok (g : Graph) (hwf : WFGraph g) :
    ∀ fuel, BipVisitOK g fuel := by
  intro fuel
  induction fuel with
  | zero =>
    intro i clr color ret _ _ _ hfuel
    exact absurd hfuel (Nat.not_lt_zero _)
  | succ fuel ih =>
    have hB := bip_arcs_ok g hwf fuel ih
    intro i clr color ret hlen hi hclr hfuel
    have hi' : i < color.length := hlen ▸ hi
    rw [bipVisit_succ, if_pos hi']
    by_cases h0 : color.getD i 0 = 0
    · rw [if_neg (by simpa using h0)]
      have hcount : (color.set i clr).count 0 < fuel := by
        have := count_zero_set hi' h0 hclr
        have hpos := count_zero_pos hi' h0
        omega
      obtain ⟨c, r, hrun, hpost, htrans⟩ :=
        hB i (g.getD i []) clr (color.set i clr) ret
          (by rw [List.length_set]; exact hlen) hi (fun _ he => he) hclr
          (getD_set_self' clr hi') hcount
      have hpersist : ∀ v, (color.set i clr).getD v 0 ≠ 0 →
          c.getD v 0 = (color.set i clr).getD v 0 := hpost.2.1
      refine ⟨c, r, hrun, ?_, fun h => absurd h0 h, ?_, ?_⟩
      · obtain ⟨h1, h2, h3, h4, h5⟩ := hpost
        refine ⟨h1.trans (List.length_set color i clr), ?_, ?_, ?_, h5⟩
        · intro v hv
          have hvi : v ≠ i := fun hvi => hv (hvi ▸ h0)
          rw [h2 v (by rw [List.getD_set_ne' (Ne.symm hvi)]; exact hv),
            List.getD_set_ne' (Ne.symm hvi)]
        · have := count_zero_set hi' h0 hclr
          omega
        · intro v
          rcases eq_or_ne v i with rfl | hvi
          · rcases h4 v with h | h | h
            · rw [h, getD_set_self' clr hi']
              exact Or.inr (Or.inl rfl)
            · exact Or.inr (Or.inl h)
            · exact Or.inr (Or.inr h)
          · rcases h4 v with h | h | h
            · rw [h, List.getD_set_ne' (Ne.symm hvi)]
              exact Or.inl rfl
            · exact Or.inr (Or.inl h)
            · exact Or.inr (Or.inr h)
      · intro _
        exact hpersist i (by rw [getD_set_self' clr hi']; exact hclr) ▸
          (getD_set_self' clr hi')
      · intro S hr hpend
        have hstep1 : PendOK g (color.set i clr) ((i, g.getD i []) :: S) := by
          intro v hv hcv e' he'
          rcases eq_or_ne v i with rfl | hvi
          · exact Or.inr ⟨(v, g.getD v []), List.mem_cons_self _ _, rfl, he'⟩
          · rw [List.getD_set_ne' (Ne.symm hvi)] at hcv
            rcases hpend v hv hcv e' he' with ⟨hg1, hg2⟩ | ⟨p, hp, hpv, hpe⟩
            · have htne : e'.tov ≠ i := fun ht => hg1 (ht ▸ h0)
              left
              rw [List.getD_set_ne' (Ne.symm htne),
                List.getD_set_ne' (Ne.symm hvi)]
              exact ⟨hg1, hg2⟩
            · exact Or.inr ⟨p, List.mem_cons_of_mem _ hp, hpv, hpe⟩
        have hstep2 : PendOK g c ((i, ([] : List Edge)) :: S) :=
          htrans S hr hstep1
        intro v hv hcv e' he'
        rcases hstep2 v hv hcv e' he' with hgood | ⟨p, hp, hpv, hpe⟩
        · exact Or.inl hgood
        · rcases List.mem_cons.mp hp with rfl | hp
          · exact absurd hpe (List.not_mem_nil e')
          · exact Or.inr ⟨p, hp, hpv, hpe⟩
    · rw [if_pos h0]
      exact ⟨color, ret, rfl, bipPost_refl clr color ret,
        fun _ => ⟨rfl, rfl⟩, fun h => absurd h h0, fun S _ hp => hp⟩

/-- C10: `isBipartiteGraph` starts its DFS at vertex `0` before any size
check, so with zero vertices the out-of-range read `color[0]` is reached,
while for any well-formed graph with at least one vertex the DFS runs to
a normal boolean result (no index error, and the `V + 1` fuel provably
suffices). -/
theorem claim_C10_vertex0_access (g : Graph) (hwf : WFGraph g) :
    (g.length = 0 → isBipartiteGraph g = .error .oob) ∧
    (0 < g.length → ∃ b, isBipartiteGraph g = .ok b) := by
  constructor
  · intro h0
    have hg : g = [] := List.length_eq_zero.mp h0
    subst hg
    rfl
  · intro hpos
    obtain ⟨c, r, hrun, _, _, _, _⟩ :=
      bip_visit_ok g hwf (g.length + 1) 0 1 (List.replicate g.length 0) true
        (List.length_replicate g.length 0) hpos one_ne_zero
        (by rw [List.count_replicate]; simp)
    refine ⟨r, ?_⟩
    unfold isBipartiteGraph
    rw [hrun]

/-- Witness for `claim_C10_vertex0_access` on the one-vertex graph. -/
theorem claim_C10_witness :
    (([[]] : Graph).length = 0 → isBipartiteGraph [[]] = .error .oob) ∧
    (0 < ([[]] : Graph).length → ∃ b, isBipartiteGraph [[]] = .ok b) :=
  claim_C10_vertex0_access [[]] (by
    intro l hl e he
    rw [List.mem_singleton.mp hl] at he
    exact absurd he (List.not_mem_nil e))

theorem bip_arcs_agree (g : Graph) (hwf : WFGraph g) (enc : Nat → Int)
    (henc : EncOK g enc) (fuel : Nat) (hA : BipVisitAgree g enc fuel) :
    BipArcsAgree g enc fuel := by
  intro i es
  induction es with
  | nil =>
    intro color hlen hi _ hagree _
    exact ⟨color, bipArcs_nil g fuel (enc i) color true, hlen, hagree,
      fun _ _ => rfl, le_refl _⟩
  | cons e es ih =>
    intro color hlen hi hsub hagree hfuel
    have hee : e ∈ g.getD i [] := hsub e (List.mem_cons_self e es)
    have hetov : e.tov < g.length := (wf_arc hwf hi hee).2
    have hetov' : e.tov < color.length := hlen ▸ hetov
    have hencarc : enc e.tov = -enc i := henc.2 i hi e hee
    rw [bipArcs_cons, if_pos hetov']
    by_cases h0 : color.getD e.tov 0 = 0
    · rw [if_pos h0]
      have hvisit : bipVisit g fuel e.tov (-enc i) color true =
          bipVisit g fuel e.tov (enc e.tov) color true := by rw [hencarc]
      obtain ⟨c1, hrun1, hlen1, hagree1, hpers1, hcount1⟩ :=
        hA e.tov color hlen hetov hagree hfuel
      obtain ⟨c, hrun2, hlen2, hagree2, hpers2, hcount2⟩ :=
        ih c1 hlen1 hi (fun e' he' => hsub e' (List.mem_cons_of_mem e he'))
          hagree1 (lt_of_le_of_lt hcount1 hfuel)
      refine ⟨c, ?_, hlen2, hagree2, ?_, hcount2.trans hcount1⟩
      · rw [hvisit]
        simp only [hrun1]
        exact hrun2
      · intro v hv
        rw [hpers2 v (by rw [hpers1 v hv]; exact hv), hpers1 v hv]
    · rw [if_neg h0]
      have hne : color.getD e.tov 0 ≠ enc i := by
        rw [hagree e.tov h0, hencarc]
        rcases henc.1 i with h | h
        · rw [h]
          decide
        · rw [h]
          decide
      rw [if_neg hne]
      exact ih color hlen hi
        (fun e' he' => hsub e' (List.mem_cons_of_mem e he')) hagree hfuel

theorem bip_visit_agree (g : Graph) (hwf : WFGraph g) (enc : Nat → Int)
    (henc : EncOK g enc) : ∀ fuel, BipVisitAgree g enc fuel := by
  intro fuel
  induction fuel with
  | zero =>
    intro i color _ _ _ hfuel
    exact absurd hfuel (Nat.not_lt_zero _)
  | succ fuel ih =>
    have hB := bip_arcs_agree g hwf enc henc fuel ih
    intro i color hlen hi hagree hfuel
    have hi' : i < color.length := hlen ▸ hi
    rw [bipVisit_succ, if_pos hi']
    by_cases h0 : color.getD i 0 = 0
    · rw [if_neg (by simpa using h0)]
      have henci : enc i ≠ 0 := by
        rcases henc.1 i with h | h
        · rw [h]; decide
        · rw [h]; decide
      have hcount : (color.set i (enc i)).count 0 < fuel := by
        have := count_zero_set hi' h0 henci
        omega
      have hagree' : ∀ v, (color.set i (enc i)).getD v 0 ≠ 0 →
          (color.set i (enc i)).getD v 0 = enc v := by
        intro v hv
        rcases eq_or_ne v i with hvi | hvi
        · rw [hvi, getD_set_self' (enc i) hi']
        · rw [List.getD_set_ne' (Ne.symm hvi)] at hv ⊢
          exact hagree v hv
      obtain ⟨c, hrun, hlen1, hagree1, hpers1, hcount1⟩ :=
        hB i (g.getD i []) (color.set i (enc i))
          (by rw [List.length_set]; exact hlen) hi (fun _ he => he)
          hagree' hcount
      refine ⟨c, hrun, hlen1, hagree1, ?_, ?_⟩
      · intro v hv
        have hvi : v ≠ i := fun hvi => hv (hvi ▸ h0)
        rw [hpers1 v (by rw [List.getD_set_ne' (Ne.symm hvi)]; exact hv),
          List.getD_set_ne' (Ne.symm hvi)]
      · have := count_zero_set hi' h0 henci
        omega
    · rw [if_pos h0]
      exact ⟨color, rfl, hlen, hagree, fun _ _ => rfl, le_refl _⟩

/-- Vertices with stored arcs are in range. -/
theorem mem_getD_lt {g : Graph} {b : Nat} {e : Edge} (he : e ∈ g.getD b []) :
    b < g.length := by
  by_contra h
  rw [List.getD_oob [] (Nat.le_of_not_lt h)] at he
  exact absurd he (List.not_mem_nil e)

/-- C4, counterexample: on the disconnected graph with isolated vertex
`0` and a triangle on `{1, 2, 3}` (built with `addEdge`),
`isBipartiteGraph` returns `true` — its single DFS from vertex `0` never
sees the triangle — although no proper 2-colouring exists. -/
theorem claim_C4_counterexample :
    isBipartiteGraph
        (add_edge (add_edge (add_edge (emptyGraph 4) 1 2 1) 2 3 1) 1 3 1) =
      .ok true ∧
    ¬ TwoColorable
        (add_edge (add_edge (add_edge (emptyGraph 4) 1 2 1) 2 3 1) 1 3 1) := by
  constructor
  · rfl
  · rintro ⟨c, hc⟩
    have h12 : c 1 ≠ c 2 :=
      hc 1 (by decide) ⟨1, 2, 1⟩ (by decide)
    have h23 : c 2 ≠ c 3 :=
      hc 2 (by decide) ⟨2, 3, 1⟩ (by decide)
    have h13 : c 1 ≠ c 3 :=
      hc 1 (by decide) ⟨1, 3, 1⟩ (by decide)
    cases h1 : c 1 <;> cases h2 : c 2 <;> cases h3 : c 3 <;>
      simp [h1, h2, h3] at h12 h23 h13

/-- C4 (amended): for a well-formed graph with at least one vertex in
which every vertex is reachable from vertex `0` (the DFS explores only
the component of vertex `0`), `isBipartiteGraph` returns `true` iff the
graph admits a proper 2-colouring. -/
theorem claim_C4_bipartite_iff (g : Graph) (hwf : WFGraph g)
    (h0 : 0 < g.length) (hconn : ∀ v, v < g.length → ReachG g 0 v) :
    isBipartiteGraph g = .ok true ↔ TwoColorable g := by
  have hinit : ∀ v, (List.replicate g.length (0 : Int)).getD v 0 = 0 := by
    intro v
    rw [getD_replicate']
    split
    · rfl
    · rfl
  have hcnt : (List.replicate g.length (0 : Int)).count 0 < g.length + 1 := by
    rw [List.count_replicate]
    simp
  constructor
  · intro hok
    obtain ⟨c, r, hrun, hpost, _, hset0, htrans⟩ :=
      bip_visit_ok g hwf (g.length + 1) 0 1 (List.replicate g.length 0) true
        (List.length_replicate g.length 0) h0 one_ne_zero hcnt
    have hres : isBipartiteGraph g = .ok r := by
      unfold isBipartiteGraph
      rw [hrun]
    have hr : r = true := by
      rw [hres] at hok
      exact (Except.ok.injEq r true) ▸ hok
    have hpend : PendOK g c [] := by
      refine htrans [] hr ?_
      intro v _ hcv _ _
      exact absurd (hinit v) hcv
    have hc0 : c.getD 0 0 = 1 := hset0 (hinit 0)
    have hcol : ∀ v, ReachG g 0 v → c.getD v 0 ≠ 0 := by
      intro v hv
      induction hv with
      | refl =>
        rw [hc0]
        exact one_ne_zero
      | tail _ hbc ih =>
        obtain ⟨e, he, htov⟩ := hbc
        have hb := mem_getD_lt he
        rcases hpend _ hb ih e he with ⟨hg1, _⟩ | ⟨p, hp, _⟩
        · rw [← htov]
          exact hg1
        · exact absurd hp (List.not_mem_nil p)
    have hvals : ∀ v, c.getD v 0 = 0 ∨ c.getD v 0 = 1 ∨ c.getD v 0 = -1 := by
      intro v
      rcases hpost.2.2.2.1 v with h | h | h
      · rw [h]
        exact Or.inl (hinit v)
      · exact Or.inr (Or.inl h)
      · exact Or.inr (Or.inr h)
    refine ⟨fun v => decide (c.getD v 0 = 1), ?_⟩
    intro u hu e he
    have hcu : c.getD u 0 ≠ 0 := hcol u (hconn u hu)
    rcases hpend u hu hcu e he with ⟨hg1, hg2⟩ | ⟨p, hp, _⟩
    · rcases hvals u with h | h | h
      · exact absurd h hcu
      · rcases hvals e.tov with h' | h' | h'
        · exact absurd h' hg1
        · rw [h, h'] at hg2
          exact absurd rfl hg2
        · show decide (c.getD u 0 = 1) ≠ decide (c.getD e.tov 0 = 1)
          rw [h, h']
          decide
      · rcases hvals e.tov with h' | h' | h'
        · exact absurd h' hg1
        · show decide (c.getD u 0 = 1) ≠ decide (c.getD e.tov 0 = 1)
          rw [h, h']
          decide
        · rw [h, h'] at hg2
          exact absurd rfl hg2
    · exact absurd hp (List.not_mem_nil p)
  · rintro ⟨P, hP⟩
    have hencOK : EncOK g (fun v => if P v = P 0 then (1 : Int) else -1) := by
      constructor
      · intro v
        by_cases h : P v = P 0
        · exact Or.inl (by simp [h])
        · exact Or.inr (by simp [h])
      · intro u hu e he
        have hne := hP u hu e he
        have hbool : ∀ a b c : Bool, b ≠ a → c ≠ a → b = c := by decide
        by_cases h1 : P u = P 0
        · have h2 : ¬ P e.tov = P 0 := fun h2 => hne (h1.trans h2.symm)
          show (if P e.tov = P 0 then (1 : Int) else -1) =
            -(if P u = P 0 then (1 : Int) else -1)
          rw [if_neg h2, if_pos h1]
        · have h2 : P e.tov = P 0 :=
            hbool (P u) (P e.tov) (P 0) (Ne.symm hne) (fun h => h1 h.symm)
          show (if P e.tov = P 0 then (1 : Int) else -1) =
            -(if P u = P 0 then (1 : Int) else -1)
          rw [if_pos h2, if_neg h1]
          norm_num
    obtain ⟨c, hrun, _, _, _, _⟩ :=
      bip_visit_agree g hwf _ hencOK (g.length + 1) 0
        (List.replicate g.length 0) (List.length_replicate g.length 0) h0
        (fun v hv => absurd (hinit v) hv) hcnt
    have henc0 : (fun v => if P v = P 0 then (1 : Int) else -1) 0 = 1 := by simp
    unfold isBipartiteGraph
    rw [show (1 : Int) = (fun v => if P v = P 0 then (1 : Int) else -1) 0 from
      henc0.symm, hrun]

/-- Witness for `claim_C4_bipartite_iff` on the single-edge graph. -/
theorem claim_C4_witness :
    isBipartiteGraph (add_edge (emptyGraph 2) 0 1 1) = .ok true ↔
      TwoColorable (add_edge (emptyGraph 2) 0 1 1) :=
  claim_C4_bipartite_iff (add_edge (emptyGraph 2) 0 1 1)
    (by
      unfold WFGraph
      decide)
    (by decide)
    (by
      intro v hv
      match v, hv with
      | 0, _ => exact Relation.ReflTransGen.refl
      | 1, _ =>
        exact Relation.ReflTransGen.single ⟨⟨0, 1, 1⟩, by decide, rfl⟩)

/-! Invariants of the topological-sort DFS. -/

theorem tsVisit_succ (g : Graph) (fuel v : Nat) (color order : List Nat) :
    tsVisit g (fuel + 1) v color order =
      match tsArcs g fuel (g.getD v []) (color.set v 1) order with
      | none => none
      | some (false, c, o) => some (false, c, o)
      | some (true, c, o) => some (true, c.set v 2, o ++ [v]) := rfl

theorem tsArcs_nil (g : Graph) (fuel : Nat) (color order : List Nat) :
    tsArcs g fuel [] color order = some (true, color, order) := rfl

theorem tsArcs_cons (g : Graph) (fuel : Nat) (e : Edge) (es : List Edge)
    (color order : List Nat) :
    tsArcs g fuel (e :: es) color order =
      if color.getD e.tov 0 = 2 then tsArcs g fuel es color order
      else if color.getD e.tov 0 = 1 then some (false, color, order)
      else
        match tsVisit g fuel e.tov color order with
        | none => none
        | some (false, c, o) => some (false, c, o)
        | some (true, c, o) => tsArcs g fuel es c o := rfl

theorem count_zero_posN {l : List Nat} {i : Nat} (hi : i < l.length)
    (h0 : l.getD i 0 = 0) : 0 < l.count 0 := by
  induction l generalizing i with
  | nil => exact absurd hi (by simp)
  | cons a t ih =>
    cases i with
    | zero =>
      simp only [List.getD_cons_zero] at h0
      subst h0
      simp [List.count_cons]
    | succ i =>
      have := ih (Nat.lt_of_succ_lt_succ hi) (by simpa using h0)
      simp only [List.count_cons]
      omega

theorem count_zero_setN {l : List Nat} {i : Nat} {x : Nat} (hi : i < l.length)
    (h0 : l.getD i 0 = 0) (hx : x ≠ 0) :
    (l.set i x).count 0 + 1 = l.count 0 := by
  induction l generalizing i with
  | nil => exact absurd hi (by simp)
  | cons a t ih =>
    cases i with
    | zero =>
      simp only [List.getD_cons_zero] at h0
      subst h0
      simp [List.count_cons, hx]
    | succ i =>
      have := ih (Nat.lt_of_succ_lt_succ hi) (by simpa using h0)
      simp only [List.set_cons_succ, List.count_cons]
      omega

theorem count_zero_set_neN {l : List Nat} {i : Nat} {x : Nat}
    (hold : l.getD i 0 ≠ 0) (hx : x ≠ 0) :
    (l.set i x).count 0 = l.count 0 := by
  induction l generalizing i with
  | nil => simp
  | cons a t ih =>
    cases i with
    | zero =>
      simp only [List.getD_cons_zero] at hold
      simp [List.count_cons, hx, hold]
    | succ i =>
      have := ih (by simpa using hold)
      simp only [List.set_cons_succ, List.count_cons]
      omega

theorem getD_set_selfN {l : List Nat} {i : Nat} (x : Nat) (hi : i < l.length) :
    (l.set i x).getD i 0 = x := by
  rw [List.getD_eq_getElem?_getD, List.getElem?_set_self hi, Option.getD_some]

theorem ts_arcs_ok (g : Graph) (hwf : WFGraph g) (fuel : Nat)
    (hA : TsVisitOK g fuel) : TsArcsOK g fuel := by
  intro v es
  induction es with
  | nil =>
    intro color order hinv hv _ _ _ _
    exact Or.inr ⟨color, order, tsArcs_nil g fuel color order, hinv,
      ⟨[], (List.append_nil order).symm⟩, le_refl _, fun _ => Iff.rfl,
      fun _ h => h, fun e he => absurd he (List.not_mem_nil e)⟩
  | cons e es ih =>
    intro color order hinv hv hsub hgray hfuel hreach
    have hee : e ∈ g.getD v [] := hsub e (List.mem_cons_self e es)
    have htov : e.tov < g.length := (wf_arc hwf hv hee).2
    rw [tsArcs_cons]
    by_cases h2 : color.getD e.tov 0 = 2
    · rw [if_pos h2]
      rcases ih color order hinv hv
          (fun e' he' => hsub e' (List.mem_cons_of_mem e he')) hgray hfuel
          hreach with
        ⟨c, o, hrun, hcyc⟩ | ⟨c, o, hrun, hinv2, hext2, hcnt2, hg2, hb2, ht2⟩
      · exact Or.inl ⟨c, o, hrun, hcyc⟩
      · refine Or.inr ⟨c, o, hrun, hinv2, hext2, hcnt2, hg2, hb2, ?_⟩
        intro e' he'
        rcases List.mem_cons.mp he' with rfl | he'
        · exact hb2 e'.tov h2
        · exact ht2 e' he'
    · rw [if_neg h2]
      by_cases h1 : color.getD e.tov 0 = 1
      · rw [if_pos h1]
        exact Or.inl ⟨color, order, rfl,
          ⟨v, e.tov, ⟨e, hee, rfl⟩, hreach e.tov htov h1⟩⟩
      · rw [if_neg h1]
        have h0 : color.getD e.tov 0 = 0 := by
          rcases hinv.2.2.2.2.2 e.tov with h | h | h
          · exact h
          · exact absurd h h1
          · exact absurd h h2
        have hreach' : ∀ u, u < g.length → color.getD u 0 = 1 →
            ReachG g u e.tov := fun u hu hgu =>
          Relation.ReflTransGen.tail (hreach u hu hgu) ⟨e, hee, rfl⟩
        rcases hA e.tov color order hinv htov h0 hfuel hreach' with
          ⟨c, o, hrunA, hcyc⟩ |
          ⟨c1, o1, hrunA, hinv1, hext1, hcnt1, hg1, hb1, hctov⟩
        · refine Or.inl ⟨c, o, ?_, hcyc⟩
          simp only [hrunA]
        · rcases ih c1 o1 hinv1 hv
              (fun e' he' => hsub e' (List.mem_cons_of_mem e he'))
              ((hg1 v).mpr hgray) (lt_of_le_of_lt hcnt1 hfuel)
              (fun u hu hgu => hreach u hu ((hg1 u).mp hgu)) with
            ⟨c, o, hrun2, hcyc⟩ |
            ⟨c, o, hrun2, hinv2, hext2, hcnt2, hg2, hb2, ht2⟩
          · refine Or.inl ⟨c, o, ?_, hcyc⟩
            simp only [hrunA]
            exact hrun2
          · refine Or.inr ⟨c, o, ?_, hinv2, ?_, hcnt2.trans hcnt1, ?_, ?_, ?_⟩
            · simp only [hrunA]
              exact hrun2
            · obtain ⟨t1, ht1⟩ := hext1
              obtain ⟨t2, ht2'⟩ := hext2
              exact ⟨t1 ++ t2, by rw [ht2', ht1, List.append_assoc]⟩
            · intro u
              exact (hg2 u).trans (hg1 u)
            · intro u hu
              exact hb2 u (hb1 u hu)
            · intro e' he'
              rcases List.mem_cons.mp he' with rfl | he'
              · exact hb2 e'.tov hctov
              · exact ht2 e' he'

theorem ts_visit_ok (g : Graph) (hwf : WFGraph g) :
    ∀ fuel, TsVisitOK g fuel := by
  intro fuel
  induction fuel with
  | zero =>
    intro v color order _ _ _ hfuel _
    exact absurd hfuel (Nat.not_lt_zero _)
  | succ fuel ih =>
    have hB := ts_arcs_ok g hwf fuel ih
    intro v color order hinv hv h0 hfuel hreach
    have hv' : v < color.length := hinv.1 ▸ hv
    have hinv1 : TsInv g (color.set v 1) order := by
      obtain ⟨hlen, hiff, hnd, hmem, hclose, hvals⟩ := hinv
      refine ⟨by rw [List.length_set]; exact hlen, ?_, hnd, hmem, hclose, ?_⟩
      · intro u hu
        rcases eq_or_ne u v with hue | hue
        · rw [hue, getD_set_selfN 1 hv']
          constructor
          · intro h
            exact absurd h (by decide)
          · intro h
            have hc2 := (hiff v hv).mpr h
            rw [h0] at hc2
            exact absurd hc2 (by decide)
        · rw [List.getD_set_ne' (Ne.symm hue)]
          exact hiff u hu
      · intro u
        rcases eq_or_ne u v with hue | hue
        · rw [hue, getD_set_selfN 1 hv']
          exact Or.inr (Or.inl rfl)
        · rw [List.getD_set_ne' (Ne.symm hue)]
          exact hvals u
    have hcnt1 : (color.set v 1).count 0 < fuel := by
      have := count_zero_setN hv' h0 (show (1 : Nat) ≠ 0 by decide)
      omega
    have hreach1 : ∀ u, u < g.length → (color.set v 1).getD u 0 = 1 →
        ReachG g u v := by
      intro u hu hgu
      rcases eq_or_ne u v with hue | hue
      · rw [hue]
        exact Relation.ReflTransGen.refl
      · rw [List.getD_set_ne' (Ne.symm hue)] at hgu
        exact hreach u hu hgu
    rcases hB v (g.getD v []) (color.set v 1) order hinv1 hv (fun _ he => he)
        (getD_set_selfN 1 hv') hcnt1 hreach1 with
      ⟨c, o, hrun, hcyc⟩ |
      ⟨c, o, hrun, hinv2, hext2, hcnt2, hg2, hb2, htgt⟩
    · refine Or.inl ⟨c, o, ?_, hcyc⟩
      rw [tsVisit_succ]
      simp only [hrun]
    · have hcv1 : c.getD v 0 = 1 := (hg2 v).mpr (getD_set_selfN 1 hv')
      have hclen : c.length = g.length := hinv2.1
      have hcv' : v < c.length := hclen ▸ hv
      have hvno : v ∉ o := fun hvo =>
        absurd ((hinv2.2.1 v hv).mpr hvo) (by rw [hcv1]; decide)
      refine Or.inr ⟨c.set v 2, o ++ [v], ?_, ?_, ?_, ?_, ?_, ?_, ?_⟩
      · rw [tsVisit_succ]
        simp only [hrun]
      · obtain ⟨hlen2, hiff2, hnd2, hmem2, hclose2, hvals2⟩ := hinv2
        refine ⟨by rw [List.length_set]; exact hlen2, ?_, ?_, ?_, ?_, ?_⟩
        · intro u hu
          rcases eq_or_ne u v with hue | hue
          · rw [hue, getD_set_selfN 2 hcv']
            simp
          · rw [List.getD_set_ne' (Ne.symm hue)]
            rw [List.mem_append, List.mem_singleton]
            constructor
            · intro h
              exact Or.inl ((hiff2 u hu).mp h)
            · intro h
              rcases h with h | h
              · exact (hiff2 u hu).mpr h
              · exact absurd h hue
        · rw [List.nodup_append]
          exact ⟨hnd2, List.nodup_singleton v,
            fun x hx hx' => hvno ((List.mem_singleton.mp hx') ▸ hx)⟩
        · intro u hu
          rcases List.mem_append.mp hu with hu | hu
          · exact hmem2 u hu
          · rw [List.mem_singleton.mp hu]
            exact hv
        · intro u hu e he
          rcases List.mem_append.mp hu with hu | hu
          · obtain ⟨hto, hidx⟩ := hclose2 u hu e he
            refine ⟨List.mem_append_left _ hto, ?_⟩
            rw [List.indexOf_append_of_mem hto, List.indexOf_append_of_mem hu]
            exact hidx
          · have huv : u = v := List.mem_singleton.mp hu
            subst huv
            have htov : e.tov < g.length := (wf_arc hwf hv he).2
            have hblk : c.getD e.tov 0 = 2 := htgt e he
            have hto : e.tov ∈ o := (hiff2 e.tov htov).mp hblk
            refine ⟨List.mem_append_left _ hto, ?_⟩
            rw [List.indexOf_append_of_mem hto,
              List.indexOf_append_of_not_mem hvno]
            have := List.indexOf_lt_length.mpr hto
            simp only [List.indexOf_cons_self]
            omega
        · intro u
          rcases eq_or_ne u v with hue | hue
          · rw [hue, getD_set_selfN 2 hcv']
            exact Or.inr (Or.inr rfl)
          · rw [List.getD_set_ne' (Ne.symm hue)]
            exact hvals2 u
      · obtain ⟨t, ht⟩ := hext2
        exact ⟨t ++ [v], by rw [ht, List.append_assoc]⟩
      · have h1 : (c.set v 2).count 0 = c.count 0 :=
          count_zero_set_neN (by rw [hcv1]; decide) (by decide)
        have h2 := count_zero_setN hv' h0 (show (1 : Nat) ≠ 0 by decide)
        omega
      · intro u
        rcases eq_or_ne u v with hue | hue
        · rw [hue, getD_set_selfN 2 hcv']
          constructor
          · intro h
            exact absurd h (by decide)
          · intro h
            exact absurd (h0 ▸ (hue ▸ h : color.getD v 0 = 1)) (by rw [h0] at *; omega)
        · rw [List.getD_set_ne' (Ne.symm hue)]
          exact ((hg2 u).trans (by rw [List.getD_set_ne' (Ne.symm hue)]))
      · intro u hu2
        have hue : u ≠ v := fun hue => by
          rw [hue, h0] at hu2
          exact absurd hu2 (by decide)
        rw [List.getD_set_ne' (Ne.symm hue)]
        exact hb2 u (by rw [List.getD_set_ne' (Ne.symm hue)]; exact hu2)
      · exact getD_set_selfN 2 hcv'

theorem getD_replicateN {n m a : Nat} :
    (List.replicate n a).getD m 0 = if m < n then a else 0 := by
  rw [List.getD_eq_getElem?_getD, List.getElem?_replicate]
  split
  · rfl
  · rfl

theorem tsRoots_nil (g : Graph) (color order : List Nat) :
    tsRoots g [] color order = some (true, color, order) := rfl

theorem tsRoots_cons (g : Graph) (i : Nat) (is : List Nat)
    (color order : List Nat) :
    tsRoots g (i :: is) color order =
      if color.getD i 0 ≠ 0 then tsRoots g is color order
      else
        match tsVisit g (g.length + 1) i color order with
        | none => none
        | some (false, c, o) => some (false, c, o)
        | some (true, c, o) => tsRoots g is c o := rfl

theorem ts_roots_ok (g : Graph) (hwf : WFGraph g) :
    ∀ roots (color order : List Nat), TsInv g color order →
    (∀ i ∈ roots, i < g.length) → (∀ u, color.getD u 0 ≠ 1) →
    (∃ c o, tsRoots g roots color order = some (false, c, o) ∧ HasCycleG g) ∨
    (∃ c o, tsRoots g roots color order = some (true, c, o) ∧
      TsInv g c o ∧ (∀ u, c.getD u 0 ≠ 1) ∧
      (∀ i ∈ roots, c.getD i 0 = 2) ∧
      (∀ u, color.getD u 0 = 2 → c.getD u 0 = 2)) := by
  intro roots
  induction roots with
  | nil =>
    intro color order hinv _ hng
    exact Or.inr ⟨color, order, tsRoots_nil g color order, hinv, hng,
      fun i hi => absurd hi (List.not_mem_nil i), fun _ h => h⟩
  | cons i is ih =>
    intro color order hinv hmem hng
    have hi : i < g.length := hmem i (List.mem_cons_self i is)
    rw [tsRoots_cons]
    by_cases h0 : color.getD i 0 = 0
    · rw [if_neg (by simpa using h0)]
      have hcnt : color.count 0 < g.length + 1 := by
        have h1 := List.count_le_length 0 color
        have h2 := hinv.1
        omega
      rcases ts_visit_ok g hwf (g.length + 1) i color order hinv hi h0 hcnt
          (fun u _ hgu => absurd hgu (hng u)) with
        ⟨c, o, hrunA, hcyc⟩ |
        ⟨c1, o1, hrunA, hinv1, _, _, hg1, hb1, hci⟩
      · refine Or.inl ⟨c, o, ?_, hcyc⟩
        simp only [hrunA]
      · have hng1 : ∀ u, c1.getD u 0 ≠ 1 := fun u hgu =>
          hng u ((hg1 u).mp hgu)
        rcases ih c1 o1 hinv1 (fun j hj => hmem j (List.mem_cons_of_mem i hj))
            hng1 with
          ⟨c, o, hrun2, hcyc⟩ |
          ⟨c, o, hrun2, hinv2, hng2, hblk2, hb2⟩
        · refine Or.inl ⟨c, o, ?_, hcyc⟩
          simp only [hrunA]
          exact hrun2
        · refine Or.inr ⟨c, o, ?_, hinv2, hng2, ?_, fun u hu => hb2 u (hb1 u hu)⟩
          · simp only [hrunA]
            exact hrun2
          · intro j hj
            rcases List.mem_cons.mp hj with rfl | hj
            · exact hb2 j hci
            · exact hblk2 j hj
    · rw [if_pos (by simpa using h0)]
      have h2 : color.getD i 0 = 2 := by
        rcases hinv.2.2.2.2.2 i with h | h | h
        · exact absurd h h0
        · exact absurd h (hng i)
        · exact h
      rcases ih color order hinv (fun j hj => hmem j (List.mem_cons_of_mem i hj))
          hng with
        ⟨c, o, hrun2, hcyc⟩ | ⟨c, o, hrun2, hinv2, hng2, hblk2, hb2⟩
      · exact Or.inl ⟨c, o, hrun2, hcyc⟩
      · refine Or.inr ⟨c, o, hrun2, hinv2, hng2, ?_, hb2⟩
        intro j hj
        rcases List.mem_cons.mp hj with rfl | hj
        · exact hb2 j h2
        · exact hblk2 j hj

theorem indexOf_reverse_nodup {l : List Nat} (h : l.Nodup) {x : Nat}
    (hx : x ∈ l) :
    l.reverse.indexOf x = l.length - 1 - l.indexOf x := by
  have hi : l.indexOf x < l.length := List.indexOf_lt_length.mpr hx
  have hj : l.length - 1 - l.indexOf x < l.reverse.length := by
    rw [List.length_reverse]
    omega
  have hx' : l.reverse[l.length - 1 - l.indexOf x] = x := by
    rw [List.getElem_reverse]
    have harith : l.length - 1 - (l.length - 1 - l.indexOf x) = l.indexOf x := by
      omega
    simp only [harith]
    exact List.getElem_indexOf hi
  conv_lhs => rw [← hx']
  exact List.indexOf_getElem (List.nodup_reverse.mpr h) _ hj

theorem indexOf_reverse_lt {l : List Nat} (h : l.Nodup) {x y : Nat}
    (hx : x ∈ l) (hy : y ∈ l) (hlt : l.indexOf y < l.indexOf x) :
    l.reverse.indexOf x < l.reverse.indexOf y := by
  rw [indexOf_reverse_nodup h hx, indexOf_reverse_nodup h hy]
  have h1 : l.indexOf x < l.length := List.indexOf_lt_length.mpr hx
  omega

/-- C5: on a well-formed directed graph, `TopologicalSort` returns `true`
exactly when the graph is acyclic, and then the output order is a
permutation of all vertices in which the source of every stored arc
appears strictly before its target; on a cyclic graph it returns `false`. -/
theorem claim_C5_toposort (g : Graph) (hwf : WFGraph g) :
    ((TopologicalSort g).1 = true ↔ ¬ HasCycleG g) ∧
    ((TopologicalSort g).1 = true →
      (TopologicalSort g).2.Perm (List.range g.length) ∧
      (∀ u, u < g.length → ∀ e ∈ g.getD u [],
        (TopologicalSort g).2.indexOf u <
          (TopologicalSort g).2.indexOf e.tov)) := by
  have hinv0 : TsInv g (List.replicate g.length 0) [] := by
    refine ⟨List.length_replicate g.length 0, ?_, List.nodup_nil, ?_, ?_, ?_⟩
    · intro v _
      rw [getD_replicateN]
      constructor
      · intro h
        split at h
        · exact absurd h (by decide)
        · exact absurd h (by decide)
      · intro h
        exact absurd h (List.not_mem_nil v)
    · intro v hv
      exact absurd hv (List.not_mem_nil v)
    · intro v hv
      exact absurd hv (List.not_mem_nil v)
    · intro v
      rw [getD_replicateN]
      split
      · exact Or.inl rfl
      · exact Or.inl rfl
  have hng0 : ∀ u, (List.replicate g.length (0 : Nat)).getD u 0 ≠ 1 := by
    intro u
    rw [getD_replicateN]
    split
    · decide
    · decide
  rcases ts_roots_ok g hwf (List.range g.length) (List.replicate g.length 0) []
      hinv0 (fun i hi => List.mem_range.mp hi) hng0 with
    ⟨c, o, hrun, hcyc⟩ | ⟨c, o, hrun, hinv2, hng2, hblk2, _⟩
  · have hres : TopologicalSort g = (false, o) := by
      unfold TopologicalSort
      rw [hrun]
    rw [hres]
    constructor
    · constructor
      · intro h
        simp at h
      · intro h
        exact absurd hcyc h
    · intro h
      simp at h
  · have hres : TopologicalSort g = (true, o.reverse) := by
      unfold TopologicalSort
      rw [hrun]
    have hnd : o.Nodup := hinv2.2.2.1
    have hperm : o.Perm (List.range g.length) := by
      have hsub1 : o.Subperm (List.range g.length) :=
        List.subperm_of_subset hnd
          (fun x hx => List.mem_range.mpr (hinv2.2.2.2.1 x hx))
      have hsub2 : (List.range g.length).Subperm o :=
        List.subperm_of_subset (List.nodup_range g.length)
          (fun x hx =>
            (hinv2.2.1 x (List.mem_range.mp hx)).mp
              (hblk2 x hx))
      exact hsub1.perm_of_length_le hsub2.length_le
    have hrespects : ∀ u, u < g.length → ∀ e ∈ g.getD u [],
        o.reverse.indexOf u < o.reverse.indexOf e.tov := by
      intro u hu e he
      have hmemu : u ∈ o := (hinv2.2.1 u hu).mp
        (hblk2 u (List.mem_range.mpr hu))
      obtain ⟨hto, hidx⟩ := hinv2.2.2.2.2.1 u hmemu e he
      exact indexOf_reverse_lt hnd hmemu hto hidx
    rw [hres]
    refine ⟨⟨fun _ => ?_, fun _ => rfl⟩, fun _ => ⟨(o.reverse_perm).trans hperm, hrespects⟩⟩
    rintro ⟨a, b, hadj, hreach⟩
    obtain ⟨e, he, htov⟩ := hadj
    have ha : a < g.length := mem_getD_lt he
    have hab : o.reverse.indexOf a < o.reverse.indexOf b := by
      rw [← htov]
      exact hrespects a ha e he
    have hba : o.reverse.indexOf b ≤ o.reverse.indexOf a := by
      clear hab htov he
      induction hreach with
      | refl => exact le_refl _
      | tail hm hadj2 ih =>
        obtain ⟨e2, he2, htov2⟩ := hadj2
        have hm2 := mem_getD_lt he2
        have := hrespects _ hm2 e2 he2
        rw [htov2] at this
        omega
    omega

/-- Witness for `claim_C5_toposort` on the DAG `0 → 1 → 2`, `0 → 2`. -/
theorem claim_C5_witness :
    ((TopologicalSort
        (add_arc (add_arc (add_arc (emptyGraph 3) 0 1 1) 0 2 1) 1 2 1)).1 =
          true ↔
      ¬ HasCycleG
        (add_arc (add_arc (add_arc (emptyGraph 3) 0 1 1) 0 2 1) 1 2 1)) ∧
    ((TopologicalSort
        (add_arc (add_arc (add_arc (emptyGraph 3) 0 1 1) 0 2 1) 1 2 1)).1 =
          true →
      (TopologicalSort
        (add_arc (add_arc (add_arc (emptyGraph 3) 0 1 1) 0 2 1) 1 2 1)).2.Perm
          (List.range
            (add_arc (add_arc (add_arc (emptyGraph 3) 0 1 1) 0 2 1)
              1 2 1).length) ∧
      (∀ u, u < (add_arc (add_arc (add_arc (emptyGraph 3) 0 1 1) 0 2 1)
            1 2 1).length →
        ∀ e ∈ (add_arc (add_arc (add_arc (emptyGraph 3) 0 1 1) 0 2 1)
            1 2 1).getD u [],
          (TopologicalSort
            (add_arc (add_arc (add_arc (emptyGraph 3) 0 1 1) 0 2 1)
              1 2 1)).2.indexOf u <
            (TopologicalSort
              (add_arc (add_arc (add_arc (emptyGraph 3) 0 1 1) 0 2 1)
                1 2 1)).2.indexOf e.tov)) :=
  claim_C5_toposort (add_arc (add_arc (add_arc (emptyGraph 3) 0 1 1) 0 2 1) 1 2 1)
    (by
      unfold WFGraph
      decide)

theorem mset_mget_self {V : Nat} {m : Mat} (hsq : SquareM V m) (i j : Nat) :
    mset m i j (mget m i j) = m := by
  unfold mset mget
  rw [List.set_getD_self, List.set_getD_self]

theorem fwRelax_eq {V : Nat} {m : Mat} (hsq : SquareM V m) {i j : Nat}
    (k : Nat) (hi : i < V) (hj : j < V) :
    fwRelax m k i j = mset m i j (relaxV (mget m i j) (mget m i k) (mget m k j)) := by
  unfold fwRelax relaxV
  split
  · rfl
  · rw [mset_mget_self hsq]

theorem cellF_kk (s : Mat) (k : Nat) : cellF s k k k = dkkF s k := by
  unfold cellF
  rw [if_pos rfl, if_pos rfl]

theorem cellF_rowk (s : Mat) {k j : Nat} (hj : j ≠ k) :
    cellF s k k j = rowF s k j := by
  unfold cellF
  rw [if_pos rfl, if_neg hj]

theorem cellF_colk (s : Mat) {k i : Nat} (hi : i ≠ k) :
    cellF s k i k = colF s k i := by
  unfold cellF
  rw [if_neg hi, if_pos rfl]

theorem cellF_gen (s : Mat) {k i j : Nat} (hi : i ≠ k) (hj : j ≠ k) :
    cellF s k i j =
      relaxV (mget s i j) (if k < j then colF s k i else mget s i k)
        (if k < i then rowF s k j else mget s k j) := by
  unfold cellF
  rw [if_neg hi, if_neg hj]

theorem fwRelax_step {V : Nat} {s m : Mat} (hs : SquareM V s) {k i0 j0 : Nat}
    (hk : k < V) (hi0 : i0 < V) (hj0 : j0 < V)
    (hm : MidRound V s k i0 j0 m) :
    MidRound V s k i0 (j0 + 1) (fwRelax m k i0 j0) := by
  obtain ⟨hsq, hmid⟩ := hm
  rw [fwRelax_eq hsq k hi0 hj0]
  refine ⟨squareM_mset hsq _ _ _, ?_⟩
  intro i j hi hj
  rcases Decidable.em (i = i0 ∧ j = j0) with ⟨rfl, rfl⟩ | hne
  · rw [mget_mset_self hsq hi hj]
    rw [if_pos (Or.inr ⟨rfl, Nat.lt_succ_self j⟩)]
    have hcur : mget m i j = mget s i j := by
      rw [hmid i j hi hj, if_neg]
      intro hc
      rcases hc with hc | ⟨_, hc⟩
      · exact absurd hc (lt_irrefl i)
      · exact absurd hc (lt_irrefl j)
    have hik : mget m i k =
        if k < j then cellF s k i k else mget s i k := by
      rw [hmid i k hi hk]
      rcases Nat.lt_or_ge k j with h | h
      · rw [if_pos (Or.inr ⟨rfl, h⟩), if_pos h]
      · rw [if_neg, if_neg (Nat.not_lt.mpr h)]
        intro hc
        rcases hc with hc | ⟨_, hc⟩
        · exact absurd hc (lt_irrefl i)
        · exact absurd hc (Nat.not_lt.mpr h)
    have hkj : mget m k j =
        if k < i then cellF s k k j else mget s k j := by
      rw [hmid k j hk hj]
      rcases Nat.lt_or_ge k i with h | h
      · rw [if_pos (Or.inl h), if_pos h]
      · rw [if_neg, if_neg (Nat.not_lt.mpr h)]
        intro hc
        rcases hc with hc | ⟨hc, hc'⟩
        · exact absurd hc (Nat.not_lt.mpr h)
        · subst hc
          exact absurd hc' (lt_irrefl j)
    rcases eq_or_ne i k with hik' | hik'
    · rcases eq_or_ne j k with hjk' | hjk'
      · rw [hik', hjk'] at hcur ⊢
        rw [hcur, cellF_kk]
        unfold dkkF
        rfl
      · rw [hik'] at hcur hik ⊢
        rw [cellF_kk] at hik
        rw [hcur, hik, cellF_rowk s hjk']
        unfold rowF
        rfl
    · rcases eq_or_ne j k with hjk' | hjk'
      · rw [hjk'] at hik hkj ⊢
        rw [if_neg (lt_irrefl k)] at hik
        rw [cellF_kk] at hkj
        rw [hik, hkj, cellF_colk s hik']
        unfold colF
        rfl
      · rw [cellF_colk s hik'] at hik
        rw [cellF_rowk s hjk'] at hkj
        rw [hcur, hik, hkj, cellF_gen s hik' hjk']
  · rw [mget_mset_ne _ hne, hmid i j hi hj]
    have hiff : (i < i0 ∨ (i = i0 ∧ j < j0)) ↔
        (i < i0 ∨ (i = i0 ∧ j < j0 + 1)) := by
      constructor
      · intro hc
        rcases hc with hc | ⟨hc, hc'⟩
        · exact Or.inl hc
        · exact Or.inr ⟨hc, Nat.lt_succ_of_lt hc'⟩
      · intro hc
        rcases hc with hc | ⟨hc, hc'⟩
        · exact Or.inl hc
        · subst hc
          have hjne : j ≠ j0 := fun hj' => hne ⟨rfl, hj'⟩
          exact Or.inr ⟨rfl, by omega⟩
    rcases Decidable.em (i < i0 ∨ (i = i0 ∧ j < j0)) with hp | hp
    · rw [if_pos hp, if_pos (hiff.mp hp)]
    · rw [if_neg hp, if_neg (fun hc => hp (hiff.mpr hc))]

theorem fwRowN_char {V : Nat} {s m : Mat} (hs : SquareM V s) {k i0 : Nat}
    (hk : k < V) (hi0 : i0 < V) :
    ∀ n, n ≤ V → MidRound V s k i0 0 m →
      MidRound V s k i0 n (fwRowN n m k i0) := by
  intro n
  induction n with
  | zero =>
    intro _ hm
    exact hm
  | succ n ihn =>
    intro hn hm
    have hstep := ihn (Nat.le_of_succ_le hn) hm
    unfold fwRowN
    rw [List.range_succ, List.foldl_append]
    exact fwRelax_step hs hk hi0 (Nat.lt_of_succ_le hn) hstep

theorem midRound_shift {V : Nat} {s : Mat} {k i0 : Nat} {m : Mat}
    (h : MidRound V s k i0 V m) : MidRound V s k (i0 + 1) 0 m := by
  obtain ⟨hsq, hmid⟩ := h
  refine ⟨hsq, ?_⟩
  intro i j hi hj
  rw [hmid i j hi hj]
  have hiff : (i < i0 ∨ (i = i0 ∧ j < V)) ↔ (i < i0 + 1 ∨ (i = i0 + 1 ∧ j < 0)) := by
    constructor
    · intro hc
      rcases hc with hc | ⟨hc, _⟩
      · exact Or.inl (Nat.lt_succ_of_lt hc)
      · exact Or.inl (by omega)
    · intro hc
      rcases hc with hc | ⟨_, hc⟩
      · rcases Nat.lt_or_ge i i0 with h' | h'
        · exact Or.inl h'
        · exact Or.inr ⟨by omega, hj⟩
      · exact absurd hc (Nat.not_lt_zero j)
  rcases Decidable.em (i < i0 ∨ (i = i0 ∧ j < V)) with hp | hp
  · rw [if_pos hp, if_pos (hiff.mp hp)]
  · rw [if_neg hp, if_neg (fun hc => hp (hiff.mpr hc))]

theorem fwRoundN_char {V : Nat} {s : Mat} (hs : SquareM V s) {k : Nat}
    (hk : k < V) :
    ∀ n, n ≤ V → MidRound V s k n 0 (fwRoundN V n s k) := by
  intro n
  induction n with
  | zero =>
    intro _
    refine ⟨hs, ?_⟩
    intro i j hi hj
    rw [if_neg (by omega : ¬(i < 0 ∨ (i = 0 ∧ j < 0)))]
    rfl
  | succ n ihn =>
    intro hn
    have hprev := ihn (Nat.le_of_succ_le hn)
    unfold fwRoundN
    rw [List.range_succ, List.foldl_append]
    have hrow := fwRowN_char hs hk (Nat.lt_of_succ_le hn) V (le_refl V) hprev
    exact midRound_shift hrow

/-- Closed form of one round: after `fwRound V s k`, every cell `(i, j)`
holds `cellF s k i j`. -/
theorem fwRound_char {V : Nat} {s : Mat} (hs : SquareM V s) {k : Nat}
    (hk : k < V) :
    SquareM V (fwRound V s k) ∧
      ∀ i j, i < V → j < V → mget (fwRound V s k) i j = cellF s k i j := by
  obtain ⟨hsq, hmid⟩ := fwRoundN_char hs hk V (le_refl V)
  unfold fwRound
  refine ⟨hsq, ?_⟩
  intro i j hi hj
  rw [hmid i j hi hj, if_pos (Or.inl hi)]

/-! Symmetry is preserved by a round. -/

theorem relaxV_comm (cur x y : Int) : relaxV cur x y = relaxV cur y x := by
  unfold relaxV
  rcases Decidable.em (x ≠ INF ∧ y ≠ INF) with h | h
  · rw [if_pos h, if_pos ⟨h.2, h.1⟩, Int.add_comm]
  · rw [if_neg h, if_neg (fun h' => h ⟨h'.2, h'.1⟩)]

theorem colF_eq_rowF {V : Nat} {s : Mat} (hsym : SymM V s) {k i : Nat}
    (hk : k < V) (hi : i < V) : colF s k i = rowF s k i := by
  unfold colF rowF
  rw [hsym i k hi hk, relaxV_comm]

theorem cellF_symm {V : Nat} {s : Mat} (hsym : SymM V s) {k i j : Nat}
    (hk : k < V) (hi : i < V) (hj : j < V) :
    cellF s k i j = cellF s k j i := by
  rcases eq_or_ne i k with hik | hik
  · rcases eq_or_ne j k with hjk | hjk
    · rw [hik, hjk]
    · rw [hik, cellF_rowk s hjk, cellF_colk s hjk, colF_eq_rowF hsym hk hj]
  · rcases eq_or_ne j k with hjk | hjk
    · rw [hjk, cellF_colk s hik, cellF_rowk s hik, colF_eq_rowF hsym hk hi]
    · rw [cellF_gen s hik hjk, cellF_gen s hjk hik]
      rw [hsym i j hi hj, relaxV_comm]
      congr 1
      · rcases Nat.lt_or_ge k i with h | h
        · rw [if_pos h, if_pos h, colF_eq_rowF hsym hk hj]
        · rw [if_neg (Nat.not_lt.mpr h), if_neg (Nat.not_lt.mpr h),
            hsym k j hk hj]
      · rcases Nat.lt_or_ge k j with h | h
        · rw [if_pos h, if_pos h, colF_eq_rowF hsym hk hi]
        · rw [if_neg (Nat.not_lt.mpr h), if_neg (Nat.not_lt.mpr h),
            hsym i k hi hk]

theorem fwRound_symm {V : Nat} {s : Mat} (hs : SquareM V s) (hsym : SymM V s)
    {k : Nat} (hk : k < V) :
    SquareM V (fwRound V s k) ∧ SymM V (fwRound V s k) := by
  obtain ⟨hsq, hchar⟩ := fwRound_char hs hk
  refine ⟨hsq, ?_⟩
  intro i j hi hj
  rw [hchar i j hi hj, hchar j i hj hi]
  exact cellF_symm hsym hk hi hj

/-- A fold invariant helper. -/
theorem foldl_invariant {α β : Type} {P : β → Prop} {f : β → α → β}
    {l : List α} (hf : ∀ b x, x ∈ l → P b → P (f b x)) :
    ∀ b, P b → P (l.foldl f b) := by
  induction l with
  | nil => intro b hb; exact hb
  | cons x xs ih =>
    intro b hb
    exact ih (fun b' x' hx' hb' => hf b' x' (List.mem_cons_of_mem x hx') hb')
      (f b x) (hf b x (List.mem_cons_self x xs) hb)

theorem foldl_ext {α β : Type} {f f' : β → α → β} {l : List α}
    (h : ∀ b x, x ∈ l → f b x = f' b x) :
    ∀ b, l.foldl f b = l.foldl f' b := by
  induction l with
  | nil => intro b; rfl
  | cons x xs ih =>
    intro b
    rw [List.foldl_cons, List.foldl_cons, h b x (List.mem_cons_self x xs)]
    exact ih (fun b' x' hx' => h b' x' (List.mem_cons_of_mem x hx')) _

theorem foldl_range_getD {α β : Type} (g : List α) (d : α) (F : β → α → β)
    (b : β) :
    (List.range g.length).foldl (fun m i => F m (g.getD i d)) b =
      g.foldl F b := by
  induction g using List.reverseRecOn generalizing b with
  | nil => rfl
  | append_singleton g a ih =>
    rw [List.length_append, List.length_singleton, List.range_succ,
      List.foldl_append, List.foldl_append]
    have hmid : (List.range g.length).foldl
        (fun m i => F m ((g ++ [a]).getD i d)) b =
        (List.range g.length).foldl (fun m i => F m (g.getD i d)) b := by
      refine foldl_ext ?_ b
      intro b' x hx
      rw [List.getD_append g [a] d x (List.mem_range.mp hx)]
    rw [hmid, ih]
    rw [List.foldl_cons, List.foldl_nil, List.foldl_cons, List.foldl_nil]
    rw [List.getD_eq_getElem?_getD, List.getElem?_concat_length,
      Option.getD_some]

theorem initMatrix_flatten (g : Graph) :
    initMatrix g = g.flatten.foldl initStep (diagStart g.length) := by
  unfold initMatrix
  rw [List.foldl_flatten]
  exact foldl_range_getD g []
    (fun m row => row.foldl
      (fun m e => mset m e.frm e.tov (min (mget m e.frm e.tov) e.weight)) m)
    (diagStart g.length)

theorem diagStart_char (V : Nat) :
    SquareM V (diagStart V) ∧
      ∀ i j, i < V → j < V →
        mget (diagStart V) i j = if i = j then 0 else INF := by
  have hbase : SquareM V (List.replicate V (List.replicate V INF)) := by
    refine ⟨List.length_replicate V _, ?_⟩
    intro r hr
    rw [List.eq_of_mem_replicate hr]
    exact List.length_replicate V INF
  have hbase2 : ∀ i j, i < V → j < V →
      mget (List.replicate V (List.replicate V INF)) i j = INF := by
    intro i j hi hj
    have hrow : (List.replicate V (List.replicate V INF)).getD i [] =
        List.replicate V INF := by
      rw [List.getD_eq_getElem?_getD, List.getElem?_replicate, if_pos hi,
        Option.getD_some]
    unfold mget
    rw [hrow, List.getD_eq_getElem?_getD, List.getElem?_replicate, if_pos hj,
      Option.getD_some]
  suffices h : ∀ n, n ≤ V → SquareM V ((List.range n).foldl
      (fun m i => mset m i i 0) (List.replicate V (List.replicate V INF))) ∧
      ∀ i j, i < V → j < V →
        mget ((List.range n).foldl (fun m i => mset m i i 0)
          (List.replicate V (List.replicate V INF))) i j =
          if i = j ∧ i < n then 0 else INF by
    obtain ⟨hsq, hval⟩ := h V (le_refl V)
    unfold diagStart
    refine ⟨hsq, ?_⟩
    intro i j hi hj
    rw [hval i j hi hj]
    rcases eq_or_ne i j with rfl | hne
    · rw [if_pos ⟨rfl, hi⟩, if_pos rfl]
    · rw [if_neg (fun hc => hne hc.1), if_neg hne]
  intro n
  induction n with
  | zero =>
    intro _
    rw [List.range_zero, List.foldl_nil]
    refine ⟨hbase, ?_⟩
    intro i j hi hj
    rw [hbase2 i j hi hj, if_neg (fun hc => Nat.not_lt_zero i hc.2)]
  | succ n ihn =>
    intro hn
    obtain ⟨hsq, hval⟩ := ihn (Nat.le_of_succ_le hn)
    rw [List.range_succ, List.foldl_append, List.foldl_cons, List.foldl_nil]
    refine ⟨squareM_mset hsq n n 0, ?_⟩
    intro i j hi hj
    rcases Decidable.em (i = n ∧ j = n) with ⟨h1, h2⟩ | hne
    · have hi' : n < V := h1 ▸ hi
      rw [h1, h2, mget_mset_self hsq hi' hi' 0,
        if_pos ⟨rfl, Nat.lt_succ_self n⟩]
    · rw [mget_mset_ne _ hne, hval i j hi hj]
      rcases Decidable.em (i = j ∧ i < n) with hc | hc
      · rw [if_pos hc, if_pos ⟨hc.1, Nat.lt_succ_of_lt hc.2⟩]
      · rw [if_neg hc, if_neg]
        intro hc'
        rcases hc' with ⟨rfl, hlt⟩
        have : i ≠ n := fun hin => hne ⟨hin, hin⟩
        exact hc ⟨rfl, by omega⟩

theorem initFold_char {V : Nat} (l : Edges) :
    ∀ (m : Mat), SquareM V m →
      SquareM V (l.foldl initStep m) ∧
      ∀ i j, i < V → j < V →
        mget (l.foldl initStep m) i j =
          (wgts l i j).foldl (fun a w => min a w) (mget m i j) := by
  induction l with
  | nil =>
    intro m hsq
    exact ⟨hsq, fun i j _ _ => rfl⟩
  | cons e l ih =>
    intro m hsq
    have hsq' : SquareM V (initStep m e) := squareM_mset hsq _ _ _
    obtain ⟨hsq2, hval⟩ := ih (initStep m e) hsq'
    refine ⟨hsq2, ?_⟩
    intro i j hi hj
    rw [List.foldl_cons, hval i j hi hj]
    unfold wgts
    rw [List.filter_cons]
    rcases Decidable.em (e.frm = i ∧ e.tov = j) with ⟨he1, he2⟩ | hne
    · rw [if_pos (by rw [he1, he2]; simp)]
      rw [List.map_cons, List.foldl_cons]
      have : mget (initStep m e) i j = min (mget m i j) e.weight := by
        unfold initStep
        rw [he1, he2]
        exact mget_mset_self hsq hi hj _
      rw [this]
    · rw [if_neg (by
        simp only [Bool.and_eq_true, beq_iff_eq]
        intro hc
        exact hne ⟨hc.1, hc.2⟩)]
      have : mget (initStep m e) i j = mget m i j := by
        unfold initStep
        exact mget_mset_ne _ (fun hc => hne ⟨hc.1.symm, hc.2.symm⟩)
      rw [this]

theorem length_pushEdge (g : Graph) (v : Nat) (e : Edge) :
    (pushEdge g v e).length = g.length := by
  unfold pushEdge
  exact List.length_set g v _

theorem pushEdge_oob {g : Graph} {v : Nat} (h : g.length ≤ v) (e : Edge) :
    pushEdge g v e = g := by
  unfold pushEdge
  exact List.set_eq_of_length_le h

theorem flatten_pushEdge {g : Graph} {v : Nat} (hv : v < g.length) (e : Edge) :
    (pushEdge g v e).flatten.Perm (g.flatten ++ [e]) := by
  unfold pushEdge
  induction g generalizing v with
  | nil => exact absurd hv (by simp)
  | cons r t ih =>
    cases v with
    | zero =>
      rw [List.set_cons_zero, List.getD_cons_zero]
      rw [List.flatten_cons, List.flatten_cons, List.append_assoc,
        List.append_assoc]
      exact List.Perm.append_left r List.perm_append_comm
    | succ v =>
      rw [List.set_cons_succ, List.getD_cons_succ]
      rw [List.flatten_cons, List.flatten_cons, List.append_assoc]
      exact List.Perm.append_left r (ih (Nat.lt_of_succ_lt_succ hv))

theorem wgts_append (l1 l2 : Edges) (i j : Nat) :
    wgts (l1 ++ l2) i j = wgts l1 i j ++ wgts l2 i j := by
  unfold wgts
  rw [List.filter_append, List.map_append]

theorem wgts_singleton (p q : Nat) (w : Int) (i j : Nat) :
    wgts [⟨p, q, w⟩] i j = if p = i ∧ q = j then [w] else [] := by
  unfold wgts
  by_cases h1 : p = i
  · by_cases h2 : q = j
    · simp [List.filter_singleton, h1, h2]
    · simp [List.filter_singleton, h1, h2]
  · simp [List.filter_singleton, h1]

theorem wgts_perm_of_perm {l l' : Edges} (h : l.Perm l') (i j : Nat) :
    (wgts l i j).Perm (wgts l' i j) :=
  (h.filter _).map _

/-- For graphs built only with `add_edge`, the multiset of stored
`i → j` arc weights matches the `j → i` one. -/
theorem built_wgts_perm {g : Graph} (hb : BuiltByEdges g) :
    ∀ i j, i < g.length → j < g.length →
      (wgts g.flatten i j).Perm (wgts g.flatten j i) := by
  induction hb with
  | base n =>
    intro i j _ _
    have h : (emptyGraph n).flatten = [] := by
      unfold emptyGraph
      simp
    rw [h]
    exact List.Perm.refl _
  | step g a b w hb ih =>
    intro i j hi hj
    have hlen : (add_edge g a b w).length = g.length := by
      unfold add_edge
      rw [length_pushEdge, length_pushEdge]
    rw [hlen] at hi hj
    have key : ∃ l2, (add_edge g a b w).flatten.Perm (g.flatten ++ l2) ∧
        ∀ x y, x < g.length → y < g.length →
          wgts l2 x y =
            (if a = x ∧ b = y then [w] else []) ++
              (if b = x ∧ a = y then [w] else []) := by
      rcases Nat.lt_or_ge a g.length with ha | ha
      · rcases Nat.lt_or_ge b g.length with hb' | hb'
        · refine ⟨[⟨a, b, w⟩, ⟨b, a, w⟩], ?_, ?_⟩
          · unfold add_edge
            have h1 := flatten_pushEdge ha (⟨a, b, w⟩ : Edge)
            have h2 := flatten_pushEdge
              (show b < (pushEdge g a ⟨a, b, w⟩).length by
                rw [length_pushEdge]; exact hb') (⟨b, a, w⟩ : Edge)
            have heq : (g.flatten ++ [(⟨a, b, w⟩ : Edge)]) ++
                [(⟨b, a, w⟩ : Edge)] =
                g.flatten ++ [⟨a, b, w⟩, ⟨b, a, w⟩] := by
              rw [List.append_assoc]
              rfl
            have h3 := h1.append_right [(⟨b, a, w⟩ : Edge)]
            rw [heq] at h3
            exact h2.trans h3
          · intro x y _ _
            have hsplit : ([⟨a, b, w⟩, ⟨b, a, w⟩] : Edges) =
                [⟨a, b, w⟩] ++ [⟨b, a, w⟩] := rfl
            rw [hsplit, wgts_append, wgts_singleton, wgts_singleton]
        · refine ⟨[⟨a, b, w⟩], ?_, ?_⟩
          · unfold add_edge
            rw [pushEdge_oob (show (pushEdge g a ⟨a, b, w⟩).length ≤ b by
              rw [length_pushEdge]; exact hb') _]
            exact flatten_pushEdge ha _
          · intro x y hx hy
            have hc1 : ¬(a = x ∧ b = y) := by
              rintro ⟨-, rfl⟩
              exact absurd hy (Nat.not_lt.mpr hb')
            have hc2 : ¬(b = x ∧ a = y) := by
              rintro ⟨rfl, -⟩
              exact absurd hx (Nat.not_lt.mpr hb')
            rw [wgts_singleton, if_neg hc1, if_neg hc2]
            rfl
      · rcases Nat.lt_or_ge b g.length with hb' | hb'
        · refine ⟨[⟨b, a, w⟩], ?_, ?_⟩
          · unfold add_edge
            rw [pushEdge_oob ha _]
            exact flatten_pushEdge hb' _
          · intro x y hx hy
            have hc1 : ¬(a = x ∧ b = y) := by
              rintro ⟨rfl, -⟩
              exact absurd hx (Nat.not_lt.mpr ha)
            have hc2 : ¬(b = x ∧ a = y) := by
              rintro ⟨-, rfl⟩
              exact absurd hy (Nat.not_lt.mpr ha)
            rw [wgts_singleton, if_neg hc1, if_neg hc2]
            rfl
        · refine ⟨[], ?_, ?_⟩
          · unfold add_edge
            rw [pushEdge_oob ha _,
              pushEdge_oob (show g.length ≤ b from hb') _, List.append_nil]
          · intro x y hx hy
            have hc1 : ¬(a = x ∧ b = y) := by
              rintro ⟨rfl, -⟩
              exact absurd hx (Nat.not_lt.mpr ha)
            have hc2 : ¬(b = x ∧ a = y) := by
              rintro ⟨rfl, -⟩
              exact absurd hx (Nat.not_lt.mpr hb')
            rw [if_neg hc1, if_neg hc2]
            rfl
    obtain ⟨l2, hperm, hw⟩ := key
    have e1 : (wgts (add_edge g a b w).flatten i j).Perm
        (wgts g.flatten i j ++ wgts l2 i j) := by
      refine (wgts_perm_of_perm hperm i j).trans ?_
      rw [wgts_append]
    have e2 : (wgts (add_edge g a b w).flatten j i).Perm
        (wgts g.flatten j i ++ wgts l2 j i) := by
      refine (wgts_perm_of_perm hperm j i).trans ?_
      rw [wgts_append]
    refine e1.trans (List.Perm.trans ?_ e2.symm)
    refine (ih i j hi hj).append ?_
    rw [hw i j hi hj, hw j i hj hi]
    have hQ : (if b = j ∧ a = i then [w] else []) =
        (if a = i ∧ b = j then [w] else []) :=
      if_congr ⟨fun h => ⟨h.2, h.1⟩, fun h => ⟨h.2, h.1⟩⟩ rfl rfl
    have hP : (if a = j ∧ b = i then [w] else []) =
        (if b = i ∧ a = j then [w] else []) :=
      if_congr ⟨fun h => ⟨h.2, h.1⟩, fun h => ⟨h.2, h.1⟩⟩ rfl rfl
    rw [hP, hQ]
    exact List.perm_append_comm

theorem initMatrix_symm {g : Graph} (hb : BuiltByEdges g) :
    SquareM g.length (initMatrix g) ∧ SymM g.length (initMatrix g) := by
  obtain ⟨hdsq, hdval⟩ := diagStart_char g.length
  rw [initMatrix_flatten]
  obtain ⟨hsq, hval⟩ := initFold_char (V := g.length) g.flatten
    (diagStart g.length) hdsq
  refine ⟨hsq, ?_⟩
  intro i j hi hj
  rw [hval i j hi hj, hval j i hj hi]
  have hdsym : mget (diagStart g.length) i j =
      mget (diagStart g.length) j i := by
    rw [hdval i j hi hj, hdval j i hj hi]
    rcases eq_or_ne i j with rfl | hne
    · rfl
    · rw [if_neg hne, if_neg (Ne.symm hne)]
  rw [hdsym]
  haveI : RightCommutative (fun (a : Int) (w : Int) => min a w) :=
    ⟨fun a b c => min_right_comm a b c⟩
  exact (built_wgts_perm hb i j hi hj).foldl_eq _

/-- C8: for every graph built only with `addEdge`, the matrix returned by
`WarshallFloyd` is symmetric (with no restriction on the weights: the
sequential update order of one round treats the mirror cells
consistently). -/
theorem claim_C8_wf_symmetric (g : Graph) (hb : BuiltByEdges g) (i j : Nat) :
    mget (WarshallFloyd g) i j = mget (WarshallFloyd g) j i := by
  obtain ⟨hsq0, hsym0⟩ := initMatrix_symm hb
  have hinv : SquareM g.length (WarshallFloyd g) ∧
      SymM g.length (WarshallFloyd g) := by
    unfold WarshallFloyd
    refine foldl_invariant
      (P := fun m => SquareM g.length m ∧ SymM g.length m) ?_
      (initMatrix g) ⟨hsq0, hsym0⟩
    rintro m k hk ⟨h1, h2⟩
    exact fwRound_symm h1 h2 (List.mem_range.mp hk)
  rcases Nat.lt_or_ge i g.length with hi | hi
  · rcases Nat.lt_or_ge j g.length with hj | hj
    · exact hinv.2 i j hi hj
    · rw [mget_oob hinv.1 (Or.inr hj), mget_oob hinv.1 (Or.inl hj)]
  · rw [mget_oob hinv.1 (Or.inl hi), mget_oob hinv.1 (Or.inr hi)]

/-- Witness for `claim_C8_wf_symmetric` on a concrete `add_edge`-built
graph. -/
theorem claim_C8_witness :
    mget (WarshallFloyd (add_edge (add_edge (emptyGraph 3) 0 1 5) 1 2 7)) 0 2 =
      mget (WarshallFloyd (add_edge (add_edge (emptyGraph 3) 0 1 5) 1 2 7))
        2 0 :=
  claim_C8_wf_symmetric _
    (BuiltByEdges.step _ 1 2 7 (BuiltByEdges.step _ 0 1 5 (BuiltByEdges.base 3)))
    0 2

/-! Path (chain) machinery for the shortest-path claims. -/

theorem chainW_nil : chainW [] = 0 := rfl

theorem chainW_cons (e : Edge) (l : List Edge) :
    chainW (e :: l) = e.weight + chainW l := by
  unfold chainW
  rw [List.map_cons, List.sum_cons]

theorem chainW_append (l1 l2 : List Edge) :
    chainW (l1 ++ l2) = chainW l1 + chainW l2 := by
  unfold chainW
  rw [List.map_append, List.sum_append]

theorem isChain_nil_iff {es : Edges} {a b : Nat} :
    IsChain es a [] b ↔ a = b := by
  constructor
  · intro h
    cases h
    rfl
  · intro h
    rw [h]
    exact IsChain.nil b

theorem isChain_append {es : Edges} {a c : Nat} {l1 l2 : List Edge} :
    IsChain es a (l1 ++ l2) c ↔ ∃ b, IsChain es a l1 b ∧ IsChain es b l2 c := by
  induction l1 generalizing a with
  | nil =>
    simp only [List.nil_append]
    constructor
    · intro h
      exact ⟨a, IsChain.nil a, h⟩
    · rintro ⟨b, hb, h⟩
      cases hb
      exact h
  | cons e l1 ih =>
    constructor
    · intro h
      cases h with
      | cons hmem htail =>
        obtain ⟨b, h1, h2⟩ := ih.mp htail
        exact ⟨b, IsChain.cons hmem h1, h2⟩
    · rintro ⟨b, hb, h⟩
      cases hb with
      | cons hmem htail =>
        exact IsChain.cons hmem (ih.mpr ⟨b, htail, h⟩)

theorem isChain_singleton {es : Edges} {a b : Nat} {e : Edge} :
    IsChain es a [e] b ↔ e ∈ es ∧ e.frm = a ∧ e.tov = b := by
  constructor
  · intro h
    cases h with
    | cons hmem htail =>
      exact ⟨hmem, rfl, isChain_nil_iff.mp htail⟩
  · rintro ⟨hmem, rfl, rfl⟩
    exact IsChain.cons hmem (IsChain.nil e.tov)

theorem isChain_snoc {es : Edges} {a c : Nat} {l : List Edge} {e : Edge} :
    IsChain es a (l ++ [e]) c ↔
      e ∈ es ∧ e.tov = c ∧ IsChain es a l e.frm := by
  rw [isChain_append]
  constructor
  · rintro ⟨b, h1, h2⟩
    obtain ⟨hmem, hfrm, htov⟩ := isChain_singleton.mp h2
    exact ⟨hmem, htov, hfrm ▸ h1⟩
  · rintro ⟨hmem, htov, h1⟩
    exact ⟨e.frm, h1, isChain_singleton.mpr ⟨hmem, rfl, htov⟩⟩

theorem chainVerts_length (a : Nat) (l : List Edge) :
    (chainVerts a l).length = l.length + 1 := by
  unfold chainVerts
  rw [List.length_cons, List.length_map]

theorem chainVerts_lt {es : Edges} {V : Nat} (hwf : WFEdges es V) {a b : Nat}
    (ha : a < V) {l : List Edge} (h : IsChain es a l b) :
    ∀ x ∈ chainVerts a l, x < V := by
  induction l generalizing a with
  | nil =>
    intro x hx
    rw [List.mem_singleton.mp hx]
    exact ha
  | cons e l ih =>
    cases h with
    | cons hmem htail =>
      intro x hx
      rcases List.mem_cons.mp hx with rfl | hx
      · exact ha
      · exact ih (hwf e hmem).2 htail x hx

theorem chain_verts_split {es : Edges} {a b x : Nat} {l : List Edge}
    {vs1 vs2 : List Nat} (h : IsChain es a l b)
    (hv : chainVerts a l = vs1 ++ x :: vs2) :
    ∃ l1 l2, l = l1 ++ l2 ∧ l1.length = vs1.length ∧
      IsChain es a l1 x ∧ IsChain es x l2 b ∧ chainVerts x l2 = x :: vs2 := by
  induction vs1 generalizing a l with
  | nil =>
    rw [List.nil_append] at hv
    unfold chainVerts at hv
    have hax : a = x := by
      have := List.head_eq_of_cons_eq hv
      exact this
    have htail : l.map Edge.tov = vs2 := List.tail_eq_of_cons_eq hv
    refine ⟨[], l, rfl, rfl, isChain_nil_iff.mpr hax, hax ▸ h, ?_⟩
    unfold chainVerts
    rw [htail]
  | cons y vs1 ih =>
    unfold chainVerts at hv
    have hay : a = y := List.head_eq_of_cons_eq hv
    have htail : l.map Edge.tov = vs1 ++ x :: vs2 := List.tail_eq_of_cons_eq hv
    cases l with
    | nil =>
      rw [List.map_nil] at htail
      have hcontra := htail.symm
      rw [List.append_eq_nil] at hcontra
      exact absurd hcontra.2 (by simp)
    | cons e l =>
      cases h with
      | cons hmem hch =>
        rw [List.map_cons] at htail
        cases vs1 with
        | nil =>
          have hx : e.tov = x := List.head_eq_of_cons_eq htail
          have hrest : l.map Edge.tov = vs2 := List.tail_eq_of_cons_eq htail
          refine ⟨[e], l, rfl, rfl, ?_, hx ▸ hch, ?_⟩
          · exact isChain_singleton.mpr ⟨hmem, rfl, hx⟩
          · unfold chainVerts
            rw [hrest]
        | cons z vs1 =>
          have hz : e.tov = z := List.head_eq_of_cons_eq htail
          have hrest : l.map Edge.tov = vs1 ++ x :: vs2 :=
            List.tail_eq_of_cons_eq htail
          have hvrest : chainVerts e.tov l = (z :: vs1) ++ x :: vs2 := by
            unfold chainVerts
            rw [hrest, hz]
            rfl
          obtain ⟨l1, l2, hsplit, hlen, hc1, hc2, hverts⟩ := ih hch hvrest
          refine ⟨e :: l1, l2, by rw [hsplit, List.cons_append], ?_,
            IsChain.cons hmem hc1,
            hc2, hverts⟩
          rw [List.length_cons, hlen]
          rfl

theorem not_nodup_split {l : List Nat} (h : ¬ l.Nodup) :
    ∃ l1 x l2 l3, l = l1 ++ x :: l2 ++ x :: l3 := by
  induction l with
  | nil => exact absurd List.nodup_nil h
  | cons a t ih =>
    by_cases hat : a ∈ t
    · obtain ⟨s1, s2, hs⟩ := List.append_of_mem hat
      exact ⟨[], a, s1, s2, by rw [hs]; rfl⟩
    · have hnd : ¬ t.Nodup := fun hnd => h (List.nodup_cons.mpr ⟨hat, hnd⟩)
      obtain ⟨l1, x, l2, l3, hsplit⟩ := ih hnd
      exact ⟨a :: l1, x, l2, l3, by rw [hsplit]; rfl⟩

theorem chainW_bounds {es : Edges} {B : Int}
    (hB : ∀ e ∈ es, -B ≤ e.weight ∧ e.weight ≤ B) {a b : Nat} {l : List Edge}
    (h : IsChain es a l b) :
    -((l.length : Int) * B) ≤ chainW l ∧ chainW l ≤ (l.length : Int) * B := by
  induction l generalizing a with
  | nil =>
    rw [chainW_nil]
    norm_num
  | cons e l ih =>
    cases h with
    | cons hmem htail =>
      obtain ⟨h1, h2⟩ := ih htail
      obtain ⟨hw1, hw2⟩ := hB e hmem
      rw [chainW_cons]
      have hcast : ((e :: l).length : Int) * B = (l.length : Int) * B + B := by
        rw [List.length_cons]
        push_cast
        ring
      rw [hcast]
      constructor
      · linarith
      · linarith

/-- Any chain at least `V` long from an in-range vertex revisits a vertex
and splits around a nonempty cycle. -/
theorem chain_cycle_split {es : Edges} {V : Nat} (hwf : WFEdges es V)
    {s v : Nat} (hs : s < V) {l : List Edge} (h : IsChain es s l v)
    (hlong : V ≤ l.length) :
    ∃ l1 c l3 x, l = l1 ++ c ++ l3 ∧ IsChain es s l1 x ∧ IsChain es x c x ∧
      c ≠ [] ∧ IsChain es x l3 v := by
  have hvl : ∀ x ∈ chainVerts s l, x < V := chainVerts_lt hwf hs h
  have hnodup : ¬ (chainVerts s l).Nodup := by
    intro hnd
    have hsub : (chainVerts s l).Subperm (List.range V) :=
      List.subperm_of_subset hnd
        (fun x hx => List.mem_range.mpr (hvl x hx))
    have hle := hsub.length_le
    rw [chainVerts_length, List.length_range] at hle
    omega
  obtain ⟨vs1, x, vs2, vs3, hsplit⟩ := not_nodup_split hnodup
  have hsplit1 : chainVerts s l = vs1 ++ x :: (vs2 ++ x :: vs3) := by
    rw [hsplit]
    simp
  obtain ⟨l1, l2, hl12, _, hc1, hc2, hverts2⟩ := chain_verts_split h hsplit1
  have hsplit2 : chainVerts x l2 = (x :: vs2) ++ x :: vs3 := by
    rw [hverts2]
    rfl
  obtain ⟨c, l3, hl23, hlen2, hcc, hc3, _⟩ := chain_verts_split hc2 hsplit2
  refine ⟨l1, c, l3, x, ?_, hc1, hcc, ?_, hc3⟩
  · rw [hl12, hl23, List.append_assoc]
  · intro hc0
    rw [hc0] at hlen2
    simp at hlen2

/-- Any chain from the source can be replaced by one with fewer than `V`
edges; if no negative cycle is reachable from the source, the replacement
is no heavier. -/
theorem chain_reduce_aux {es : Edges} {V : Nat} (hwf : WFEdges es V)
    {s : Nat} (hs : s < V) :
    ∀ (n : Nat) {v : Nat} {l : List Edge}, l.length ≤ n → IsChain es s l v →
      ∃ l', IsChain es s l' v ∧ l'.length < V ∧
        (¬ NegCycleFrom es s → chainW l' ≤ chainW l) := by
  intro n
  induction n with
  | zero =>
    intro v l hlen h
    have hl0 : l = [] := List.length_eq_zero.mp (Nat.le_zero.mp hlen)
    subst hl0
    exact ⟨[], h, by omega, fun _ => le_refl _⟩
  | succ n ih =>
    intro v l hlen h
    by_cases hshort : l.length < V
    · exact ⟨l, h, hshort, fun _ => le_refl _⟩
    · obtain ⟨l1, c, l3, x, hdecomp, hc1, hcc, hcne, hc3⟩ :=
        chain_cycle_split hwf hs h (Nat.le_of_not_lt hshort)
    
      have hchain13 : IsChain es s (l1 ++ l3) v :=
        isChain_append.mpr ⟨x, hc1, hc3⟩
      have hlen13 : (l1 ++ l3).length ≤ n := by
        have hc_pos : 0 < c.length := List.length_pos.mpr hcne
        have : l.length = l1.length + c.length + l3.length := by
          rw [hdecomp]
          simp [List.length_append]
          omega
        rw [List.length_append]
        omega
      obtain ⟨l', hl', hlen', hw'⟩ := ih hlen13 hchain13
      refine ⟨l', hl', hlen', ?_⟩
      intro hnc
      have hcw : 0 ≤ chainW c := by
        by_contra hneg
        exact hnc ⟨x, c, ⟨l1, hc1⟩, hcne, hcc, by omega⟩
      have hwsum : chainW l = chainW l1 + chainW c + chainW l3 := by
        rw [hdecomp, chainW_append, chainW_append]
      have hw13 : chainW (l1 ++ l3) = chainW l1 + chainW l3 := chainW_append l1 l3
      have := hw' hnc
      rw [hw13] at this
      omega

theorem chain_reduce {es : Edges} {V : Nat} (hwf : WFEdges es V)
    {s v : Nat} (hs : s < V) {l : List Edge} (h : IsChain es s l v) :
    ∃ l', IsChain es s l' v ∧ l'.length < V ∧
      (¬ NegCycleFrom es s → chainW l' ≤ chainW l) :=
  chain_reduce_aux hwf hs l.length (le_refl _) h

theorem chainW_single (e : Edge) : chainW [e] = e.weight := by
  rw [chainW_cons, chainW_nil, add_zero]

theorem smallW_VB {es : Edges} {V : Nat} {B : Int} (h : SmallW es V B) :
    (V : Int) * B < INF := by
  obtain ⟨hB0, _, hbig⟩ := h
  refine lt_of_le_of_lt ?_ hbig
  have hc : (V : Int) ≤ ((V * es.length + V + 1 : Nat) : Int) := by
    push_cast
    have : (0 : Int) ≤ (V : Int) * (es.length : Int) := by positivity
    linarith
  exact mul_le_mul_of_nonneg_right hc hB0

/-! Bellman-Ford: basic state lemmas. -/

theorem getD_set_le {d : List Int} {n : Nat} {x : Int} (h : x ≤ d.getD n 0)
    (v : Nat) : (d.set n x).getD v 0 ≤ d.getD v 0 := by
  rcases eq_or_ne v n with rfl | hvn
  · rcases Nat.lt_or_ge v d.length with hv | hv
    · rw [getD_set_self' x hv]
      exact h
    · rw [List.set_eq_of_length_le hv]
  · rw [List.getD_set_ne' (Ne.symm hvn)]

theorem bfRelax_length (d : List Int) (e : Edge) :
    (bfRelax d e).length = d.length := by
  unfold bfRelax
  split
  · rfl
  · exact List.length_set d e.tov _

theorem bfRelax_le (d : List Int) (e : Edge) (v : Nat) :
    (bfRelax d e).getD v 0 ≤ d.getD v 0 := by
  unfold bfRelax
  split
  · exact le_refl _
  · exact getD_set_le (min_le_left _ _) v

theorem bfFold_le (es : Edges) : ∀ (d : List Int) (v : Nat),
    (es.foldl bfRelax d).getD v 0 ≤ d.getD v 0 := by
  induction es with
  | nil => intro d v; exact le_refl _
  | cons e es ih =>
    intro d v
    exact le_trans (ih (bfRelax d e) v) (bfRelax_le d e v)

theorem bfFold_length (es : Edges) : ∀ (d : List Int),
    (es.foldl bfRelax d).length = d.length := by
  induction es with
  | nil => intro d; rfl
  | cons e es ih =>
    intro d
    rw [List.foldl_cons, ih, bfRelax_length]

theorem bfRounds_succ_eq (es : Edges) :
    ∀ (n : Nat) (d : List Int), bfRounds es d (n + 1) = bfRound es (bfRounds es d n) := by
  intro n
  induction n with
  | zero => intro d; rfl
  | succ n ih =>
    intro d
    show bfRounds es (bfRound es d) (n + 1) = _
    rw [ih (bfRound es d)]
    rfl

theorem bfRounds_length (es : Edges) : ∀ n (d : List Int),
    (bfRounds es d n).length = d.length := by
  intro n
  induction n with
  | zero => intro d; rfl
  | succ n ih =>
    intro d
    show (bfRounds es (bfRound es d) n).length = _
    rw [ih]
    exact bfFold_length es d

theorem bfSound_mono {es : Edges} {s V : Nat} {L L' : Nat} (h : L ≤ L')
    {d : List Int} (hd : BFSound es s V L d) : BFSound es s V L' d := by
  obtain ⟨hlen, hval⟩ := hd
  refine ⟨hlen, ?_⟩
  intro v hv
  rcases hval v hv with h1 | ⟨l, h1, h2, h3⟩
  · exact Or.inl h1
  · exact Or.inr ⟨l, h1, h2, le_trans h3 h⟩

theorem bfRelax_sound {es : Edges} {s V : Nat} (hwf : WFEdges es V)
    {e : Edge} (he : e ∈ es) {L : Nat} {d : List Int}
    (hd : BFSound es s V L d) : BFSound es s V (L + 1) (bfRelax d e) := by
  obtain ⟨hlen, hval⟩ := hd
  refine ⟨(bfRelax_length d e).trans hlen, ?_⟩
  intro v hv
  unfold bfRelax
  split
  · rcases hval v hv with h1 | ⟨l, h1, h2, h3⟩
    · exact Or.inl h1
    · exact Or.inr ⟨l, h1, h2, le_trans h3 (Nat.le_succ L)⟩
  · next hfrm =>
    rcases eq_or_ne v e.tov with hveq | hvn
    · have hv' : e.tov < d.length := hlen ▸ (hveq ▸ hv)
      rw [hveq, getD_set_self' _ hv']
      rcases le_total (d.getD e.tov 0) (d.getD e.frm 0 + e.weight) with hle | hle
      · rw [min_eq_left hle]
        rcases hval e.tov (hveq ▸ hv) with h1 | ⟨l, h1, h2, h3⟩
        · exact Or.inl h1
        · exact Or.inr ⟨l, h1, h2, le_trans h3 (Nat.le_succ L)⟩
      · rw [min_eq_right hle]
        rcases hval e.frm (hwf e he).1 with h1 | ⟨l, h1, h2, h3⟩
        · exact absurd h1 hfrm
        · refine Or.inr ⟨l ++ [e], isChain_snoc.mpr ⟨he, rfl, h1⟩, ?_, ?_⟩
          · rw [chainW_append, chainW_single, h2]
          · rw [List.length_append, List.length_singleton]
            omega
    · rw [List.getD_set_ne' (Ne.symm hvn)]
      rcases hval v hv with h1 | ⟨l, h1, h2, h3⟩
      · exact Or.inl h1
      · exact Or.inr ⟨l, h1, h2, le_trans h3 (Nat.le_succ L)⟩

theorem bfFold_sound {es : Edges} {s V : Nat} (hwf : WFEdges es V)
    (es' : Edges) (hsub : ∀ e ∈ es', e ∈ es) {L : Nat} {d : List Int}
    (hd : BFSound es s V L d) :
    BFSound es s V (L + es'.length) (es'.foldl bfRelax d) := by
  induction es' generalizing L d with
  | nil => exact hd
  | cons e es' ih =>
    have h1 := bfRelax_sound hwf (hsub e (List.mem_cons_self e es')) hd
    have h2 := ih (fun e' he' => hsub e' (List.mem_cons_of_mem e he')) h1
    refine bfSound_mono ?_ h2
    rw [List.length_cons]
    omega

theorem bfRounds_sound {es : Edges} {s V : Nat} (hwf : WFEdges es V) :
    ∀ n {L : Nat} {d : List Int}, BFSound es s V L d →
      BFSound es s V (L + n * es.length) (bfRounds es d n) := by
  intro n
  induction n with
  | zero => intro L d hd; exact bfSound_mono (by omega) hd
  | succ n ih =>
    intro L d hd
    have h1 : BFSound es s V (L + es.length) (bfRound es d) :=
      bfFold_sound hwf es (fun _ he => he) hd
    have h2 := ih h1
    refine bfSound_mono ?_ h2
    ring_nf
    omega

theorem bfInit_sound {es : Edges} {s V : Nat} (hs : s < V) :
    BFSound es s V 0 ((List.replicate V INF).set s 0) := by
  refine ⟨by rw [List.length_set, List.length_replicate], ?_⟩
  intro v hv
  rcases eq_or_ne v s with rfl | hvs
  · right
    refine ⟨[], IsChain.nil v, ?_, le_refl _⟩
    rw [chainW_nil, getD_set_self' 0 (by rw [List.length_replicate]; exact hv)]
  · left
    rw [List.getD_set_ne' (Ne.symm hvs), getD_replicate', if_pos hv]

theorem bfRelax_fires {d : List Int} {e : Edge} (hfrm : d.getD e.frm 0 ≠ INF)
    (htov : e.tov < d.length) :
    (bfRelax d e).getD e.tov 0 ≤ d.getD e.frm 0 + e.weight := by
  unfold bfRelax
  rw [if_neg hfrm, getD_set_self' _ htov]
  exact min_le_right _ _

theorem bfFold_split_le {es1 es2 : Edges} {e : Edge} {d : List Int}
    (hfrm : (es1.foldl bfRelax d).getD e.frm 0 ≠ INF)
    (htov : e.tov < d.length) :
    ((es1 ++ e :: es2).foldl bfRelax d).getD e.tov 0 ≤
      (es1.foldl bfRelax d).getD e.frm 0 + e.weight := by
  rw [List.foldl_append, List.foldl_cons]
  refine le_trans (bfFold_le es2 _ e.tov) ?_
  exact bfRelax_fires hfrm (by rw [bfFold_length]; exact htov)

theorem bf_complete {es : Edges} {s V : Nat} {B : Int} (hwf : WFEdges es V)
    (hs : s < V) (hsm : SmallW es V B) :
    ∀ (r : Nat), r ≤ V → ∀ (v : Nat) (l : List Edge),
      IsChain es s l v → l.length ≤ r →
      (bfRounds es ((List.replicate V INF).set s 0) r).getD v 0 ≤ chainW l := by
  intro r
  induction r with
  | zero =>
    intro _ v l hch hlen
    have hl : l = [] := List.length_eq_zero.mp (Nat.le_zero.mp hlen)
    subst hl
    have hv : s = v := isChain_nil_iff.mp hch
    subst hv
    rw [chainW_nil, bfRounds]
    rw [getD_set_self' 0 (by rw [List.length_replicate]; exact hs)]
  | succ r ih =>
    intro hr v l hch hlen
    rw [bfRounds_succ_eq]
    by_cases hlr : l.length ≤ r
    · refine le_trans (bfFold_le es _ v) ?_
      exact ih (by omega) v l hch hlr
    · rcases List.eq_nil_or_concat l with hnil | ⟨l', e, hle⟩
      · subst hnil
        simp at hlr
      · rw [List.concat_eq_append] at hle
        subst hle
        obtain ⟨hees, htv, hch'⟩ := isChain_snoc.mp hch
        have hl' : l'.length ≤ r := by
          rw [List.length_append, List.length_singleton] at hlen
          omega
        set d' := bfRounds es ((List.replicate V INF).set s 0) r with hd'
        have hfrm0 := ih (by omega) e.frm l' hch' hl'
        have hWb := (chainW_bounds hsm.2.1 hch').2
        have hrB : (l'.length : Int) * B ≤ (V : Int) * B := by
          refine mul_le_mul_of_nonneg_right ?_ hsm.1
          exact_mod_cast le_trans hl' (by omega)
        have hlt : d'.getD e.frm 0 < INF :=
          lt_of_le_of_lt hfrm0 (lt_of_le_of_lt (le_trans hWb hrB) (smallW_VB hsm))
        obtain ⟨es1, es2, hsplit⟩ := List.append_of_mem hees
        have hlen0 : ((List.replicate V INF).set s 0).length = V := by
          rw [List.length_set, List.length_replicate]
        have hfrm1 : ((es1.foldl bfRelax d').getD e.frm 0) ≠ INF :=
          ne_of_lt (lt_of_le_of_lt (bfFold_le es1 _ e.frm) hlt)
        have htov : e.tov < d'.length := by
          rw [hd', bfRounds_length, hlen0]
          exact (hwf e hees).2
        have hstep : (bfRound es d').getD e.tov 0 ≤
            (es1.foldl bfRelax d').getD e.frm 0 + e.weight := by
          unfold bfRound
          rw [hsplit]
          exact bfFold_split_le hfrm1 htov
        rw [← htv, chainW_append, chainW_single]
        refine le_trans hstep ?_
        have := bfFold_le es1 d' e.frm
        linarith

theorem reachE_trans {es : Edges} {a b c : Nat} (h1 : ReachE es a b)
    (h2 : ReachE es b c) : ReachE es a c := by
  obtain ⟨l1, h1⟩ := h1
  obtain ⟨l2, h2⟩ := h2
  exact ⟨l1 ++ l2, isChain_append.mpr ⟨b, h1, h2⟩⟩

theorem bf_reach_lt_INF {es : Edges} {s V : Nat} {B : Int} (hwf : WFEdges es V)
    (hs : s < V) (hsm : SmallW es V B) {v : Nat} (hreach : ReachE es s v) :
    (bfRounds es ((List.replicate V INF).set s 0) (V - 1)).getD v 0 < INF := by
  obtain ⟨l, hl⟩ := hreach
  obtain ⟨l', hl', hlen', _⟩ := chain_reduce hwf hs hl
  have hcw := (chainW_bounds hsm.2.1 hl').2
  have h1 := bf_complete hwf hs hsm (V - 1) (by omega) v l' hl' (by omega)
  have hrB : (l'.length : Int) * B ≤ (V : Int) * B := by
    refine mul_le_mul_of_nonneg_right ?_ hsm.1
    exact_mod_cast le_of_lt hlen'
  exact lt_of_le_of_lt h1 (lt_of_le_of_lt (le_trans hcw hrB) (smallW_VB hsm))

theorem bf_sound_final {es : Edges} {s V : Nat} (hwf : WFEdges es V)
    (hs : s < V) :
    BFSound es s V ((V - 1) * es.length)
      (bfRounds es ((List.replicate V INF).set s 0) (V - 1)) := by
  have h := bfRounds_sound hwf (V - 1) (bfInit_sound hs)
  rwa [Nat.zero_add] at h

theorem bf_dist_unreach {es : Edges} {s V : Nat} (hwf : WFEdges es V)
    (hs : s < V) {v : Nat} (hv : v < V) (hunreach : ¬ ReachE es s v) :
    (bfRounds es ((List.replicate V INF).set s 0) (V - 1)).getD v 0 = INF := by
  rcases (bf_sound_final hwf hs).2 v hv with h1 | ⟨l, h1, _, _⟩
  · exact h1
  · exact absurd ⟨l, h1⟩ hunreach

theorem bf_dist_isLeast {es : Edges} {s V : Nat} {B : Int} (hwf : WFEdges es V)
    (hs : s < V) (hsm : SmallW es V B) (hnc : ¬ NegCycleFrom es s)
    {v : Nat} (hv : v < V) (hreach : ReachE es s v) :
    IsLeast (chainWeights es s v)
      ((bfRounds es ((List.replicate V INF).set s 0) (V - 1)).getD v 0) := by
  constructor
  · rcases (bf_sound_final hwf hs).2 v hv with h1 | ⟨l, h1, h2, _⟩
    · exact absurd h1 (ne_of_lt (bf_reach_lt_INF hwf hs hsm hreach))
    · exact ⟨l, h1, h2⟩
  · rintro w ⟨l, hl, rfl⟩
    obtain ⟨l', hl', hlen', hle'⟩ := chain_reduce hwf hs hl
    refine le_trans (bf_complete hwf hs hsm (V - 1) (by omega) v l' hl' (by omega)) ?_
    exact hle' hnc

theorem bfRelaxable_false_iff {es : Edges} {d : List Int} :
    bfRelaxable es d = false ↔ ∀ e ∈ es, d.getD e.frm 0 ≠ INF →
      d.getD e.tov 0 ≤ d.getD e.frm 0 + e.weight := by
  unfold bfRelaxable
  rw [List.any_eq_false]
  constructor
  · intro h e he hfrm
    have := h e he
    rw [if_neg hfrm] at this
    simp only [decide_eq_true_eq, not_lt] at this
    linarith
  · intro h e he
    by_cases hfrm : d.getD e.frm 0 = INF
    · rw [if_pos hfrm]
      simp
    · rw [if_neg hfrm]
      simp only [decide_eq_true_eq, not_lt]
      linarith [h e he hfrm]

theorem bf_not_relaxable {es : Edges} {s V : Nat} {B : Int} (hwf : WFEdges es V)
    (hs : s < V) (hsm : SmallW es V B) (hnc : ¬ NegCycleFrom es s) :
    bfRelaxable es (bfRounds es ((List.replicate V INF).set s 0) (V - 1)) = false := by
  rw [bfRelaxable_false_iff]
  intro e he hfrm
  rcases (bf_sound_final hwf hs).2 e.frm (hwf e he).1 with h1 | ⟨l, h1, h2, _⟩
  · exact absurd h1 hfrm
  · have hreach : ReachE es s e.tov :=
      ⟨l ++ [e], isChain_snoc.mpr ⟨he, rfl, h1⟩⟩
    have hmem : (chainW (l ++ [e])) ∈ chainWeights es s e.tov :=
      ⟨l ++ [e], isChain_snoc.mpr ⟨he, rfl, h1⟩, rfl⟩
    have hle := (bf_dist_isLeast hwf hs hsm hnc (hwf e he).2 hreach).2 hmem
    rw [chainW_append, chainW_single, h2] at hle
    exact hle

theorem relax_chain {es : Edges} {d : List Int}
    (hnr : ∀ e ∈ es, d.getD e.frm 0 ≠ INF →
      d.getD e.tov 0 ≤ d.getD e.frm 0 + e.weight)
    {s : Nat} (hfin : ∀ x, ReachE es s x → d.getD x 0 ≠ INF) :
    ∀ (l : List Edge) (a b : Nat), ReachE es s a → IsChain es a l b →
      d.getD b 0 ≤ d.getD a 0 + chainW l := by
  intro l
  induction l with
  | nil =>
    intro a b _ hch
    rw [isChain_nil_iff] at hch
    rw [hch, chainW_nil, add_zero]
  | cons e l ih =>
    intro a b hra hch
    cases hch with
    | cons he htail =>
      have hra' : ReachE es s e.tov :=
        reachE_trans hra ⟨[e], IsChain.cons he (IsChain.nil e.tov)⟩
      have h1 := hnr e he (hfin e.frm hra)
      have h2 := ih e.tov b hra' htail
      rw [chainW_cons]
      linarith

theorem bf_relaxable_of_negcycle {es : Edges} {s V : Nat} {B : Int}
    (hwf : WFEdges es V) (hs : s < V) (hsm : SmallW es V B)
    (hnc : NegCycleFrom es s) :
    bfRelaxable es (bfRounds es ((List.replicate V INF).set s 0) (V - 1)) = true := by
  by_contra h
  rw [Bool.not_eq_true, bfRelaxable_false_iff] at h
  obtain ⟨u, l, hru, hlne, hcyc, hneg⟩ := hnc
  have hfin : ∀ x, ReachE es s x →
      (bfRounds es ((List.replicate V INF).set s 0) (V - 1)).getD x 0 ≠ INF :=
    fun x hx => ne_of_lt (bf_reach_lt_INF hwf hs hsm hx)
  have := relax_chain h hfin l u u hru hcyc
  linarith

set_option maxRecDepth 20000 in
/-- C2 counterexample: with sentinel-scale weights (an edge of weight `INF`
on the only path into a negative cycle), `BellmanFord` returns a non-empty
vector even though a negative cycle is reachable from the source, because
the relaxation through the `INF`-weight edge leaves the target stuck at the
sentinel. -/
theorem claim_C2_counterexample :
    BellmanFord [⟨0, 1, INF⟩, ⟨1, 2, -1⟩, ⟨2, 1, -1⟩] 3 0 ≠ [] ∧
    NegCycleFrom [⟨0, 1, INF⟩, ⟨1, 2, -1⟩, ⟨2, 1, -1⟩] 0 := by
  constructor
  · decide
  · refine ⟨1, [⟨1, 2, -1⟩, ⟨2, 1, -1⟩], ⟨[⟨0, 1, INF⟩], ?_⟩, by decide, ?_, by decide⟩
    · exact IsChain.cons (e := ⟨0, 1, INF⟩) (by decide) (IsChain.nil 1)
    · exact IsChain.cons (e := ⟨1, 2, -1⟩) (by decide)
        (IsChain.cons (e := ⟨2, 1, -1⟩) (by decide) (IsChain.nil 1))

/-- C2 (amended): for a well-formed edge list over `V` vertices whose weights
are bounded well below the `INF` sentinel, `BellmanFord edges V s` returns the
empty vector iff a negative cycle is reachable from `s`; otherwise the result
holds, for every vertex `v < V`, the least weight of any path from `s` to `v`
when `v` is reachable, and the sentinel `INF` when it is not. -/
theorem claim_C2_bellman_ford {es : Edges} {V s : Nat} {B : Int}
    (hwf : WFEdges es V) (hs : s < V) (hsm : SmallW es V B) :
    (BellmanFord es V s = [] ↔ NegCycleFrom es s) ∧
    (¬ NegCycleFrom es s → ∀ v, v < V →
      (ReachE es s v →
        IsLeast (chainWeights es s v) ((BellmanFord es V s).getD v 0)) ∧
      (¬ ReachE es s v → (BellmanFord es V s).getD v 0 = INF)) := by
  have hBF : BellmanFord es V s =
      if bfRelaxable es (bfRounds es ((List.replicate V INF).set s 0) (V - 1))
      then [] else bfRounds es ((List.replicate V INF).set s 0) (V - 1) := rfl
  have hdne : bfRounds es ((List.replicate V INF).set s 0) (V - 1) ≠ [] := by
    intro hc
    have hlen : (bfRounds es ((List.replicate V INF).set s 0) (V - 1)).length = V := by
      rw [bfRounds_length, List.length_set, List.length_replicate]
    rw [hc] at hlen
    simp at hlen
    omega
  constructor
  · constructor
    · intro hbf
      by_contra hnc
      rw [hBF, bf_not_relaxable hwf hs hsm hnc] at hbf
      exact hdne (by simpa using hbf)
    · intro hnc
      rw [hBF, bf_relaxable_of_negcycle hwf hs hsm hnc]
      simp
  · intro hnc v hv
    rw [hBF, bf_not_relaxable hwf hs hsm hnc]
    simp only [Bool.false_eq_true, if_false]
    exact ⟨fun hr => bf_dist_isLeast hwf hs hsm hnc hv hr,
           fun hr => bf_dist_unreach hwf hs hv hr⟩

/-- Witness for C2 at the documented usage pattern: a 3-vertex edge list
with small weights, source 0. -/
theorem claim_C2_witness :
    WFEdges [⟨0, 1, 1⟩, ⟨1, 2, 2⟩, ⟨2, 0, 1⟩] 3 ∧ 0 < 3 ∧
      SmallW [⟨0, 1, 1⟩, ⟨1, 2, 2⟩, ⟨2, 0, 1⟩] 3 2 ∧
    ((BellmanFord [⟨0, 1, 1⟩, ⟨1, 2, 2⟩, ⟨2, 0, 1⟩] 3 0 = [] ↔
        NegCycleFrom [⟨0, 1, 1⟩, ⟨1, 2, 2⟩, ⟨2, 0, 1⟩] 0) ∧
      (¬ NegCycleFrom [⟨0, 1, 1⟩, ⟨1, 2, 2⟩, ⟨2, 0, 1⟩] 0 → ∀ v, v < 3 →
        (ReachE [⟨0, 1, 1⟩, ⟨1, 2, 2⟩, ⟨2, 0, 1⟩] 0 v →
          IsLeast (chainWeights [⟨0, 1, 1⟩, ⟨1, 2, 2⟩, ⟨2, 0, 1⟩] 0 v)
            ((BellmanFord [⟨0, 1, 1⟩, ⟨1, 2, 2⟩, ⟨2, 0, 1⟩] 3 0).getD v 0)) ∧
        (¬ ReachE [⟨0, 1, 1⟩, ⟨1, 2, 2⟩, ⟨2, 0, 1⟩] 0 v →
          (BellmanFord [⟨0, 1, 1⟩, ⟨1, 2, 2⟩, ⟨2, 0, 1⟩] 3 0).getD v 0 = INF))) :=
  ⟨by unfold WFEdges; decide, by decide, by unfold SmallW; decide,
   claim_C2_bellman_ford (B := 2) (by unfold WFEdges; decide) (by decide)
     (by unfold SmallW; decide)⟩

theorem chainW_nonneg {es : Edges} (hnn : ∀ e ∈ es, 0 ≤ e.weight)
    {a b : Nat} {l : List Edge} (h : IsChain es a l b) : 0 ≤ chainW l := by
  induction l generalizing a with
  | nil => rw [chainW_nil]
  | cons e l ih =>
    cases h with
    | cons hmem htail =>
      rw [chainW_cons]
      have h1 := hnn e hmem
      have h2 := ih htail
      linarith

theorem chainInts_cons (e : Edge) {l : List Edge} (h : l ≠ []) :
    chainInts (e :: l) = e.tov :: chainInts l := by
  unfold chainInts
  rw [List.map_cons, List.dropLast_cons_of_ne_nil]
  intro hc
  exact h (List.map_eq_nil.mp hc)

theorem chainInts_single (e : Edge) : chainInts [e] = [] := rfl

theorem chainInts_nil : chainInts [] = [] := rfl

theorem mem_chainInts_tov {l : List Edge} {x : Nat} (h : x ∈ chainInts l) :
    x ∈ l.map Edge.tov := by
  unfold chainInts at h
  exact (List.dropLast_sublist _).subset h

theorem chainInts_append {l1 l2 : List Edge} (h : l2 ≠ []) :
    chainInts (l1 ++ l2) = l1.map Edge.tov ++ chainInts l2 := by
  unfold chainInts
  rw [List.map_append, List.dropLast_append_of_ne_nil]
  intro hc
  exact h (List.map_eq_nil.mp hc)

theorem chainInts_sub_append_mid {l1 c l3 : List Edge} (hc : c ≠ []) :
    ∀ x ∈ chainInts (l1 ++ l3), x ∈ chainInts (l1 ++ c ++ l3) := by
  intro x hx
  rcases eq_or_ne l3 [] with rfl | h3
  · rw [List.append_nil] at hx
    rw [List.append_nil, chainInts_append hc]
    exact List.mem_append_left _ (mem_chainInts_tov hx)
  · have hcl3 : c ++ l3 ≠ [] := by
      intro hc2
      rw [List.append_eq_nil] at hc2
      exact h3 hc2.2
    rw [chainInts_append h3] at hx
    rw [List.append_assoc, chainInts_append hcl3, chainInts_append h3]
    rcases List.mem_append.mp hx with h | h
    · exact List.mem_append_left _ h
    · exact List.mem_append_right _ (List.mem_append_right _ h)

theorem chain_edge_mem {es : Edges} {a b : Nat} {l : List Edge} {e : Edge}
    (h : IsChain es a l b) (he : e ∈ l) : e ∈ es := by
  induction l generalizing a with
  | nil => exact absurd he (by simp)
  | cons f l ih =>
    cases h with
    | cons hmem htail =>
      rcases List.mem_cons.mp he with rfl | he'
      · exact hmem
      · exact ih htail he'

theorem chainInts_lt {es : Edges} {V : Nat} (hwf : WFEdges es V)
    {a b : Nat} {l : List Edge} (h : IsChain es a l b) :
    ∀ x ∈ chainInts l, x < V := by
  intro x hx
  obtain ⟨e, he, heq⟩ := List.mem_map.mp (mem_chainInts_tov hx)
  exact heq ▸ (hwf e (chain_edge_mem h he)).2

theorem relaxV_le_cur (cur x y : Int) : relaxV cur x y ≤ cur := by
  unfold relaxV
  split
  · exact min_le_left _ _
  · exact le_refl _

theorem relaxV_le_sum {x y : Int} (cur : Int) (hx : x ≠ INF) (hy : y ≠ INF) :
    relaxV cur x y ≤ x + y := by
  unfold relaxV
  rw [if_pos ⟨hx, hy⟩]
  exact min_le_right _ _

theorem relaxV_soundAt {es : Edges} {i j k : Nat} {cur x y : Int}
    (hc : SoundAt es i j cur) (hx : SoundAt es i k x) (hy : SoundAt es k j y) :
    SoundAt es i j (relaxV cur x y) := by
  unfold relaxV
  split
  · next hne =>
    rcases hx with hx | ⟨lx, hlx, hwx⟩
    · exact absurd hx hne.1
    · rcases hy with hy | ⟨ly, hly, hwy⟩
      · exact absurd hy hne.2
      · rcases le_total cur (x + y) with hle | hle
        · rw [min_eq_left hle]
          exact hc
        · rw [min_eq_right hle]
          exact Or.inr ⟨lx ++ ly, isChain_append.mpr ⟨k, hlx, hly⟩,
            by rw [chainW_append, hwx, hwy]⟩
  · exact hc

theorem colF_le (s : Mat) (k i : Nat) : colF s k i ≤ mget s i k :=
  relaxV_le_cur _ _ _

theorem rowF_le (s : Mat) (k j : Nat) : rowF s k j ≤ mget s k j :=
  relaxV_le_cur _ _ _

theorem dkkF_le (s : Mat) (k : Nat) : dkkF s k ≤ mget s k k :=
  relaxV_le_cur _ _ _

theorem cellF_le_self (s : Mat) (k i j : Nat) : cellF s k i j ≤ mget s i j := by
  unfold cellF
  split
  · next hik =>
    split
    · next hjk =>
      rw [hik, hjk]
      exact dkkF_le s k
    · rw [hik]
      exact rowF_le s k j
  · split
    · next hjk =>
      rw [hjk]
      exact colF_le s k i
    · exact relaxV_le_cur _ _ _

theorem cellF_le_sum {s : Mat} {k i j : Nat} (hik : i ≠ k) (hjk : j ≠ k)
    (hx : mget s i k < INF) (hy : mget s k j < INF) :
    cellF s k i j ≤ mget s i k + mget s k j := by
  rw [cellF_gen s hik hjk]
  have hx1 : (if k < j then colF s k i else mget s i k) ≤ mget s i k := by
    split
    · exact colF_le s k i
    · exact le_refl _
  have hy1 : (if k < i then rowF s k j else mget s k j) ≤ mget s k j := by
    split
    · exact rowF_le s k j
    · exact le_refl _
  have := relaxV_le_sum (mget s i j)
    (ne_of_lt (lt_of_le_of_lt hx1 hx)) (ne_of_lt (lt_of_le_of_lt hy1 hy))
  calc relaxV (mget s i j) _ _ ≤ _ := this
    _ ≤ mget s i k + mget s k j := add_le_add hx1 hy1

theorem foldl_min_le_init (l : List Int) : ∀ a : Int,
    l.foldl (fun a w => min a w) a ≤ a := by
  induction l with
  | nil => intro a; exact le_refl _
  | cons x xs ih =>
    intro a
    exact le_trans (ih (min a x)) (min_le_left a x)

theorem foldl_min_le_mem {l : List Int} {x : Int} (hx : x ∈ l) (a : Int) :
    l.foldl (fun a w => min a w) a ≤ x := by
  induction l generalizing a with
  | nil => exact absurd hx (by simp)
  | cons y ys ih =>
    rcases List.mem_cons.mp hx with rfl | hx'
    · exact le_trans (foldl_min_le_init ys (min a x)) (min_le_right a x)
    · exact ih hx' (min a y)

theorem foldl_min_mem (l : List Int) : ∀ a : Int,
    l.foldl (fun a w => min a w) a = a ∨ l.foldl (fun a w => min a w) a ∈ l := by
  induction l with
  | nil => intro a; exact Or.inl rfl
  | cons x xs ih =>
    intro a
    rcases ih (min a x) with h | h
    · rcases le_total a x with hle | hle
      · left
        rw [List.foldl_cons, h, min_eq_left hle]
      · right
        rw [List.foldl_cons, h, min_eq_right hle]
        exact List.mem_cons_self x xs
    · right
      rw [List.foldl_cons]
      exact List.mem_cons_of_mem x h

theorem mem_wgts_iff {l : Edges} {i j : Nat} {x : Int} :
    x ∈ wgts l i j ↔ ∃ e ∈ l, e.frm = i ∧ e.tov = j ∧ e.weight = x := by
  unfold wgts
  rw [List.mem_map]
  constructor
  · rintro ⟨e, he, rfl⟩
    have := List.mem_filter.mp he
    simp only [Bool.and_eq_true, beq_iff_eq] at this
    exact ⟨e, this.1, this.2.1, this.2.2, rfl⟩
  · rintro ⟨e, he, h1, h2, rfl⟩
    refine ⟨e, List.mem_filter.mpr ⟨he, ?_⟩, rfl⟩
    simp only [Bool.and_eq_true, beq_iff_eq]
    exact ⟨h1, h2⟩

theorem isChain_subset {es es' : Edges} (hsub : ∀ e ∈ es, e ∈ es')
    {a b : Nat} {l : List Edge} (h : IsChain es a l b) : IsChain es' a l b := by
  induction l generalizing a with
  | nil =>
    rw [isChain_nil_iff.mp h]
    exact IsChain.nil b
  | cons e l ih =>
    cases h with
    | cons hmem htail => exact IsChain.cons (hsub e hmem) (ih htail)

theorem isChain_restrict {es es' : Edges} {a b : Nat} {l : List Edge}
    (h : IsChain es' a l b) (hall : ∀ e ∈ l, e ∈ es) : IsChain es a l b := by
  induction l generalizing a with
  | nil =>
    rw [isChain_nil_iff.mp h]
    exact IsChain.nil b
  | cons e l ih =>
    cases h with
    | cons _ htail =>
      exact IsChain.cons (hall e (List.mem_cons_self e l))
        (ih htail (fun e' he' => hall e' (List.mem_cons_of_mem e he')))

theorem chain_end_mem {es : Edges} {a b : Nat} {l : List Edge}
    (h : IsChain es a l b) (hne : l ≠ []) : b ∈ l.map Edge.tov := by
  induction l generalizing a with
  | nil => exact absurd rfl hne
  | cons e l ih =>
    cases h with
    | cons _ htail =>
      rcases eq_or_ne l [] with rfl | hl
      · rw [← isChain_nil_iff.mp htail]
        simp
      · exact List.mem_cons_of_mem _ (ih htail hl)

/-! One Floyd-Warshall round preserves soundness (every entry is the
weight of an actual path, or the sentinel). -/

theorem dkkF_soundAt {es : Edges} {V : Nat} {m : Mat} (hs : MSound es V m)
    {k : Nat} (hk : k < V) : SoundAt es k k (dkkF m k) :=
  relaxV_soundAt (hs k k hk hk) (hs k k hk hk) (hs k k hk hk)

theorem rowF_soundAt {es : Edges} {V : Nat} {m : Mat} (hs : MSound es V m)
    {k j : Nat} (hk : k < V) (hj : j < V) : SoundAt es k j (rowF m k j) := by
  unfold rowF
  refine relaxV_soundAt (hs k j hk hj) ?_ (hs k j hk hj)
  split
  · exact dkkF_soundAt hs hk
  · exact hs k k hk hk

theorem colF_soundAt {es : Edges} {V : Nat} {m : Mat} (hs : MSound es V m)
    {k i : Nat} (hk : k < V) (hi : i < V) : SoundAt es i k (colF m k i) := by
  unfold colF
  refine relaxV_soundAt (hs i k hi hk) (hs i k hi hk) ?_
  split
  · exact dkkF_soundAt hs hk
  · exact hs k k hk hk

theorem cellF_soundAt {es : Edges} {V : Nat} {m : Mat} (hs : MSound es V m)
    {k i j : Nat} (hk : k < V) (hi : i < V) (hj : j < V) :
    SoundAt es i j (cellF m k i j) := by
  unfold cellF
  split
  · next hik =>
    split
    · next hjk =>
      rw [hik, hjk]
      exact dkkF_soundAt hs hk
    · rw [hik]
      exact rowF_soundAt hs hk hj
  · split
    · next hjk =>
      rw [hjk]
      exact colF_soundAt hs hk hi
    · refine relaxV_soundAt (k := k) (hs i j hi hj) ?_ ?_
      · split
        · exact colF_soundAt hs hk hi
        · exact hs i k hi hk
      · split
        · exact rowF_soundAt hs hk hj
        · exact hs k j hk hj

theorem fwRound_sound {es : Edges} {V : Nat} {m : Mat} (hsq : SquareM V m)
    {k : Nat} (hk : k < V) (hs : MSound es V m) :
    SquareM V (fwRound V m k) ∧ MSound es V (fwRound V m k) := by
  obtain ⟨hsq2, hval⟩ := fwRound_char hsq hk
  refine ⟨hsq2, ?_⟩
  intro i j hi hj
  rw [hval i j hi hj]
  exact cellF_soundAt hs hk hi hj

/-! Cycle removal preserving the set of intermediate vertices, for
non-negative weights. -/

theorem chain_dup_split {es : Edges} {s v : Nat} {l : List Edge}
    (h : IsChain es s l v) (hnodup : ¬ (chainVerts s l).Nodup) :
    ∃ l1 c l3 x, l = l1 ++ c ++ l3 ∧ IsChain es s l1 x ∧ IsChain es x c x ∧
      c ≠ [] ∧ IsChain es x l3 v := by
  obtain ⟨vs1, x, vs2, vs3, hsplit⟩ := not_nodup_split hnodup
  have hsplit1 : chainVerts s l = vs1 ++ x :: (vs2 ++ x :: vs3) := by
    rw [hsplit]
    simp
  obtain ⟨l1, l2, hl12, _, hc1, hc2, hverts2⟩ := chain_verts_split h hsplit1
  have hsplit2 : chainVerts x l2 = (x :: vs2) ++ x :: vs3 := by
    rw [hverts2]
    rfl
  obtain ⟨c, l3, hl23, hlen2, hcc, hc3, _⟩ := chain_verts_split hc2 hsplit2
  refine ⟨l1, c, l3, x, ?_, hc1, hcc, ?_, hc3⟩
  · rw [hl12, hl23, List.append_assoc]
  · intro hc0
    rw [hc0] at hlen2
    simp at hlen2

theorem nodup_verts_length {es : Edges} {V : Nat} (hwf : WFEdges es V)
    {s v : Nat} (hs : s < V) {l : List Edge} (h : IsChain es s l v)
    (hnd : (chainVerts s l).Nodup) : l.length < V := by
  have hvl : ∀ x ∈ chainVerts s l, x < V := chainVerts_lt hwf hs h
  have hsub : (chainVerts s l).Subperm (List.range V) :=
    List.subperm_of_subset hnd (fun x hx => List.mem_range.mpr (hvl x hx))
  have hle := hsub.length_le
  rw [chainVerts_length, List.length_range] at hle
  omega

theorem chain_reduce_nodup_aux {es : Edges} (hnn : ∀ e ∈ es, 0 ≤ e.weight) :
    ∀ (n : Nat) {s v : Nat} {l : List Edge}, l.length ≤ n → IsChain es s l v →
      ∃ l', IsChain es s l' v ∧ (chainVerts s l').Nodup ∧
        chainW l' ≤ chainW l ∧ ∀ x ∈ chainInts l', x ∈ chainInts l := by
  intro n
  induction n with
  | zero =>
    intro s v l hlen h
    have hl0 : l = [] := List.length_eq_zero.mp (Nat.le_zero.mp hlen)
    subst hl0
    exact ⟨[], h, List.nodup_singleton s, le_refl _, fun x hx => hx⟩
  | succ n ih =>
    intro s v l hlen h
    by_cases hnd : (chainVerts s l).Nodup
    · exact ⟨l, h, hnd, le_refl _, fun x hx => hx⟩
    · obtain ⟨l1, c, l3, x, hdecomp, hc1, hcc, hcne, hc3⟩ := chain_dup_split h hnd
      have hchain13 : IsChain es s (l1 ++ l3) v :=
        isChain_append.mpr ⟨x, hc1, hc3⟩
      have hlen13 : (l1 ++ l3).length ≤ n := by
        have hc_pos : 0 < c.length := List.length_pos.mpr hcne
        have : l.length = l1.length + c.length + l3.length := by
          rw [hdecomp]
          simp [List.length_append]
          omega
        rw [List.length_append]
        omega
      obtain ⟨l', hl', hnd', hw', hint'⟩ := ih hlen13 hchain13
      refine ⟨l', hl', hnd', ?_, ?_⟩
      · have hcw : 0 ≤ chainW c := chainW_nonneg hnn hcc
        have hwsum : chainW l = chainW l1 + chainW c + chainW l3 := by
          rw [hdecomp, chainW_append, chainW_append]
        have hw13 : chainW (l1 ++ l3) = chainW l1 + chainW l3 :=
          chainW_append l1 l3
        rw [hw13] at hw'
        linarith
      · intro y hy
        rw [hdecomp]
        exact chainInts_sub_append_mid hcne y (hint' y hy)

theorem chain_reduce_nodup {es : Edges} (hnn : ∀ e ∈ es, 0 ≤ e.weight)
    {s v : Nat} {l : List Edge} (h : IsChain es s l v) :
    ∃ l', IsChain es s l' v ∧ (chainVerts s l').Nodup ∧ chainW l' ≤ chainW l ∧
      ∀ x ∈ chainInts l', x ∈ chainInts l :=
  chain_reduce_nodup_aux hnn l.length (le_refl _) h

/-! Splitting a path at the first or last visit of a given vertex. -/

theorem chain_first_k {es : Edges} {k : Nat} :
    ∀ {l : List Edge} {i j : Nat}, IsChain es i l j → k ∈ chainInts l →
      ∃ la lb, l = la ++ lb ∧ la ≠ [] ∧ IsChain es i la k ∧
        IsChain es k lb j ∧ k ∉ chainInts la ∧
        (∀ x ∈ chainInts la, x ∈ chainInts l) ∧
        (∀ x ∈ chainInts lb, x ∈ chainInts l) := by
  intro l
  induction l with
  | nil =>
    intro i j _ hk
    exact absurd hk (by simp [chainInts_nil])
  | cons e l ih =>
    intro i j hch hk
    cases hch with
    | cons hmem htail =>
      rcases eq_or_ne l [] with rfl | hlne
      · rw [chainInts_single] at hk
        exact absurd hk (by simp)
      · rw [chainInts_cons e hlne] at hk
        by_cases heq : k = e.tov
        · refine ⟨[e], l, rfl, by simp, ?_, ?_, by simp [chainInts_single], ?_, ?_⟩
          · exact isChain_singleton.mpr ⟨hmem, rfl, heq.symm⟩
          · rw [heq]
            exact htail
          · intro x hx
            rw [chainInts_single] at hx
            exact absurd hx (by simp)
          · intro x hx
            rw [chainInts_cons e hlne]
            exact List.mem_cons_of_mem _ hx
        · have hk' : k ∈ chainInts l := by
            rcases List.mem_cons.mp hk with hc | hc
            · exact absurd hc heq
            · exact hc
          obtain ⟨la, lb, hsplit, hlane, hcla, hclb, hknot, hsub_a, hsub_b⟩ :=
            ih htail hk'
          have hekne : k ≠ e.tov := heq
          refine ⟨e :: la, lb, by rw [hsplit, List.cons_append], by simp,
            IsChain.cons hmem hcla,
            hclb, ?_, ?_, ?_⟩
          · rw [chainInts_cons e hlane]
            intro hc
            rcases List.mem_cons.mp hc with hc1 | hc2
            · exact hekne hc1
            · exact hknot hc2
          · intro x hx
            rw [chainInts_cons e hlane] at hx
            rw [chainInts_cons e hlne]
            rcases List.mem_cons.mp hx with rfl | hx'
            · exact List.mem_cons_self _ _
            · exact List.mem_cons_of_mem _ (hsub_a x hx')
          · intro x hx
            rw [chainInts_cons e hlne]
            exact List.mem_cons_of_mem _ (hsub_b x hx)

theorem chain_last_k {es : Edges} (hnn : ∀ e ∈ es, 0 ≤ e.weight) {k : Nat} :
    ∀ (n : Nat) {l : List Edge} {j : Nat}, l.length ≤ n → IsChain es k l j →
      ∃ lb, IsChain es k lb j ∧ k ∉ chainInts lb ∧
        (∀ x ∈ chainInts lb, x ∈ chainInts l) ∧ chainW lb ≤ chainW l := by
  intro n
  induction n with
  | zero =>
    intro l j hlen h
    have hl0 : l = [] := List.length_eq_zero.mp (Nat.le_zero.mp hlen)
    subst hl0
    exact ⟨[], h, by simp [chainInts_nil], fun x hx => hx, le_refl _⟩
  | succ n ih =>
    intro l j hlen h
    by_cases hkin : k ∈ chainInts l
    · obtain ⟨la, lrest, hsplit, hlane, hcla, hclrest, _, _, hsub_rest⟩ :=
        chain_first_k h hkin
      have hlenrest : lrest.length ≤ n := by
        have h1 : l.length = la.length + lrest.length := by
          rw [hsplit, List.length_append]
        have h2 : 0 < la.length := List.length_pos.mpr hlane
        omega
      obtain ⟨lb, h1, h2, h3, h4⟩ := ih hlenrest hclrest
      refine ⟨lb, h1, h2, fun x hx => hsub_rest x (h3 x hx), ?_⟩
      have hws : chainW l = chainW la + chainW lrest := by
        rw [hsplit, chainW_append]
      have hla0 : 0 ≤ chainW la := chainW_nonneg hnn hcla
      linarith
    · exact ⟨l, h, hkin, fun x hx => hx, le_refl _⟩

theorem chain_cost_lt_INF {es : Edges} {V : Nat} {B : Int} (hnn : SmallNN es V B)
    {s v : Nat} {l : List Edge} (h : IsChain es s l v) (hlen : l.length < V) :
    chainW l < INF := by
  have hb : ∀ e ∈ es, -B ≤ e.weight ∧ e.weight ≤ B := by
    intro e he
    obtain ⟨h1, h2⟩ := hnn.2.1 e he
    exact ⟨le_trans (neg_nonpos.mpr hnn.1) h1, h2⟩
  have hub := (chainW_bounds hb h).2
  have hlb : (l.length : Int) * B ≤ ((V + 1 : Nat) : Int) * B := by
    refine mul_le_mul_of_nonneg_right ?_ hnn.1
    exact_mod_cast (by omega : l.length ≤ V + 1)
  exact lt_of_le_of_lt (le_trans hub hlb) hnn.2.2

theorem mcomplS_mono {es : Edges} {V : Nat} {S T : Nat → Prop}
    (hst : ∀ x, T x → S x) {m : Mat} (h : MComplS es V S m) :
    MComplS es V T m := by
  intro i j hi hj l hch hints
  exact h i j hi hj l hch (fun x hx => hst x (hints x hx))

/-- One round with pivot `k` upgrades completeness from paths with
intermediates in `S` to paths with intermediates in `S ∪ {k}`. -/
theorem fwRound_compl {es : Edges} {V : Nat} {B : Int} (hwf : WFEdges es V)
    (hnn : SmallNN es V B) {S : Nat → Prop} {m : Mat} (hsq : SquareM V m)
    {k : Nat} (hk : k < V) (hc : MComplS es V S m) :
    MComplS es V (fun x => S x ∨ x = k) (fwRound V m k) := by
  have hnn0 : ∀ e ∈ es, 0 ≤ e.weight := fun e he => (hnn.2.1 e he).1
  obtain ⟨hsq2, hval⟩ := fwRound_char hsq hk
  intro i j hi hj l hch hints
  rw [hval i j hi hj]
  by_cases hkin : k ∈ chainInts l
  · rcases eq_or_ne i k with heq | hik
    · have hch' : IsChain es k l j := by
        rw [← heq]
        exact hch
      obtain ⟨lb, hclb, hknot, hsub_b, hwb⟩ :=
        chain_last_k hnn0 l.length (le_refl _) hch'
      have hclb' : IsChain es i lb j := by
        rw [heq]
        exact hclb
      have hS : ∀ x ∈ chainInts lb, S x := by
        intro x hx
        rcases hints x (hsub_b x hx) with h1 | h1
        · exact h1
        · exact absurd (h1 ▸ hx) hknot
      exact le_trans (cellF_le_self m k i j)
        (le_trans (hc i j hi hj lb hclb' hS) hwb)
    · rcases eq_or_ne j k with hjeq | hjk
      · have hch' : IsChain es i l k := by
          rw [← hjeq]
          exact hch
        obtain ⟨la, lrest, hsplit, hlane, hcla, hclrest, hknot_a, hsub_a, _⟩ :=
          chain_first_k hch' hkin
        have hSa : ∀ x ∈ chainInts la, S x := by
          intro x hx
          rcases hints x (hsub_a x hx) with h1 | h1
          · exact h1
          · exact absurd (h1 ▸ hx) hknot_a
        have h1 : mget m i k ≤ chainW la := hc i k hi hk la hcla hSa
        have h2 : 0 ≤ chainW lrest := chainW_nonneg hnn0 hclrest
        have h3 : chainW l = chainW la + chainW lrest := by
          rw [hsplit, chainW_append]
        have h4 : mget m i j ≤ chainW l := by
          rw [hjeq]
          linarith
        exact le_trans (cellF_le_self m k i j) h4
      · obtain ⟨la, lrest, hsplit, hlane, hcla, hclrest, hknot_a, hsub_a,
          hsub_rest⟩ := chain_first_k hch hkin
        obtain ⟨lb, hclb, hknot_b, hsub_b, hwb⟩ :=
          chain_last_k hnn0 lrest.length (le_refl _) hclrest
        have hSa : ∀ x ∈ chainInts la, S x := by
          intro x hx
          rcases hints x (hsub_a x hx) with h1 | h1
          · exact h1
          · exact absurd (h1 ▸ hx) hknot_a
        have hSb : ∀ x ∈ chainInts lb, S x := by
          intro x hx
          rcases hints x (hsub_rest x (hsub_b x hx)) with h1 | h1
          · exact h1
          · exact absurd (h1 ▸ hx) hknot_b
        have h1 : mget m i k ≤ chainW la := hc i k hi hk la hcla hSa
        have h2 : mget m k j ≤ chainW lb := hc k j hk hj lb hclb hSb
        obtain ⟨la', hla', hnda', hwa', hsa'⟩ := chain_reduce_nodup hnn0 hcla
        have h1' : mget m i k ≤ chainW la' :=
          hc i k hi hk la' hla' (fun x hx => hSa x (hsa' x hx))
        have hlenla' : la'.length < V := nodup_verts_length hwf hi hla' hnda'
        have h1lt : mget m i k < INF :=
          lt_of_le_of_lt h1' (chain_cost_lt_INF hnn hla' hlenla')
        obtain ⟨lb', hlb', hndb', hwb', hsb'⟩ := chain_reduce_nodup hnn0 hclb
        have h2' : mget m k j ≤ chainW lb' :=
          hc k j hk hj lb' hlb' (fun x hx => hSb x (hsb' x hx))
        have hlenlb' : lb'.length < V := nodup_verts_length hwf hk hlb' hndb'
        have h2lt : mget m k j < INF :=
          lt_of_le_of_lt h2' (chain_cost_lt_INF hnn hlb' hlenlb')
        have hcell := cellF_le_sum hik hjk h1lt h2lt
        have h3 : chainW l = chainW la + chainW lrest := by
          rw [hsplit, chainW_append]
        linarith
  · have hS : ∀ x ∈ chainInts l, S x := by
      intro x hx
      rcases hints x hx with h1 | h1
      · exact h1
      · exact absurd (h1 ▸ hx) hkin
    exact le_trans (cellF_le_self m k i j) (hc i j hi hj l hch hS)

theorem wfEdges_flatten {g : Graph} (hwf : WFGraph g) :
    WFEdges g.flatten g.length := by
  intro e he
  obtain ⟨l, hl, hel⟩ := List.mem_flatten.mp he
  exact hwf l hl e hel

theorem initMatrix_char (g : Graph) :
    SquareM g.length (initMatrix g) ∧
    ∀ i j, i < g.length → j < g.length →
      mget (initMatrix g) i j = (wgts g.flatten i j).foldl (fun a w => min a w)
        (if i = j then 0 else INF) := by
  obtain ⟨hdsq, hdval⟩ := diagStart_char g.length
  rw [initMatrix_flatten]
  obtain ⟨hsq, hval⟩ := initFold_char (V := g.length) g.flatten
    (diagStart g.length) hdsq
  refine ⟨hsq, ?_⟩
  intro i j hi hj
  rw [hval i j hi hj, hdval i j hi hj]

theorem initMatrix_sound {g : Graph} : MSound g.flatten g.length (initMatrix g) := by
  obtain ⟨hsq, hval⟩ := initMatrix_char g
  intro i j hi hj
  rw [hval i j hi hj]
  rcases foldl_min_mem (wgts g.flatten i j) (if i = j then 0 else INF) with h | h
  · rw [h]
    rcases eq_or_ne i j with rfl | hne
    · rw [if_pos rfl]
      exact Or.inr ⟨[], IsChain.nil i, chainW_nil⟩
    · rw [if_neg hne]
      exact Or.inl rfl
  · obtain ⟨e, he, h1, h2, h3⟩ := mem_wgts_iff.mp h
    refine Or.inr ⟨[e], isChain_singleton.mpr ⟨he, h1, h2⟩, ?_⟩
    rw [chainW_single, h3]

theorem initMatrix_compl {g : Graph} :
    MComplS g.flatten g.length (fun _ => False) (initMatrix g) := by
  obtain ⟨hsq, hval⟩ := initMatrix_char g
  intro i j hi hj l hch hints
  rw [hval i j hi hj]
  cases l with
  | nil =>
    have hij : i = j := isChain_nil_iff.mp hch
    rw [chainW_nil]
    refine le_trans (foldl_min_le_init _ _) ?_
    rw [if_pos hij]
  | cons e l2 =>
    cases l2 with
    | nil =>
      obtain ⟨he, h1, h2⟩ := isChain_singleton.mp hch
      have hmem : e.weight ∈ wgts g.flatten i j :=
        mem_wgts_iff.mpr ⟨e, he, h1, h2, rfl⟩
      rw [chainW_single]
      exact foldl_min_le_mem hmem _
    | cons e2 l3 =>
      have hmem : e.tov ∈ chainInts (e :: e2 :: l3) := by
        rw [chainInts_cons e (by simp)]
        exact List.mem_cons_self _ _
      exact (hints _ hmem).elim

theorem fw_fold_char {es : Edges} {V : Nat} {B : Int} (hwf : WFEdges es V)
    (hnn : SmallNN es V B) {m0 : Mat} (hsq : SquareM V m0)
    (hs0 : MSound es V m0) (hc0 : MComplS es V (fun _ => False) m0) :
    ∀ n, n ≤ V →
      SquareM V ((List.range n).foldl (fun m k => fwRound V m k) m0) ∧
      MSound es V ((List.range n).foldl (fun m k => fwRound V m k) m0) ∧
      MComplS es V (fun x => x < n)
        ((List.range n).foldl (fun m k => fwRound V m k) m0) := by
  intro n
  induction n with
  | zero =>
    intro _
    refine ⟨hsq, hs0, mcomplS_mono ?_ hc0⟩
    intro x hx
    exact absurd hx (Nat.not_lt_zero x)
  | succ n ihn =>
    intro hn
    obtain ⟨hsq1, hs1, hc1⟩ := ihn (by omega)
    rw [List.range_succ, List.foldl_append, List.foldl_cons, List.foldl_nil]
    have hkV : n < V := by omega
    obtain ⟨hsq2, hs2⟩ := fwRound_sound hsq1 hkV hs1
    have hc2 := fwRound_compl hwf hnn hsq1 hkV hc1
    refine ⟨hsq2, hs2, mcomplS_mono ?_ hc2⟩
    intro x hx
    omega

/-- `WarshallFloyd`, full characterization: square, every entry sound, and
a lower bound on every path weight. -/
theorem warshallFloyd_ok {g : Graph} {B : Int} (hwf : WFGraph g)
    (hnn : SmallNN g.flatten g.length B) :
    SquareM g.length (WarshallFloyd g) ∧
    MSound g.flatten g.length (WarshallFloyd g) ∧
    ∀ i j, i < g.length → j < g.length → ∀ l, IsChain g.flatten i l j →
      mget (WarshallFloyd g) i j ≤ chainW l := by
  obtain ⟨hsq, _⟩ := initMatrix_char g
  obtain ⟨h1, h2, h3⟩ := fw_fold_char (wfEdges_flatten hwf) hnn hsq
    initMatrix_sound initMatrix_compl g.length (le_refl _)
  unfold WarshallFloyd
  refine ⟨h1, h2, ?_⟩
  intro i j hi hj l hch
  exact h3 i j hi hj l hch (chainInts_lt (wfEdges_flatten hwf) hch)

theorem wf_symm_all {g : Graph} (hb : BuiltByEdges g) :
    SquareM g.length (WarshallFloyd g) ∧ SymM g.length (WarshallFloyd g) := by
  obtain ⟨hsq0, hsym0⟩ := initMatrix_symm hb
  unfold WarshallFloyd
  refine foldl_invariant
    (P := fun m => SquareM g.length m ∧ SymM g.length m) ?_
    (initMatrix g) ⟨hsq0, hsym0⟩
  rintro m k hk ⟨h1, h2⟩
  exact fwRound_symm h1 h2 (List.mem_range.mp hk)

theorem length_add_edge (g : Graph) (a b : Nat) (w : Int) :
    (add_edge g a b w).length = g.length := by
  unfold add_edge
  rw [length_pushEdge, length_pushEdge]

theorem flatten_add_edge {g : Graph} {a b : Nat} (ha : a < g.length)
    (hb : b < g.length) (w : Int) :
    (add_edge g a b w).flatten.Perm (g.flatten ++ [⟨a, b, w⟩, ⟨b, a, w⟩]) := by
  unfold add_edge
  have h1 := flatten_pushEdge (g := g) ha (Edge.mk a b w)
  have h2 := flatten_pushEdge (g := pushEdge g a (Edge.mk a b w))
    (by rw [length_pushEdge]; exact hb) (Edge.mk b a w)
  refine h2.trans ?_
  have h3 := h1.append_right [Edge.mk b a w]
  rw [List.append_assoc] at h3
  exact h3

theorem wfGraph_add_edge {g : Graph} (hwf : WFGraph g) {a b : Nat}
    (ha : a < g.length) (hb : b < g.length) (w : Int) :
    WFGraph (add_edge g a b w) := by
  intro l hl e he
  rw [length_add_edge]
  have hfl : e ∈ (add_edge g a b w).flatten := List.mem_flatten.mpr ⟨l, hl, he⟩
  have hfl2 := (flatten_add_edge ha hb w).mem_iff.mp hfl
  rcases List.mem_append.mp hfl2 with h | h
  · exact wfEdges_flatten hwf e h
  · rcases List.mem_cons.mp h with rfl | h2
    · exact ⟨ha, hb⟩
    · rcases List.mem_cons.mp h2 with rfl | h3
      · exact ⟨hb, ha⟩
      · exact absurd h3 (by simp)

theorem length_fwRelax (m : Mat) (k i j : Nat) :
    (fwRelax m k i j).length = m.length := by
  unfold fwRelax
  split
  · exact length_mset m i j _
  · rfl

theorem length_foldl_pres {α : Type} {f : Mat → α → Mat}
    (hf : ∀ m x, (f m x).length = m.length) (l : List α) :
    ∀ m : Mat, (l.foldl f m).length = m.length := by
  induction l with
  | nil => intro m; rfl
  | cons x xs ih =>
    intro m
    rw [List.foldl_cons, ih, hf]

theorem length_fwRowN (n : Nat) (m : Mat) (k i : Nat) :
    (fwRowN n m k i).length = m.length :=
  length_foldl_pres (fun m j => length_fwRelax m k i j) _ m

theorem length_fwRoundN (V n : Nat) (m : Mat) (k : Nat) :
    (fwRoundN V n m k).length = m.length :=
  length_foldl_pres (fun m i => length_fwRowN V m k i) _ m

theorem length_fwRound (V : Nat) (m : Mat) (k : Nat) :
    (fwRound V m k).length = m.length := length_fwRoundN V V m k

theorem add_edge_to_matrix_eq (m : Mat) (a b : Nat) (w : Int) :
    add_edge_to_matrix m a b w =
      fwRound m.length (fwRound m.length
        (mset (mset m b a (min (mget m a b) w)) a b (min (mget m a b) w)) a)
        b := by
  unfold add_edge_to_matrix
  rw [List.foldl_cons, List.foldl_cons, List.foldl_nil]
  have h1 : (mset (mset m b a (min (mget m a b) w)) a b
      (min (mget m a b) w)).length = m.length := by
    rw [length_mset, length_mset]
  rw [h1, length_fwRound, h1]

theorem mget_m1 {V : Nat} {m : Mat} (hsq : SquareM V m) {a b : Nat}
    (ha : a < V) (hb : b < V) (x : Int) (i j : Nat) :
    mget (mset (mset m b a x) a b x) i j =
      if (i = a ∧ j = b) ∨ (i = b ∧ j = a) then x else mget m i j := by
  rcases Decidable.em (i = a ∧ j = b) with ⟨rfl, rfl⟩ | hne1
  · rw [mget_mset_self (squareM_mset hsq _ _ _) ha hb,
      if_pos (Or.inl ⟨rfl, rfl⟩)]
  · rw [mget_mset_ne _ hne1]
    rcases Decidable.em (i = b ∧ j = a) with ⟨rfl, rfl⟩ | hne2
    · rw [mget_mset_self hsq hb ha, if_pos (Or.inr ⟨rfl, rfl⟩)]
    · rw [mget_mset_ne _ hne2, if_neg]
      rintro (h | h)
      · exact hne1 h
      · exact hne2 h

theorem symArcs_built {g : Graph} (hb : BuiltByEdges g) (hwf : WFGraph g) :
    SymArcs g.flatten := by
  intro e he
  have hbnd := wfEdges_flatten hwf e he
  have hw : e.weight ∈ wgts g.flatten e.frm e.tov :=
    mem_wgts_iff.mpr ⟨e, he, rfl, rfl, rfl⟩
  have hw2 : e.weight ∈ wgts g.flatten e.tov e.frm :=
    (built_wgts_perm hb e.frm e.tov hbnd.1 hbnd.2).mem_iff.mp hw
  obtain ⟨e', he', h1, h2, h3⟩ := mem_wgts_iff.mp hw2
  exact ⟨e', he', h1, h2, h3⟩

theorem symArcs_append_new {es : Edges} (hsym : SymArcs es) (a b : Nat)
    (w : Int) : SymArcs (es ++ [⟨a, b, w⟩, ⟨b, a, w⟩]) := by
  intro e he
  rcases List.mem_append.mp he with h | h
  · obtain ⟨e', he', h1, h2, h3⟩ := hsym e h
    exact ⟨e', List.mem_append_left _ he', h1, h2, h3⟩
  · rcases List.mem_cons.mp h with rfl | h2
    · exact ⟨⟨b, a, w⟩, List.mem_append_right _ (by simp), rfl, rfl, rfl⟩
    · rcases List.mem_cons.mp h2 with rfl | h3
      · exact ⟨⟨a, b, w⟩, List.mem_append_right _ (by simp), rfl, rfl, rfl⟩
      · exact absurd h3 (by simp)

theorem chain_reverse {es : Edges} (hsym : SymArcs es) :
    ∀ {l : List Edge} {i j : Nat}, IsChain es i l j →
      ∃ l', IsChain es j l' i ∧ chainW l' = chainW l := by
  intro l
  induction l with
  | nil =>
    intro i j h
    rw [isChain_nil_iff.mp h]
    exact ⟨[], IsChain.nil j, rfl⟩
  | cons e l ih =>
    intro i j h
    cases h with
    | cons hmem htail =>
      obtain ⟨l', hl', hw'⟩ := ih htail
      obtain ⟨e', he', h1, h2, h3⟩ := hsym e hmem
      refine ⟨l' ++ [e'], ?_, ?_⟩
      · refine isChain_snoc.mpr ⟨he', h2, ?_⟩
        rw [h1]
        exact hl'
      · rw [chainW_append, chainW_single, hw', h3, chainW_cons]
        ring

theorem first_not_split {α : Type} {P : α → Prop} {l : List α}
    (h : ¬ ∀ x ∈ l, P x) :
    ∃ p e q, l = p ++ e :: q ∧ (∀ x ∈ p, P x) ∧ ¬ P e := by
  induction l with
  | nil =>
    exact absurd (fun x hx => absurd hx (by simp)) h
  | cons y t ih =>
    by_cases hy : P y
    · have ht : ¬ ∀ x ∈ t, P x := by
        intro hall
        refine h ?_
        intro x hx
        rcases List.mem_cons.mp hx with rfl | hx'
        · exact hy
        · exact hall x hx'
      obtain ⟨p, e, q, h1, h2, h3⟩ := ih ht
      refine ⟨y :: p, e, q, by rw [h1, List.cons_append], ?_, h3⟩
      intro x hx
      rcases List.mem_cons.mp hx with rfl | hx'
      · exact hy
      · exact h2 x hx'
    · exact ⟨[], y, t, rfl, fun x hx => absurd hx (by simp), hy⟩

theorem wfEdges_append_new {es : Edges} {V : Nat} (hwf : WFEdges es V)
    {a b : Nat} (ha : a < V) (hb : b < V) (w : Int) :
    WFEdges (es ++ [⟨a, b, w⟩, ⟨b, a, w⟩]) V := by
  intro e he
  rcases List.mem_append.mp he with h | h
  · exact hwf e h
  · rcases List.mem_cons.mp h with rfl | h2
    · exact ⟨ha, hb⟩
    · rcases List.mem_cons.mp h2 with rfl | h3
      · exact ⟨hb, ha⟩
      · exact absurd h3 (by simp)

theorem smallNN_append_new {es : Edges} {V : Nat} {B : Int}
    (hnn : SmallNN es V B) {a b : Nat} {w : Int} (hw0 : 0 ≤ w) (hwB : w ≤ B) :
    SmallNN (es ++ [⟨a, b, w⟩, ⟨b, a, w⟩]) V B := by
  refine ⟨hnn.1, ?_, hnn.2.2⟩
  intro e he
  rcases List.mem_append.mp he with h | h
  · exact hnn.2.1 e h
  · rcases List.mem_cons.mp h with rfl | h2
    · exact ⟨hw0, hwB⟩
    · rcases List.mem_cons.mp h2 with rfl | h3
      · exact ⟨hw0, hwB⟩
      · exact absurd h3 (by simp)

/-- A duplicate-free path over the augmented arc list either avoids the two
new arcs entirely, or uses exactly one of them, splitting into two old
paths. -/
theorem new_arc_decomp {es : Edges} {a b : Nat} {w : Int}
    {i j : Nat} {l : List Edge}
    (h : IsChain (es ++ [⟨a, b, w⟩, ⟨b, a, w⟩]) i l j)
    (hnd : (chainVerts i l).Nodup) :
    (∀ e ∈ l, e ∈ es) ∨
    (a ≠ b ∧ ∃ p q, l = p ++ ⟨a, b, w⟩ :: q ∧
      IsChain es i p a ∧ IsChain es b q j) ∨
    (a ≠ b ∧ ∃ p q, l = p ++ ⟨b, a, w⟩ :: q ∧
      IsChain es i p b ∧ IsChain es a q j) := by
  by_cases hall : ∀ e ∈ l, e ∈ es
  · exact Or.inl hall
  · obtain ⟨p, e, q, hsplit, hpall, heno⟩ := first_not_split hall
    have hh := h
    rw [hsplit] at hh
    obtain ⟨mid, hp, hq0⟩ := isChain_append.mp hh
    cases hq0 with
    | cons hemem htail =>
      unfold chainVerts at hnd
      obtain ⟨hnd1, hnd2⟩ := List.nodup_cons.mp hnd
      have hmaps : l.map Edge.tov = p.map Edge.tov ++ e.tov :: q.map Edge.tov := by
        rw [hsplit, List.map_append, List.map_cons]
      rw [hmaps] at hnd1 hnd2
      obtain ⟨hndp, hndcq, hdisj⟩ := List.nodup_append.mp hnd2
      have htov_not_q : e.tov ∉ q.map Edge.tov := (List.nodup_cons.mp hndcq).1
      have hfrm_occurs : e.frm ∉ e.tov :: q.map Edge.tov := by
        rcases eq_or_ne p [] with rfl | hpne
        · have hi : i = e.frm := isChain_nil_iff.mp hp
          intro hc
          refine hnd1 ?_
          simp only [List.map_nil, List.nil_append]
          rw [hi]
          exact hc
        · have hend : e.frm ∈ p.map Edge.tov := chain_end_mem hp hpne
          intro hc
          exact hdisj hend hc
      have hein : e ∈ l := by
        rw [hsplit]
        exact List.mem_append_right p (List.mem_cons_self e q)
      have henew : e = Edge.mk a b w ∨ e = Edge.mk b a w := by
        have hmem2 := chain_edge_mem h hein
        rcases List.mem_append.mp hmem2 with h1 | h1
        · exact absurd h1 heno
        · rcases List.mem_cons.mp h1 with h2 | h2
          · exact Or.inl h2
          · rcases List.mem_cons.mp h2 with h3 | h3
            · exact Or.inr h3
            · exact absurd h3 (by simp)
      have hqall : ∀ x ∈ q, x ∈ es := by
        intro x hx
        by_contra hxno
        have hxnew : x = Edge.mk a b w ∨ x = Edge.mk b a w := by
          have := chain_edge_mem htail hx
          rcases List.mem_append.mp this with h1 | h1
          · exact absurd h1 hxno
          · rcases List.mem_cons.mp h1 with h2 | h2
            · exact Or.inl h2
            · rcases List.mem_cons.mp h2 with h3 | h3
              · exact Or.inr h3
              · exact absurd h3 (by simp)
        have hxtov : x.tov ∈ q.map Edge.tov := List.mem_map_of_mem Edge.tov hx
        rcases henew with rfl | rfl
        · rcases hxnew with rfl | rfl
          · exact htov_not_q hxtov
          · exact hfrm_occurs (List.mem_cons_of_mem _ hxtov)
        · rcases hxnew with rfl | rfl
          · exact hfrm_occurs (List.mem_cons_of_mem _ hxtov)
          · exact htov_not_q hxtov
      have hab : a ≠ b → True := fun _ => trivial
      rcases henew with rfl | rfl
      · have hane : a ≠ b := by
          intro hc
          refine hfrm_occurs ?_
          show a ∈ b :: q.map Edge.tov
          rw [hc]
          exact List.mem_cons_self _ _
        exact Or.inr (Or.inl ⟨hane, p, q, hsplit,
          isChain_restrict hp hpall, isChain_restrict htail hqall⟩)
      · have hane : a ≠ b := by
          intro hc
          refine hfrm_occurs ?_
          show b ∈ a :: q.map Edge.tov
          rw [hc]
          exact List.mem_cons_self _ _
        exact Or.inr (Or.inr ⟨hane, p, q, hsplit,
          isChain_restrict hp hpall, isChain_restrict htail hqall⟩)

theorem mget_fwRound_le (V : Nat) (m : Mat) (k a b : Nat) :
    mget (fwRound V m k) a b ≤ mget m a b := mget_fwRoundN_le V V m k a b

theorem fwRound_le_sum {V : Nat} {m : Mat} (hsq : SquareM V m) {k : Nat}
    (hk : k < V) {i j : Nat} (hi : i < V) (hj : j < V) (hik : i ≠ k)
    (hjk : j ≠ k) (hx : mget m i k < INF) (hy : mget m k j < INF) :
    mget (fwRound V m k) i j ≤ mget m i k + mget m k j := by
  obtain ⟨_, hval⟩ := fwRound_char hsq hk
  rw [hval i j hi hj]
  exact cellF_le_sum hik hjk hx hy

theorem INF_pos : (0 : Int) < INF := by
  unfold INF
  decide

/-- Core correctness of the incremental update: starting from a sound,
complete, symmetric all-pairs matrix `m` for the arc list `es`, writing
`v = min(m[a][b], w)` into both `(a,b)` and `(b,a)` and re-relaxing through
`a` and then `b` yields a matrix that is sound and complete for the
augmented arc list. -/
theorem incr_ok {es : Edges} {V : Nat} {B : Int} {m : Mat}
    (hwf : WFEdges es V) (hnn : SmallNN es V B)
    (hsq : SquareM V m) (hsymm : SymM V m) (hsound : MSound es V m)
    (hcompl : ∀ i j, i < V → j < V → ∀ l, IsChain es i l j →
      mget m i j ≤ chainW l)
    {a b : Nat} (ha : a < V) (hbv : b < V) {w : Int} (hw0 : 0 ≤ w)
    (hwB : w ≤ B) {v : Int} (hv : v = min (mget m a b) w) :
    SquareM V (fwRound V (fwRound V (mset (mset m b a v) a b v) a) b) ∧
    MSound (es ++ [⟨a, b, w⟩, ⟨b, a, w⟩]) V
      (fwRound V (fwRound V (mset (mset m b a v) a b v) a) b) ∧
    ∀ i j, i < V → j < V → ∀ l,
      IsChain (es ++ [⟨a, b, w⟩, ⟨b, a, w⟩]) i l j →
      mget (fwRound V (fwRound V (mset (mset m b a v) a b v) a) b) i j ≤
        chainW l := by
  have hnn0 : ∀ e ∈ es, 0 ≤ e.weight := fun e he => (hnn.2.1 e he).1
  have hes'sub : ∀ e ∈ es, e ∈ es ++ [Edge.mk a b w, Edge.mk b a w] :=
    fun e he => List.mem_append_left _ he
  have hnn' := smallNN_append_new (a := a) (b := b) hnn hw0 hwB
  have hnn0' : ∀ e ∈ es ++ [Edge.mk a b w, Edge.mk b a w], 0 ≤ e.weight :=
    fun e he => (hnn'.2.1 e he).1
  have hbnd : ∀ e ∈ es, -B ≤ e.weight ∧ e.weight ≤ B := by
    intro e he
    obtain ⟨h1, h2⟩ := hnn.2.1 e he
    exact ⟨le_trans (neg_nonpos.mpr hnn.1) h1, h2⟩
  have hentry : ∀ x y, x < V → y < V → ∀ p, IsChain es x p y →
      mget m x y ≤ chainW p ∧ mget m x y ≤ (V : Int) * B := by
    intro x y hx hy p hp
    have h1 := hcompl x y hx hy p hp
    obtain ⟨p', hp', hnd', hwp', _⟩ := chain_reduce_nodup hnn0 hp
    have h2 := hcompl x y hx hy p' hp'
    have hlen := nodup_verts_length hwf hx hp' hnd'
    have hub := (chainW_bounds hbnd hp').2
    have hmul : (p'.length : Int) * B ≤ (V : Int) * B := by
      refine mul_le_mul_of_nonneg_right ?_ hnn.1
      exact_mod_cast Nat.le_of_lt hlen
    exact ⟨h1, by linarith⟩
  have hVB0 : 0 ≤ (V : Int) * B := mul_nonneg (by positivity) hnn.1
  have hVB1 : (V : Int) * B + B < INF := by
    have h := hnn.2.2
    push_cast at h
    linarith
  have hBINF : B < INF := by linarith
  have hv_le_ab : v ≤ mget m a b := hv ▸ min_le_left _ _
  have hv_le_w : v ≤ w := hv ▸ min_le_right _ _
  have hv_le_ba : v ≤ mget m b a := by
    rw [hsymm b a hbv ha]
    exact hv_le_ab
  have hvB : v ≤ B := le_trans hv_le_w hwB
  have hvINF : v < INF := lt_of_le_of_lt hvB hBINF
  set m1 := mset (mset m b a v) a b v with hm1def
  have hsqm1 : SquareM V m1 := squareM_mset (squareM_mset hsq _ _ _) _ _ _
  have hm1val := mget_m1 hsq ha hbv v
  have hm1_le : ∀ x y, mget m1 x y ≤ mget m x y := by
    intro x y
    rw [hm1val x y]
    split
    · next hcase =>
      rcases hcase with ⟨rfl, rfl⟩ | ⟨rfl, rfl⟩
      · exact hv_le_ab
      · exact hv_le_ba
    · exact le_refl _
  have hm1ab : mget m1 a b = v := by
    rw [hm1val a b, if_pos (Or.inl ⟨rfl, rfl⟩)]
  have hm1ba : mget m1 b a = v := by
    rw [hm1val b a, if_pos (Or.inr ⟨rfl, rfl⟩)]
  have hsound1 : MSound (es ++ [Edge.mk a b w, Edge.mk b a w]) V m1 := by
    intro i j hi hj
    rw [hm1val i j]
    split
    · next hcase =>
      have hvcase : v = mget m a b ∨ v = w := by
        rw [hv]
        rcases le_total (mget m a b) w with h | h
        · exact Or.inl (min_eq_left h)
        · exact Or.inr (min_eq_right h)
      rcases hcase with ⟨rfl, rfl⟩ | ⟨rfl, rfl⟩
      · rcases hvcase with hveq | hveq
        · rcases hsound i j hi hj with h | ⟨l, hl, hwl⟩
          · exact Or.inl (hveq.trans h)
          · exact Or.inr ⟨l, isChain_subset hes'sub hl, by rw [hwl, ← hveq]⟩
        · refine Or.inr ⟨[Edge.mk i j w],
            isChain_singleton.mpr ⟨List.mem_append_right _ (by simp), rfl, rfl⟩,
            ?_⟩
          rw [chainW_single, hveq]
      · have hvcase2 : v = mget m i j ∨ v = w := by
          rw [hsymm i j hi hj]
          exact hvcase
        rcases hvcase2 with hveq | hveq
        · rcases hsound i j hi hj with h | ⟨l, hl, hwl⟩
          · exact Or.inl (hveq.trans h)
          · exact Or.inr ⟨l, isChain_subset hes'sub hl, by rw [hwl, ← hveq]⟩
        · refine Or.inr ⟨[Edge.mk i j w],
            isChain_singleton.mpr ⟨List.mem_append_right _ (by simp), rfl, rfl⟩,
            ?_⟩
          rw [chainW_single, hveq]
    · next =>
      rcases hsound i j hi hj with h | ⟨l, hl, hwl⟩
      · exact Or.inl h
      · exact Or.inr ⟨l, isChain_subset hes'sub hl, hwl⟩
  obtain ⟨hsq2, hsound2⟩ := fwRound_sound hsqm1 ha hsound1
  obtain ⟨hsq3, hsound3⟩ := fwRound_sound hsq2 hbv hsound2
  refine ⟨hsq3, hsound3, ?_⟩
  intro i j hi hj l hch
  obtain ⟨l', hl', hnd', hwl', _⟩ := chain_reduce_nodup hnn0' hch
  refine le_trans ?_ hwl'
  rcases new_arc_decomp hl' hnd' with hold | hnew
  · have hchold : IsChain es i l' j := isChain_restrict hl' hold
    calc mget (fwRound V (fwRound V m1 a) b) i j
        ≤ mget (fwRound V m1 a) i j := mget_fwRound_le V _ b i j
      _ ≤ mget m1 i j := mget_fwRound_le V m1 a i j
      _ ≤ mget m i j := hm1_le i j
      _ ≤ chainW l' := hcompl i j hi hj l' hchold
  · rcases hnew with ⟨hane, p, q, hsplit, hp, hq⟩ | ⟨hane, p, q, hsplit, hp, hq⟩
    · have hT : chainW l' = chainW p + (w + chainW q) := by
        rw [hsplit, chainW_append, chainW_cons]
      obtain ⟨hpa, hpa2⟩ := hentry i a hi ha p hp
      obtain ⟨hqa, hqa2⟩ := hentry b j hbv hj q hq
      have hp0 : 0 ≤ chainW p := chainW_nonneg hnn0 hp
      have hq0 : 0 ≤ chainW q := chainW_nonneg hnn0 hq
      have hpINF : mget m i a < INF := lt_of_le_of_lt hpa2 (by linarith)
      have hqINF : mget m b j < INF := lt_of_le_of_lt hqa2 (by linarith)
      have hs2ib : mget (fwRound V m1 a) i b ≤ chainW p + w ∧
          mget (fwRound V m1 a) i b ≤ (V : Int) * B + B := by
        rcases eq_or_ne i a with hia | hia
        · have h1 : mget (fwRound V m1 a) i b ≤ mget m1 i b :=
            mget_fwRound_le V m1 a i b
          have h2 : mget m1 i b = v := by
            rw [hia]
            exact hm1ab
          rw [h2] at h1
          exact ⟨by linarith, by linarith⟩
        · have hga : mget m1 i a < INF := lt_of_le_of_lt (hm1_le i a) hpINF
          have hgb : mget m1 a b < INF := by
            rw [hm1ab]
            exact hvINF
          have h1 := fwRound_le_sum hsqm1 ha hi hbv hia (Ne.symm hane) hga hgb
          have h2 : mget m1 i a ≤ mget m i a := hm1_le i a
          rw [hm1ab] at h1
          exact ⟨by linarith, by linarith⟩
      rcases eq_or_ne i b with hib | hib
      · rw [hib, hT]
        have h1 : mget (fwRound V (fwRound V m1 a) b) b j ≤ mget m b j := by
          calc mget (fwRound V (fwRound V m1 a) b) b j
              ≤ mget (fwRound V m1 a) b j := mget_fwRound_le V _ b b j
            _ ≤ mget m1 b j := mget_fwRound_le V m1 a b j
            _ ≤ mget m b j := hm1_le b j
        linarith
      · rcases eq_or_ne j b with hjb | hjb
        · rw [hjb, hT]
          have h1 : mget (fwRound V (fwRound V m1 a) b) i b ≤
              mget (fwRound V m1 a) i b := mget_fwRound_le V _ b i b
          linarith [hs2ib.1]
        · have hgx : mget (fwRound V m1 a) i b < INF :=
            lt_of_le_of_lt hs2ib.2 hVB1
          have hle_bj : mget (fwRound V m1 a) b j ≤ mget m b j :=
            le_trans (mget_fwRound_le V m1 a b j) (hm1_le b j)
          have hgy : mget (fwRound V m1 a) b j < INF :=
            lt_of_le_of_lt hle_bj hqINF
          have h1 := fwRound_le_sum hsq2 hbv hi hj hib hjb hgx hgy
          have h2 : mget (fwRound V m1 a) b j ≤ chainW q := le_trans hle_bj hqa
          rw [hT]
          linarith [hs2ib.1]
    · have hT : chainW l' = chainW p + (w + chainW q) := by
        rw [hsplit, chainW_append, chainW_cons]
      obtain ⟨hpb, hpb2⟩ := hentry i b hi hbv p hp
      obtain ⟨hqb, hqb2⟩ := hentry a j ha hj q hq
      have hp0 : 0 ≤ chainW p := chainW_nonneg hnn0 hp
      have hq0 : 0 ≤ chainW q := chainW_nonneg hnn0 hq
      have hpINF : mget m i b < INF := lt_of_le_of_lt hpb2 (by linarith)
      have hqINF : mget m a j < INF := lt_of_le_of_lt hqb2 (by linarith)
      have hs2bj : mget (fwRound V m1 a) b j ≤ w + chainW q ∧
          mget (fwRound V m1 a) b j ≤ (V : Int) * B + B := by
        rcases eq_or_ne j a with hja | hja
        · have h1 : mget (fwRound V m1 a) b j ≤ mget m1 b j :=
            mget_fwRound_le V m1 a b j
          have h2 : mget m1 b j = v := by
            rw [hja]
            exact hm1ba
          rw [h2] at h1
          exact ⟨by linarith, by linarith⟩
        · have hga : mget m1 b a < INF := by
            rw [hm1ba]
            exact hvINF
          have hgb : mget m1 a j < INF := lt_of_le_of_lt (hm1_le a j) hqINF
          have h1 := fwRound_le_sum hsqm1 ha hbv hj (Ne.symm hane) hja hga hgb
          have h2 : mget m1 a j ≤ mget m a j := hm1_le a j
          rw [hm1ba] at h1
          exact ⟨by linarith, by linarith⟩
      rcases eq_or_ne i b with hib | hib
      · rw [hib, hT]
        have h1 : mget (fwRound V (fwRound V m1 a) b) b j ≤
            mget (fwRound V m1 a) b j := mget_fwRound_le V _ b b j
        linarith [hs2bj.1]
      · rcases eq_or_ne j b with hjb | hjb
        · rw [hjb, hT]
          have h1 : mget (fwRound V (fwRound V m1 a) b) i b ≤ mget m i b := by
            calc mget (fwRound V (fwRound V m1 a) b) i b
                ≤ mget (fwRound V m1 a) i b := mget_fwRound_le V _ b i b
              _ ≤ mget m1 i b := mget_fwRound_le V m1 a i b
              _ ≤ mget m i b := hm1_le i b
          linarith [hpb]
        · have hle_ib : mget (fwRound V m1 a) i b ≤ mget m i b :=
            le_trans (mget_fwRound_le V m1 a i b) (hm1_le i b)
          have hgx : mget (fwRound V m1 a) i b < INF :=
            lt_of_le_of_lt hle_ib hpINF
          have hgy : mget (fwRound V m1 a) b j < INF :=
            lt_of_le_of_lt hs2bj.2 hVB1
          have h1 := fwRound_le_sum hsq2 hbv hi hj hib hjb hgx hgy
          have h2 : mget (fwRound V m1 a) i b ≤ chainW p := le_trans hle_ib hpb
          rw [hT]
          linarith [hs2bj.1]

theorem matrix_ext {V : Nat} {m m' : Mat} (hsq : SquareM V m)
    (hsq' : SquareM V m')
    (h : ∀ i j, i < V → j < V → mget m i j = mget m' i j) : m = m' := by
  obtain ⟨hlen, hrows⟩ := hsq
  obtain ⟨hlen', hrows'⟩ := hsq'
  refine List.ext_getElem (by rw [hlen, hlen']) ?_
  intro i h1 h2
  refine List.ext_getElem ?_ ?_
  · rw [hrows _ (List.getElem_mem h1), hrows' _ (List.getElem_mem h2)]
  · intro j hj1 hj2
    have hiV : i < V := hlen ▸ h1
    have hjV : j < V := by
      rw [hrows _ (List.getElem_mem h1)] at hj1
      exact hj1
    have heq := h i j hiV hjV
    unfold mget at heq
    rw [List.getD_eq_getElem m [] h1, List.getD_eq_getElem m' [] h2,
      List.getD_eq_getElem _ 0 hj1, List.getD_eq_getElem _ 0 hj2] at heq
    exact heq

theorem sound_compl_unique {es : Edges} {V : Nat} {B : Int}
    (hwf : WFEdges es V) (hnn : SmallNN es V B) {m m' : Mat}
    (hs : MSound es V m)
    (hc : ∀ i j, i < V → j < V → ∀ l, IsChain es i l j →
      mget m i j ≤ chainW l)
    (hs' : MSound es V m')
    (hc' : ∀ i j, i < V → j < V → ∀ l, IsChain es i l j →
      mget m' i j ≤ chainW l) :
    ∀ i j, i < V → j < V → mget m i j = mget m' i j := by
  have hnn0 : ∀ e ∈ es, 0 ≤ e.weight := fun e he => (hnn.2.1 e he).1
  intro i j hi hj
  rcases hs i j hi hj with h1 | ⟨l1, hl1, hw1⟩
  · rcases hs' i j hi hj with h2 | ⟨l2, hl2, hw2⟩
    · rw [h1, h2]
    · obtain ⟨l2', hl2', hnd2', _, _⟩ := chain_reduce_nodup hnn0 hl2
      have hb := hc i j hi hj l2' hl2'
      have hlen := nodup_verts_length hwf hi hl2' hnd2'
      have hlt := chain_cost_lt_INF hnn hl2' hlen
      rw [h1] at hb
      linarith
  · rcases hs' i j hi hj with h2 | ⟨l2, hl2, hw2⟩
    · obtain ⟨l1', hl1', hnd1', _, _⟩ := chain_reduce_nodup hnn0 hl1
      have hb := hc' i j hi hj l1' hl1'
      have hlen := nodup_verts_length hwf hi hl1' hnd1'
      have hlt := chain_cost_lt_INF hnn hl1' hlen
      rw [h2] at hb
      linarith
    · have hb1 := hc i j hi hj l2 hl2
      have hb2 := hc' i j hi hj l1 hl1
      rw [hw2] at hb1
      rw [hw1] at hb2
      exact le_antisymm hb1 hb2

set_option maxRecDepth 100000 in
/-- C3 counterexample: adding an edge to the converged matrix of a graph
with a negative cycle does not match a full recomputation (the two matrices
differ, e.g. at cell `(0, 0)`). -/
theorem claim_C3_counterexample :
    add_edge_to_matrix (WarshallFloyd (add_edge (emptyGraph 3) 1 2 (-5)))
        0 1 3 ≠
      WarshallFloyd (add_edge (add_edge (emptyGraph 3) 1 2 (-5)) 0 1 3) := by
  decide

/-- C3 (amended): for a graph built only with `add_edge`, with in-range
endpoints and non-negative weights bounded well below the sentinel,
`add_edge_to_matrix` on the converged `WarshallFloyd` matrix agrees exactly
with a full recomputation on the augmented graph. -/
theorem claim_C3_incremental {g : Graph} {B : Int} {a b : Nat} {w : Int}
    (hbuilt : BuiltByEdges g) (hwf : WFGraph g) (ha : a < g.length)
    (hbv : b < g.length) (hw0 : 0 ≤ w) (hwB : w ≤ B)
    (hnn : SmallNN g.flatten g.length B) :
    add_edge_to_matrix (WarshallFloyd g) a b w =
      WarshallFloyd (add_edge g a b w) := by
  obtain ⟨hsqWF, hsymWF⟩ := wf_symm_all hbuilt
  obtain ⟨hsq_m, hsound_m, hcompl_m⟩ := warshallFloyd_ok hwf hnn
  obtain ⟨hsqL, hsoundL, hcomplL⟩ := incr_ok (wfEdges_flatten hwf) hnn hsq_m
    hsymWF hsound_m hcompl_m ha hbv hw0 hwB rfl
  have hLHS : add_edge_to_matrix (WarshallFloyd g) a b w =
      fwRound g.length (fwRound g.length
        (mset (mset (WarshallFloyd g) b a (min (mget (WarshallFloyd g) a b) w))
          a b (min (mget (WarshallFloyd g) a b) w)) a) b := by
    rw [add_edge_to_matrix_eq, hsq_m.1]
  have hwf' : WFGraph (add_edge g a b w) := wfGraph_add_edge hwf ha hbv w
  have hlen' : (add_edge g a b w).length = g.length := length_add_edge g a b w
  have hnn2 := smallNN_append_new (a := a) (b := b) hnn hw0 hwB
  have hperm := flatten_add_edge ha hbv w
  have hnn'' : SmallNN (add_edge g a b w).flatten
      (add_edge g a b w).length B := by
    rw [hlen']
    refine ⟨hnn.1, ?_, hnn.2.2⟩
    intro e he
    exact hnn2.2.1 e (hperm.mem_iff.mp he)
  obtain ⟨hsqR, hsoundR, hcomplR⟩ := warshallFloyd_ok hwf' hnn''
  rw [hlen'] at hsqR
  have hsoundR' : MSound (g.flatten ++ [Edge.mk a b w, Edge.mk b a w])
      g.length (WarshallFloyd (add_edge g a b w)) := by
    intro i j hi hj
    rcases hsoundR i j (hlen' ▸ hi) (hlen' ▸ hj) with h | ⟨l, hl, hwl⟩
    · exact Or.inl h
    · exact Or.inr ⟨l, isChain_subset (fun e he => hperm.mem_iff.mp he) hl, hwl⟩
  have hcomplR' : ∀ i j, i < g.length → j < g.length → ∀ l,
      IsChain (g.flatten ++ [Edge.mk a b w, Edge.mk b a w]) i l j →
      mget (WarshallFloyd (add_edge g a b w)) i j ≤ chainW l := by
    intro i j hi hj l hl
    exact hcomplR i j (hlen' ▸ hi) (hlen' ▸ hj) l
      (isChain_subset (fun e he => hperm.mem_iff.mpr he) hl)
  have hpointwise := sound_compl_unique
    (wfEdges_append_new (wfEdges_flatten hwf) ha hbv w) hnn2
    hsoundL hcomplL hsoundR' hcomplR'
  rw [hLHS]
  exact matrix_ext hsqL hsqR hpointwise

/-- Witness for `claim_C3_incremental` on a concrete small graph. -/
theorem claim_C3_witness :
    add_edge_to_matrix (WarshallFloyd (add_edge (emptyGraph 2) 0 1 2)) 0 1 1 =
      WarshallFloyd (add_edge (add_edge (emptyGraph 2) 0 1 2) 0 1 1) :=
  claim_C3_incremental (B := 2)
    (BuiltByEdges.step _ 0 1 2 (BuiltByEdges.base 2))
    (by unfold WFGraph; decide) (by decide) (by decide) (by decide)
    (by decide) (by unfold SmallNN; decide)

/-! Dijkstra correctness machinery. -/

theorem mem_qInsert {p x : Int × Nat} : ∀ {l : List (Int × Nat)},
    x ∈ qInsert p l ↔ x = p ∨ x ∈ l := by
  intro l
  induction l with
  | nil =>
    unfold qInsert
    simp
  | cons q qs ih =>
    unfold qInsert
    split
    · constructor
      · intro h
        rcases List.mem_cons.mp h with rfl | h2
        · exact Or.inl rfl
        · exact Or.inr h2
      · rintro (rfl | h2)
        · exact List.mem_cons_self _ _
        · exact List.mem_cons_of_mem _ h2
    · constructor
      · intro h
        rcases List.mem_cons.mp h with rfl | h2
        · exact Or.inr (List.mem_cons_self _ _)
        · rcases ih.mp h2 with h3 | h3
          · exact Or.inl h3
          · exact Or.inr (List.mem_cons_of_mem _ h3)
      · rintro (rfl | h2)
        · exact List.mem_cons_of_mem _ (ih.mpr (Or.inl rfl))
        · rcases List.mem_cons.mp h2 with rfl | h3
          · exact List.mem_cons_self _ _
          · exact List.mem_cons_of_mem _ (ih.mpr (Or.inr h3))

theorem qInsert_length (p : Int × Nat) : ∀ (l : List (Int × Nat)),
    (qInsert p l).length = l.length + 1 := by
  intro l
  induction l with
  | nil => rfl
  | cons q qs ih =>
    unfold qInsert
    split
    · rfl
    · rw [List.length_cons, List.length_cons, ih]

theorem qInsert_sorted {p : Int × Nat} : ∀ {l : List (Int × Nat)},
    l.Pairwise (fun x y => x.1 ≤ y.1) →
    (qInsert p l).Pairwise (fun x y => x.1 ≤ y.1) := by
  intro l
  induction l with
  | nil =>
    intro _
    exact List.pairwise_singleton _ _
  | cons q qs ih =>
    intro h
    obtain ⟨hq, hqs⟩ := List.pairwise_cons.mp h
    unfold qInsert
    split
    · next hcond =>
      refine List.pairwise_cons.mpr ⟨?_, h⟩
      intro x hx
      have hpq : p.1 ≤ q.1 := by
        rcases hcond with h1 | h1
        · exact le_of_lt h1
        · exact le_of_eq h1.1
      rcases List.mem_cons.mp hx with rfl | hx2
      · exact hpq
      · exact le_trans hpq (hq x hx2)
    · next hcond =>
      have hqp : q.1 ≤ p.1 := by
        rcases le_or_lt q.1 p.1 with h1 | h1
        · exact h1
        · exact absurd (Or.inl h1) hcond
      refine List.pairwise_cons.mpr ⟨?_, ih hqs⟩
      intro x hx
      rcases mem_qInsert.mp hx with rfl | hx2
      · exact hqp
      · exact hq x hx2

theorem qInsert_pairwise {R : (Int × Nat) → (Int × Nat) → Prop}
    {p : Int × Nat} : ∀ {l : List (Int × Nat)}, l.Pairwise R →
    (∀ x ∈ l, R p x ∧ R x p) → (qInsert p l).Pairwise R := by
  intro l
  induction l with
  | nil =>
    intro _ _
    exact List.pairwise_singleton _ _
  | cons q qs ih =>
    intro h hall
    obtain ⟨hq, hqs⟩ := List.pairwise_cons.mp h
    unfold qInsert
    split
    · refine List.pairwise_cons.mpr ⟨?_, h⟩
      intro x hx
      rcases List.mem_cons.mp hx with rfl | hx2
      · exact (hall x (List.mem_cons_self _ _)).1
      · exact (hall x (List.mem_cons_of_mem _ hx2)).1
    · refine List.pairwise_cons.mpr ⟨?_, ih hqs
        (fun x hx => hall x (List.mem_cons_of_mem _ hx))⟩
      intro x hx
      rcases mem_qInsert.mp hx with rfl | hx2
      · exact (hall q (List.mem_cons_self _ _)).2
      · exact hq x hx2

theorem dijkstraLoop_cons (g : Graph) (fuel : Nat) (w : Int) (idx : Nat)
    (rest : List (Int × Nat)) (d : List Int) :
    dijkstraLoop g (fuel + 1) ((w, idx) :: rest) d =
      if d.getD idx 0 < w then dijkstraLoop g fuel rest d
      else dijkstraLoop g fuel ((g.getD idx []).foldl (dijRelax w) (d, rest)).2
        ((g.getD idx []).foldl (dijRelax w) (d, rest)).1 := rfl

theorem dijPot_step {g : Graph} {P : List Nat} {idx : Nat}
    (hidx : idx < g.length) (hnp : idx ∉ P) :
    ∀ q q' : List (Int × Nat),
      q'.length ≤ q.length + (g.getD idx []).length →
      dijPot g (idx :: P) q' + 1 ≤ dijPot g P ((0, 0) :: q) := by
  intro q q' hlen
  unfold dijPot
  have hmem : idx ∈ (Finset.range g.length).filter (fun u => u ∉ P) := by
    rw [Finset.mem_filter, Finset.mem_range]
    exact ⟨hidx, hnp⟩
  have herase : (Finset.range g.length).filter (fun u => u ∉ idx :: P) =
      ((Finset.range g.length).filter (fun u => u ∉ P)).erase idx := by
    ext u
    simp only [Finset.mem_erase, Finset.mem_filter, Finset.mem_range,
      List.mem_cons]
    constructor
    · intro ⟨h1, h2⟩
      exact ⟨fun hc => h2 (Or.inl hc), h1, fun hc => h2 (Or.inr hc)⟩
    · intro ⟨h1, h2, h3⟩
      refine ⟨h2, ?_⟩
      rintro (hc | hc)
      · exact h1 hc
      · exact h3 hc
  have hsum2 : ((Finset.range g.length).filter (fun u => u ∉ P)).sum
      (fun u => (g.getD u []).length) =
    (g.getD idx []).length +
      (((Finset.range g.length).filter (fun u => u ∉ P)).erase idx).sum
        (fun u => (g.getD u []).length) :=
    (Finset.add_sum_erase _ (fun u => (g.getD u []).length) hmem).symm
  rw [herase, List.length_cons]
  omega

theorem dijFold_mono (w : Int) (todo : List Edge) :
    ∀ (st : List Int × List (Int × Nat)) (v : Nat),
      (todo.foldl (dijRelax w) st).1.getD v 0 ≤ st.1.getD v 0 := by
  induction todo with
  | nil => intro st v; exact le_refl _
  | cons e todo ih =>
    intro st v
    rw [List.foldl_cons]
    refine le_trans (ih _ v) ?_
    unfold dijRelax
    split
    · exact le_refl _
    · exact getD_set_le (le_of_lt (by omega)) v

theorem dijFold_qlen (w : Int) (todo : List Edge) :
    ∀ (st : List Int × List (Int × Nat)),
      (todo.foldl (dijRelax w) st).2.length ≤ st.2.length + todo.length := by
  induction todo with
  | nil => intro st; simp
  | cons e todo ih =>
    intro st
    rw [List.foldl_cons]
    refine le_trans (ih _) ?_
    unfold dijRelax
    split
    · rw [List.length_cons]
      omega
    · rw [List.length_cons]
      show (qInsert _ st.2).length + todo.length ≤ _
      rw [qInsert_length]
      omega

theorem dijFold_ok {g : Graph} {B : Int} {s : Nat} (hwf : WFGraph g)
    (hfrm : ∀ u, u < g.length → ∀ e ∈ g.getD u [], e.frm = u)
    (hnn : SmallNN g.flatten g.length B)
    {P : List Nat} {idx : Nat} {w : Int} {d0 : List Int}
    (hidx : idx < g.length)
    (hchw : ∃ l, IsChain g.flatten s l idx ∧ chainW l = w)
    (hplow0 : ∀ u ∈ P, d0.getD u 0 ≤ w) :
    ∀ (todo : List Edge), (∀ e ∈ todo, e ∈ g.getD idx []) →
    ∀ (st : List Int × List (Int × Nat)), DijJ g s P idx w d0 st →
      DijJ g s P idx w d0 (todo.foldl (dijRelax w) st) ∧
      ∀ e ∈ todo, (todo.foldl (dijRelax w) st).1.getD e.tov 0 ≤
        w + e.weight := by
  intro todo
  induction todo with
  | nil =>
    intro _ st hJ
    exact ⟨hJ, fun e he => absurd he (by simp)⟩
  | cons e todo ih =>
    intro hsub st hJ
    have he : e ∈ g.getD idx [] := hsub e (List.mem_cons_self _ _)
    have hrow : g.getD idx [] ∈ g := by
      rw [List.getD_eq_getElem g [] hidx]
      exact List.getElem_mem hidx
    have hew : e.frm = idx := hfrm idx hidx e he
    have hbnds := hwf _ hrow e he
    have hefl : e ∈ g.flatten := List.mem_flatten.mpr ⟨_, hrow, he⟩
    have hew0 : 0 ≤ e.weight := (hnn.2.1 e hefl).1
    have hchw2 : ∃ l, IsChain g.flatten s l e.tov ∧
        chainW l = w + e.weight := by
      obtain ⟨l, hl, hwl⟩ := hchw
      refine ⟨l ++ [e], isChain_snoc.mpr ⟨hefl, rfl, ?_⟩, ?_⟩
      · rw [hew]
        exact hl
      · rw [chainW_append, chainW_single, hwl]
    have hstep : DijJ g s P idx w d0 (dijRelax w st e) ∧
        (dijRelax w st e).1.getD e.tov 0 ≤ w + e.weight := by
      by_cases hfire : st.1.getD e.tov 0 ≤ w + e.weight
      · have heq : dijRelax w st e = st := by
          unfold dijRelax
          rw [if_pos hfire]
        rw [heq]
        exact ⟨hJ, hfire⟩
      · have hlt : w + e.weight < st.1.getD e.tov 0 := lt_of_not_le hfire
        have heq : dijRelax w st e =
            (st.1.set e.tov (w + e.weight),
              qInsert (w + e.weight, e.tov) st.2) := by
          unfold dijRelax
          rw [if_neg hfire]
        have htovlen : e.tov < st.1.length := by
          rw [hJ.len]
          exact hbnds.2
        have hnotP : e.tov ∉ P := by
          intro hP
          have h1 := hJ.pfix e.tov hP
          have h2 := hplow0 e.tov hP
          rw [h1] at hlt
          linarith
        have hneidx : e.tov ≠ idx := by
          intro heq2
          rw [heq2, hJ.didx] at hlt
          linarith
        have hset_self : (st.1.set e.tov (w + e.weight)).getD e.tov 0 =
            w + e.weight := getD_set_self' _ htovlen
        have hset_le : ∀ x, (st.1.set e.tov (w + e.weight)).getD x 0 ≤
            st.1.getD x 0 := getD_set_le (le_of_lt hlt)
        rw [heq]
        refine ⟨⟨?_, ?_, ?_, ?_, ?_, ?_, ?_, ?_, ?_, ?_, ?_, ?_, ?_⟩, ?_⟩
        · show (st.1.set e.tov (w + e.weight)).length = g.length
          rw [List.length_set]
          exact hJ.len
        · intro v hv
          show _ = INF ∨ _
          rcases eq_or_ne v e.tov with rfl | hvne
          · rw [hset_self]
            exact Or.inr hchw2
          · rw [List.getD_set_ne' (Ne.symm hvne)]
            exact hJ.sound v hv
        · intro p hp
          show p.2 < g.length ∧ (st.1.set e.tov (w + e.weight)).getD p.2 0 ≤ p.1 ∧ _
          rcases mem_qInsert.mp hp with rfl | hp2
          · exact ⟨hbnds.2, le_of_eq hset_self, hchw2⟩
          · obtain ⟨h1, h2, h3⟩ := hJ.qmem p hp2
            exact ⟨h1, le_trans (hset_le p.2) h2, h3⟩
        · intro u hu hne
          show u ∈ P ∨ u = idx ∨ _
          rcases eq_or_ne u e.tov with rfl | hune
          · right
            right
            rw [hset_self]
            exact mem_qInsert.mpr (Or.inl rfl)
          · rw [List.getD_set_ne' (Ne.symm hune)] at hne ⊢
            rcases hJ.fresh u hu hne with h | h | h
            · exact Or.inl h
            · exact Or.inr (Or.inl h)
            · exact Or.inr (Or.inr (mem_qInsert.mpr (Or.inr h)))
        · exact qInsert_sorted hJ.sorted
        · refine qInsert_pairwise hJ.distinct ?_
          intro x hx
          have hxge : st.1.getD x.2 0 ≤ x.1 := (hJ.qmem x hx).2.1
          constructor
          · intro hxe
            show w + e.weight ≠ x.1
            have hxe' : e.tov = x.2 := hxe
            rw [← hxe'] at hxge
            intro hc
            rw [← hc] at hxge
            linarith
          · intro hxe
            show x.1 ≠ w + e.weight
            have hxe' : x.2 = e.tov := hxe
            rw [hxe'] at hxge
            intro hc
            rw [hc] at hxge
            linarith
        · intro u hu
          show (st.1.set e.tov (w + e.weight)).getD u 0 = _
          rw [List.getD_set_ne' (fun hc => hnotP (by rw [hc]; exact hu))]
          exact hJ.pfix u hu
        · intro u hu f hf
          have h1 : (st.1.set e.tov (w + e.weight)).getD u 0 =
              st.1.getD u 0 :=
            List.getD_set_ne' (fun hc => hnotP (by rw [hc]; exact hu))
          show (st.1.set e.tov (w + e.weight)).getD f.tov 0 ≤ _
          rw [h1]
          exact le_trans (hset_le f.tov) (hJ.prelax u hu f hf)
        · intro u hu p hp hpu
          have h1 : (st.1.set e.tov (w + e.weight)).getD u 0 =
              st.1.getD u 0 :=
            List.getD_set_ne' (fun hc => hnotP (by rw [hc]; exact hu))
          show (st.1.set e.tov (w + e.weight)).getD u 0 < p.1
          rw [h1]
          rcases mem_qInsert.mp hp with rfl | hp2
          · have hpu' : e.tov = u := hpu
            exact absurd (by rw [hpu']; exact hu) hnotP
          · exact hJ.pstrict u hu p hp2 hpu
        · intro p hp
          rcases mem_qInsert.mp hp with rfl | hp2
          · show w ≤ w + e.weight
            linarith
          · exact hJ.qge p hp2
        · intro p hp hpidx
          rcases mem_qInsert.mp hp with rfl | hp2
          · exact absurd hpidx hneidx
          · exact hJ.qidx p hp2 hpidx
        · show (st.1.set e.tov (w + e.weight)).getD idx 0 = w
          rw [List.getD_set_ne' hneidx]
          exact hJ.didx
        · intro v
          exact le_trans (hset_le v) (hJ.dmono v)
        · show (st.1.set e.tov (w + e.weight)).getD e.tov 0 ≤ w + e.weight
          rw [hset_self]
    rw [List.foldl_cons]
    obtain ⟨hJ', hrel⟩ :=
      ih (fun f hf => hsub f (List.mem_cons_of_mem _ hf)) _ hstep.1
    refine ⟨hJ', ?_⟩
    intro f hf
    rcases List.mem_cons.mp hf with rfl | hf2
    · exact le_trans (dijFold_mono w todo _ f.tov) hstep.2
    · exact hrel f hf2

theorem dijLoop_ok {g : Graph} {B : Int} {s : Nat} (hwf : WFGraph g)
    (hfrm : ∀ u, u < g.length → ∀ e ∈ g.getD u [], e.frm = u)
    (hnn : SmallNN g.flatten g.length B) :
    ∀ (fuel : Nat) (P : List Nat) (q : List (Int × Nat)) (d : List Int),
      DijInv g s P q d → dijPot g P q < fuel →
      ∃ P', DijInv g s P' [] (dijkstraLoop g fuel q d) ∧
        ∀ v, (dijkstraLoop g fuel q d).getD v 0 ≤ d.getD v 0 := by
  intro fuel
  induction fuel with
  | zero =>
    intro P q d _ hpot
    exact absurd hpot (Nat.not_lt_zero _)
  | succ fuel ih =>
    intro P q d hinv hpot
    cases q with
    | nil => exact ⟨P, hinv, fun v => le_refl _⟩
    | cons p0 rest =>
      obtain ⟨w, idx⟩ := p0
      rw [dijkstraLoop_cons]
      by_cases hstale : d.getD idx 0 < w
      · rw [if_pos hstale]
        have hinv' : DijInv g s P rest d := {
          len := hinv.len
          sound := hinv.sound
          qmem := fun p hp => hinv.qmem p (List.mem_cons_of_mem _ hp)
          fresh := by
            intro u hu hne
            rcases hinv.fresh u hu hne with h | h
            · exact Or.inl h
            · rcases List.mem_cons.mp h with heq | h2
              · exfalso
                have ha : d.getD u 0 = w := congrArg Prod.fst heq
                have hb : u = idx := congrArg Prod.snd heq
                rw [hb] at ha
                rw [ha] at hstale
                exact lt_irrefl w hstale
              · exact Or.inr h2
          sorted := hinv.sorted.of_cons
          distinct := hinv.distinct.of_cons
          procd := fun u hu => ⟨(hinv.procd u hu).1, (hinv.procd u hu).2.1,
            fun p hp => (hinv.procd u hu).2.2 p (List.mem_cons_of_mem _ hp)⟩
          plow := fun u hu p hp =>
            hinv.plow u hu p (List.mem_cons_of_mem _ hp) }
        have hpot' : dijPot g P rest < fuel := by
          unfold dijPot at hpot ⊢
          rw [List.length_cons] at hpot
          omega
        exact ih P rest d hinv' hpot'
      · rw [if_neg hstale]
        have hqm := hinv.qmem (w, idx) (List.mem_cons_self _ _)
        have hidx : idx < g.length := hqm.1
        have hdw : d.getD idx 0 = w :=
          le_antisymm hqm.2.1 (le_of_not_lt hstale)
        have hchw : ∃ l, IsChain g.flatten s l idx ∧ chainW l = w := hqm.2.2
        have hnp : idx ∉ P := by
          intro hP
          have hlt := (hinv.procd idx hP).2.2 (w, idx)
            (List.mem_cons_self _ _) rfl
          rw [hdw] at hlt
          exact lt_irrefl w hlt
        have hplow0 : ∀ u ∈ P, d.getD u 0 ≤ w :=
          fun u hu => hinv.plow u hu (w, idx) (List.mem_cons_self _ _)
        have hJ0 : DijJ g s P idx w d (d, rest) := {
          len := hinv.len
          sound := hinv.sound
          qmem := fun p hp => hinv.qmem p (List.mem_cons_of_mem _ hp)
          fresh := by
            intro u hu hne
            rcases hinv.fresh u hu hne with h | h
            · exact Or.inl h
            · rcases List.mem_cons.mp h with heq | h2
              · exact Or.inr (Or.inl (congrArg Prod.snd heq))
              · exact Or.inr (Or.inr h2)
          sorted := hinv.sorted.of_cons
          distinct := hinv.distinct.of_cons
          pfix := fun _ _ => rfl
          prelax := fun u hu => (hinv.procd u hu).2.1
          pstrict := fun u hu p hp =>
            (hinv.procd u hu).2.2 p (List.mem_cons_of_mem _ hp)
          qge := fun p hp => (List.pairwise_cons.mp hinv.sorted).1 p hp
          qidx := by
            intro p hp hpidx
            have h1 : w ≤ p.1 := (List.pairwise_cons.mp hinv.sorted).1 p hp
            have h2 : w ≠ p.1 :=
              (List.pairwise_cons.mp hinv.distinct).1 p hp hpidx.symm
            exact lt_of_le_of_ne h1 h2
          didx := hdw
          dmono := fun _ => le_refl _ }
        obtain ⟨hJf, hrelf⟩ := dijFold_ok hwf hfrm hnn hidx hchw hplow0
          (g.getD idx []) (fun _ he => he) (d, rest) hJ0
        have hinv2 : DijInv g s (idx :: P)
            ((g.getD idx []).foldl (dijRelax w) (d, rest)).2
            ((g.getD idx []).foldl (dijRelax w) (d, rest)).1 := {
          len := hJf.len
          sound := hJf.sound
          qmem := hJf.qmem
          fresh := by
            intro u hu hne
            rcases hJf.fresh u hu hne with h | h | h
            · exact Or.inl (List.mem_cons_of_mem _ h)
            · refine Or.inl ?_
              rw [h]
              exact List.mem_cons_self _ _
            · exact Or.inr h
          sorted := hJf.sorted
          distinct := hJf.distinct
          procd := by
            intro u hu
            rcases List.mem_cons.mp hu with rfl | hu2
            · refine ⟨hidx, ?_, ?_⟩
              · intro e he
                rw [hJf.didx]
                exact hrelf e he
              · intro p hp hpidx
                rw [hJf.didx]
                exact hJf.qidx p hp hpidx
            · exact ⟨(hinv.procd u hu2).1, hJf.prelax u hu2,
                hJf.pstrict u hu2⟩
          plow := by
            intro u hu p hp
            rcases List.mem_cons.mp hu with rfl | hu2
            · rw [hJf.didx]
              exact hJf.qge p hp
            · rw [hJf.pfix u hu2]
              exact le_trans (hplow0 u hu2) (hJf.qge p hp) }
        have hpot2 : dijPot g (idx :: P)
            ((g.getD idx []).foldl (dijRelax w) (d, rest)).2 < fuel := by
          have hql := dijFold_qlen w (g.getD idx []) (d, rest)
          have hstep := dijPot_step hidx hnp rest
            ((g.getD idx []).foldl (dijRelax w) (d, rest)).2 hql
          have heqpot : dijPot g P (((0 : Int), (0 : Nat)) :: rest) =
              dijPot g P ((w, idx) :: rest) := by
            unfold dijPot
            rw [List.length_cons, List.length_cons]
          rw [heqpot] at hstep
          omega
        obtain ⟨P', hfin, hmono⟩ := ih (idx :: P) _ _ hinv2 hpot2
        exact ⟨P', hfin, fun v => le_trans (hmono v) (hJf.dmono v)⟩

theorem dijInit_inv {g : Graph} {s : Nat} (hs : s < g.length) :
    DijInv g s [] [(0, s)] ((List.replicate g.length INF).set s 0) := by
  have hlen0 : s < (List.replicate g.length INF).length := by
    rw [List.length_replicate]
    exact hs
  refine ⟨?_, ?_, ?_, ?_, List.pairwise_singleton _ _,
    List.pairwise_singleton _ _, ?_, ?_⟩
  · rw [List.length_set, List.length_replicate]
  · intro v hv
    rcases eq_or_ne v s with rfl | hvs
    · right
      refine ⟨[], IsChain.nil v, ?_⟩
      rw [chainW_nil, getD_set_self' 0 hlen0]
    · left
      rw [List.getD_set_ne' (Ne.symm hvs), getD_replicate', if_pos hv]
  · intro p hp
    rcases List.mem_cons.mp hp with rfl | hp2
    · refine ⟨hs, ?_, [], IsChain.nil s, chainW_nil⟩
      rw [getD_set_self' 0 hlen0]
    · exact absurd hp2 (by simp)
  · intro u hu hne
    right
    rcases eq_or_ne u s with rfl | hus
    · rw [getD_set_self' 0 hlen0]
      exact List.mem_cons_self _ _
    · exfalso
      rw [List.getD_set_ne' (Ne.symm hus), getD_replicate', if_pos hu] at hne
      exact hne rfl
  · intro u hu
    exact absurd hu (by simp)
  · intro u hu
    exact absurd hu (by simp)

theorem sum_range_deg (g : Graph) :
    (Finset.range g.length).sum (fun u => (g.getD u []).length) =
      (g.map List.length).sum := by
  induction g using List.reverseRecOn with
  | nil => simp
  | append_singleton g r ih =>
    rw [List.length_append, List.length_singleton, Finset.sum_range_succ]
    have hcong : (Finset.range g.length).sum
        (fun u => ((g ++ [r]).getD u []).length) =
        (Finset.range g.length).sum (fun u => (g.getD u []).length) := by
      refine Finset.sum_congr rfl ?_
      intro u hu
      rw [List.getD_append g [r] [] u (Finset.mem_range.mp hu)]
    rw [hcong, ih, List.map_append, List.sum_append]
    have hlast : ((g ++ [r]).getD g.length []).length = r.length := by
      rw [List.getD_eq_getElem?_getD, List.getElem?_concat_length,
        Option.getD_some]
    rw [hlast]
    simp

theorem dijPot_init (g : Graph) (s : Nat) :
    dijPot g [] [(0, s)] = totalArcs g + 1 := by
  unfold dijPot totalArcs
  rw [List.length_singleton]
  have hfil : (Finset.range g.length).filter
      (fun u => u ∉ ([] : List Nat)) = Finset.range g.length := by
    ext u
    simp
  rw [hfil, sum_range_deg]
  omega

theorem dij_chain_bound {g : Graph} {B : Int}
    (hnn : SmallNN g.flatten g.length B) {d : List Int}
    (hrel : ∀ e ∈ g.flatten, d.getD e.frm 0 ≠ INF →
      d.getD e.tov 0 ≤ d.getD e.frm 0 + e.weight) :
    ∀ (l : List Edge) (a v : Nat), IsChain g.flatten a l v →
      d.getD a 0 + chainW l < INF → d.getD a 0 ≠ INF →
      d.getD v 0 ≤ d.getD a 0 + chainW l := by
  have hnn0 : ∀ e ∈ g.flatten, 0 ≤ e.weight := fun e he => (hnn.2.1 e he).1
  intro l
  induction l with
  | nil =>
    intro a v hch _ _
    rw [chainW_nil, add_zero, isChain_nil_iff.mp hch]
  | cons e l ih =>
    intro a v hch hin hne
    cases hch with
    | cons hmem htail =>
      have hstep := hrel e hmem hne
      have hl0 : 0 ≤ chainW l := chainW_nonneg hnn0 htail
      rw [chainW_cons] at hin ⊢
      have hin2 : d.getD e.tov 0 + chainW l < INF := by linarith
      have hne2 : d.getD e.tov 0 ≠ INF := by
        intro hc
        rw [hc] at hin2
        have := INF_pos
        linarith
      have := ih e.tov v htail hin2 hne2
      linarith

/-- C1 (amended): for a well-formed adjacency-list graph (arcs stored on
their source row) with non-negative weights bounded well below the
sentinel, `Dijkstra g s` returns one distance per vertex with
`dist[s] = 0`, the exact least path weight for every vertex reachable from
`s`, and the sentinel `INF` for every unreachable vertex. -/
theorem claim_C1_dijkstra {g : Graph} {B : Int} {s : Nat} (hwf : WFGraph g)
    (hfrm : ∀ u, u < g.length → ∀ e ∈ g.getD u [], e.frm = u)
    (hnn : SmallNN g.flatten g.length B) (hs : s < g.length) :
    (Dijkstra g s).length = g.length ∧
    (Dijkstra g s).getD s 0 = 0 ∧
    ∀ v, v < g.length →
      (ReachE g.flatten s v →
        IsLeast (chainWeights g.flatten s v) ((Dijkstra g s).getD v 0)) ∧
      (¬ ReachE g.flatten s v → (Dijkstra g s).getD v 0 = INF) := by
  have hnn0 : ∀ e ∈ g.flatten, 0 ≤ e.weight := fun e he => (hnn.2.1 e he).1
  have hwfe : WFEdges g.flatten g.length := wfEdges_flatten hwf
  have hpot : dijPot g [] [(0, s)] < totalArcs g + 2 := by
    rw [dijPot_init]
    omega
  obtain ⟨P, hfin, hmono⟩ := dijLoop_ok hwf hfrm hnn (totalArcs g + 2) []
    [(0, s)] ((List.replicate g.length INF).set s 0) (dijInit_inv hs) hpot
  have hD : Dijkstra g s = dijkstraLoop g (totalArcs g + 2) [(0, s)]
      ((List.replicate g.length INF).set s 0) := rfl
  rw [hD]
  set d := dijkstraLoop g (totalArcs g + 2) [(0, s)]
    ((List.replicate g.length INF).set s 0) with hdset
  have hds_le : d.getD s 0 ≤ 0 := by
    have h1 := hmono s
    rw [getD_set_self' 0 (by rw [List.length_replicate]; exact hs)] at h1
    exact h1
  have hds_ne : d.getD s 0 ≠ INF := by
    intro hc
    rw [hc] at hds_le
    have := INF_pos
    linarith
  have hstab : ∀ u, u < g.length → d.getD u 0 ≠ INF →
      ∀ e ∈ g.getD u [], d.getD e.tov 0 ≤ d.getD u 0 + e.weight := by
    intro u hu hne e he
    rcases hfin.fresh u hu hne with hP | hq
    · exact (hfin.procd u hP).2.1 e he
    · exact absurd hq (by simp)
  have hrel : ∀ e ∈ g.flatten, d.getD e.frm 0 ≠ INF →
      d.getD e.tov 0 ≤ d.getD e.frm 0 + e.weight := by
    intro e he hne
    obtain ⟨row, hrow, herow⟩ := List.mem_flatten.mp he
    obtain ⟨i, hilen, higet⟩ := List.mem_iff_getElem.mp hrow
    have hrowD : g.getD i [] = row := by
      rw [List.getD_eq_getElem g [] hilen, higet]
    have hefrm : e.frm = i := hfrm i hilen e (by rw [hrowD]; exact herow)
    have hifrm : e.frm < g.length := by
      rw [hefrm]
      exact hilen
    refine hstab e.frm hifrm hne e ?_
    rw [hefrm, hrowD]
    exact herow
  have hds0 : d.getD s 0 = 0 := by
    rcases hfin.sound s hs with h | ⟨l, hl, hwl⟩
    · exact absurd h hds_ne
    · have := chainW_nonneg hnn0 hl
      rw [hwl] at this
      linarith
  have hcompl : ∀ v, v < g.length → ∀ l, IsChain g.flatten s l v →
      d.getD v 0 ≤ chainW l := by
    intro v hv l hl
    obtain ⟨l', hl', hnd', hwl', _⟩ := chain_reduce_nodup hnn0 hl
    have hlen' := nodup_verts_length hwfe hs hl' hnd'
    have hcost := chain_cost_lt_INF hnn hl' hlen'
    have hbd := dij_chain_bound hnn hrel l' s v hl'
      (by rw [hds0, zero_add]; exact hcost) hds_ne
    rw [hds0, zero_add] at hbd
    exact le_trans hbd hwl'
  refine ⟨hfin.len, hds0, ?_⟩
  intro v hv
  constructor
  · intro hreach
    constructor
    · rcases hfin.sound v hv with h | ⟨l, hl, hwl⟩
      · exfalso
        obtain ⟨l0, hl0⟩ := hreach
        obtain ⟨l', hl', hnd', _, _⟩ := chain_reduce_nodup hnn0 hl0
        have hlen' := nodup_verts_length hwfe hs hl' hnd'
        have hcost := chain_cost_lt_INF hnn hl' hlen'
        have := hcompl v hv l' hl'
        rw [h] at this
        linarith
      · exact ⟨l, hl, hwl⟩
    · rintro x ⟨l, hl, rfl⟩
      exact hcompl v hv l hl
  · intro hunreach
    rcases hfin.sound v hv with h | ⟨l, hl, _⟩
    · exact h
    · exact absurd ⟨l, hl⟩ hunreach

set_option maxRecDepth 20000 in
/-- C1 counterexample: with a non-negative edge weight at the sentinel
scale (one undirected edge of weight `INF + 1`), vertex 1 is reachable,
yet `Dijkstra` leaves `dist[1] = INF` (the relaxation refuses because
`INF ≤ INF + 1`), which is not the least path weight. -/
theorem claim_C1_counterexample :
    (Dijkstra (add_edge (emptyGraph 2) 0 1 (INF + 1)) 0).getD 1 0 = INF ∧
    ReachE (add_edge (emptyGraph 2) 0 1 (INF + 1)).flatten 0 1 ∧
    ¬ IsLeast
      (chainWeights (add_edge (emptyGraph 2) 0 1 (INF + 1)).flatten 0 1)
      ((Dijkstra (add_edge (emptyGraph 2) 0 1 (INF + 1)) 0).getD 1 0) := by
  have hd : (Dijkstra (add_edge (emptyGraph 2) 0 1 (INF + 1)) 0).getD 1 0 =
      INF := by decide
  refine ⟨hd, ⟨[⟨0, 1, INF + 1⟩], ?_⟩, ?_⟩
  · exact IsChain.cons (e := ⟨0, 1, INF + 1⟩) (by decide) (IsChain.nil 1)
  · rw [hd]
    rintro ⟨⟨l, hl, hwl⟩, _⟩
    have hfl : (add_edge (emptyGraph 2) 0 1 (INF + 1)).flatten =
        [⟨0, 1, INF + 1⟩, ⟨1, 0, INF + 1⟩] := rfl
    have hmul : ∀ (l : List Edge) (a b : Nat),
        IsChain (add_edge (emptyGraph 2) 0 1 (INF + 1)).flatten a l b →
        ∃ n : Nat, chainW l = (n : Int) * (INF + 1) := by
      intro l2
      induction l2 with
      | nil =>
        intro a b _
        refine ⟨0, ?_⟩
        rw [chainW_nil]
        simp
      | cons e t ih =>
        intro a b hch
        cases hch with
        | cons hmem htail =>
          obtain ⟨n, hn⟩ := ih _ _ htail
          have hew : e.weight = INF + 1 := by
            rw [hfl] at hmem
            rcases List.mem_cons.mp hmem with rfl | h2
            · rfl
            · rcases List.mem_cons.mp h2 with rfl | h3
              · rfl
              · exact absurd h3 (by simp)
          refine ⟨n + 1, ?_⟩
          rw [chainW_cons, hn, hew]
          push_cast
          ring
    obtain ⟨n, hn⟩ := hmul l 0 1 hl
    rw [hwl] at hn
    rcases n with _ | n
    · rw [Nat.cast_zero, zero_mul] at hn
      have := INF_pos
      linarith
    · have h1 : (1 : Int) ≤ ((n + 1 : Nat) : Int) := by
        exact_mod_cast Nat.succ_le_succ (Nat.zero_le n)
      have h2 : (INF + 1 : Int) ≤ ((n + 1 : Nat) : Int) * (INF + 1) := by
        nlinarith [INF_pos]
      rw [← hn] at h2
      linarith

/-- Witness for `claim_C1_dijkstra` at the documented example: vertices
`{0, 1, 2}`, undirected edges `(0,1,4), (1,2,1), (0,2,7)`, source 0. -/
theorem claim_C1_witness :
    (Dijkstra (add_edge (add_edge (add_edge (emptyGraph 3) 0 1 4) 1 2 1)
        0 2 7) 0).length =
      (add_edge (add_edge (add_edge (emptyGraph 3) 0 1 4) 1 2 1)
        0 2 7).length ∧
    (Dijkstra (add_edge (add_edge (add_edge (emptyGraph 3) 0 1 4) 1 2 1)
        0 2 7) 0).getD 0 0 = 0 ∧
    ∀ v, v < (add_edge (add_edge (add_edge (emptyGraph 3) 0 1 4) 1 2 1)
        0 2 7).length →
      (ReachE (add_edge (add_edge (add_edge (emptyGraph 3) 0 1 4) 1 2 1)
          0 2 7).flatten 0 v →
        IsLeast (chainWeights (add_edge (add_edge (add_edge (emptyGraph 3)
            0 1 4) 1 2 1) 0 2 7).flatten 0 v)
          ((Dijkstra (add_edge (add_edge (add_edge (emptyGraph 3) 0 1 4)
            1 2 1) 0 2 7) 0).getD v 0)) ∧
      (¬ ReachE (add_edge (add_edge (add_edge (emptyGraph 3) 0 1 4) 1 2 1)
          0 2 7).flatten 0 v →
        (Dijkstra (add_edge (add_edge (add_edge (emptyGraph 3) 0 1 4)
          1 2 1) 0 2 7) 0).getD v 0 = INF) :=
  claim_C1_dijkstra (B := 7) (by unfold WFGraph; decide) (by decide)
    (by unfold SmallNN; decide) (by decide)

theorem insSorted_perm (e : Edge) : ∀ (l : Edges), (insSorted e l).Perm (e :: l) := by
  intro l
  induction l with
  | nil => exact List.Perm.refl _
  | cons f fs ih =>
    unfold insSorted
    split
    · exact List.Perm.refl _
    · exact (List.Perm.cons f ih).trans (List.Perm.swap e f fs)

theorem sortE_perm (es : Edges) : (sortE es).Perm es := by
  unfold sortE
  induction es with
  | nil => exact List.Perm.refl _
  | cons e t ih =>
    rw [List.foldr_cons]
    exact (insSorted_perm e _).trans (List.Perm.cons e ih)

theorem insSorted_pairwise {e : Edge} : ∀ {l : Edges},
    l.Pairwise (fun a b => a.weight ≤ b.weight) →
    (insSorted e l).Pairwise (fun a b => a.weight ≤ b.weight) := by
  intro l
  induction l with
  | nil =>
    intro _
    exact List.pairwise_singleton _ _
  | cons f fs ih =>
    intro h
    obtain ⟨hf, hfs⟩ := List.pairwise_cons.mp h
    unfold insSorted
    split
    · next hle =>
      refine List.pairwise_cons.mpr ⟨?_, h⟩
      intro x hx
      rcases List.mem_cons.mp hx with rfl | hx2
      · exact hle
      · exact le_trans hle (hf x hx2)
    · next hle =>
      have hfe : f.weight ≤ e.weight := le_of_not_le hle
      refine List.pairwise_cons.mpr ⟨?_, ih hfs⟩
      intro x hx
      rcases List.mem_cons.mp ((insSorted_perm e fs).mem_iff.mp hx) with rfl | hx2
      · exact hfe
      · exact hf x hx2

theorem sortE_pairwise (es : Edges) :
    (sortE es).Pairwise (fun a b => a.weight ≤ b.weight) := by
  unfold sortE
  induction es with
  | nil => exact List.Pairwise.nil
  | cons e t ih =>
    rw [List.foldr_cons]
    exact insSorted_pairwise ih

theorem uAdj_symm {E : List Edge} {u v : Nat} (h : UAdj E u v) : UAdj E v u := by
  obtain ⟨e, he, hc⟩ := h
  rcases hc with ⟨h1, h2⟩ | ⟨h1, h2⟩
  · exact ⟨e, he, Or.inr ⟨h1, h2⟩⟩
  · exact ⟨e, he, Or.inl ⟨h1, h2⟩⟩

theorem uconn_symm {E : List Edge} {u v : Nat} (h : UConn E u v) :
    UConn E v u :=
  (Relation.ReflTransGen.symmetric (fun _ _ ha => uAdj_symm ha)) h

theorem uconn_mono {E E' : List Edge} (hsub : ∀ e ∈ E, e ∈ E')
    {u v : Nat} (h : UConn E u v) : UConn E' u v := by
  refine Relation.ReflTransGen.mono ?_ h
  intro x y ⟨e, he, hc⟩
  exact ⟨e, hsub e he, hc⟩

theorem uconn_arc {E : List Edge} {e : Edge} (he : e ∈ E) :
    UConn E e.frm e.tov :=
  Relation.ReflTransGen.single ⟨e, he, Or.inl ⟨rfl, rfl⟩⟩

theorem uconn_nil {u v : Nat} : UConn [] u v ↔ u = v := by
  constructor
  · intro h
    induction h with
    | refl => rfl
    | tail _ hadj ih =>
      obtain ⟨e, he, _⟩ := hadj
      exact absurd he (by simp)
  · rintro rfl
    exact Relation.ReflTransGen.refl

theorem chainW_perm {l l' : List Edge} (h : l.Perm l') : chainW l = chainW l' :=
  (h.map Edge.weight).sum_eq

theorem uconn_refl {E : List Edge} {u : Nat} : UConn E u u :=
  Relation.ReflTransGen.refl

theorem uconn_trans {E : List Edge} {u v w : Nat} (h1 : UConn E u v)
    (h2 : UConn E v w) : UConn E u w :=
  Relation.ReflTransGen.trans h1 h2

theorem uconn_snoc {E : List Edge} {e : Edge} {x y : Nat}
    (h : UConn (E ++ [e]) x y) :
    UConn E x y ∨ (UConn E x e.frm ∧ UConn E e.tov y) ∨
      (UConn E x e.tov ∧ UConn E e.frm y) := by
  induction h using Relation.ReflTransGen.head_induction_on with
  | refl => exact Or.inl uconn_refl
  | head hadj _ ih =>
    obtain ⟨g, hg, hc⟩ := hadj
    rcases List.mem_append.mp hg with hgE | hge
    · have hstep : UAdj E _ _ := ⟨g, hgE, hc⟩
      rcases ih with h1 | ⟨h1, h2⟩ | ⟨h1, h2⟩
      · exact Or.inl (Relation.ReflTransGen.head hstep h1)
      · exact Or.inr (Or.inl ⟨Relation.ReflTransGen.head hstep h1, h2⟩)
      · exact Or.inr (Or.inr ⟨Relation.ReflTransGen.head hstep h1, h2⟩)
    · have hge2 : g = e := List.mem_singleton.mp hge
      subst hge2
      rcases hc with ⟨ha, hb⟩ | ⟨ha, hb⟩
      · subst ha; subst hb
        rcases ih with h1 | ⟨h1, h2⟩ | ⟨h1, h2⟩
        · exact Or.inr (Or.inl ⟨uconn_refl, h1⟩)
        · exact Or.inr (Or.inl ⟨uconn_refl, h2⟩)
        · exact Or.inl h2
      · subst ha; subst hb
        rcases ih with h1 | ⟨h1, h2⟩ | ⟨h1, h2⟩
        · exact Or.inr (Or.inr ⟨uconn_refl, h1⟩)
        · exact Or.inl h2
        · exact Or.inr (Or.inr ⟨uconn_refl, h2⟩)

theorem uconn_snoc_of {E : List Edge} {e : Edge} {x y : Nat}
    (h : UConn E x y ∨ (UConn E x e.frm ∧ UConn E e.tov y) ∨
      (UConn E x e.tov ∧ UConn E e.frm y)) : UConn (E ++ [e]) x y := by
  have hsub : ∀ f ∈ E, f ∈ E ++ [e] := fun f hf => List.mem_append_left _ hf
  have harc : UConn (E ++ [e]) e.frm e.tov :=
    uconn_arc (List.mem_append_right _ (List.mem_singleton_self e))
  rcases h with h1 | ⟨h1, h2⟩ | ⟨h1, h2⟩
  · exact uconn_mono hsub h1
  · exact uconn_trans (uconn_trans (uconn_mono hsub h1) harc) (uconn_mono hsub h2)
  · exact uconn_trans (uconn_trans (uconn_mono hsub h1) (uconn_symm harc))
      (uconn_mono hsub h2)

theorem acyclic_nil : Acyclic [] := by
  intro F1 e F2 h
  exact absurd h (by simp)

theorem acyclic_perm {F F' : List Edge} (hp : F.Perm F') (hac : Acyclic F) :
    Acyclic F' := by
  intro F1 e F2 hsplit hconn
  have he : e ∈ F := hp.mem_iff.mpr
    (hsplit ▸ List.mem_append_right _ (List.mem_cons_self e F2))
  obtain ⟨G1, G2, hGsplit⟩ := List.append_of_mem he
  refine hac G1 e G2 hGsplit ?_
  have h1 : F'.Perm (e :: (F1 ++ F2)) := by rw [hsplit]; exact List.perm_middle
  have h2 : F.Perm (e :: (G1 ++ G2)) := by rw [hGsplit]; exact List.perm_middle
  have h3 : (F1 ++ F2).Perm (G1 ++ G2) :=
    (List.perm_cons e).mp (h1.symm.trans (hp.symm.trans h2))
  exact uconn_mono (fun f hf => h3.mem_iff.mp hf) hconn

theorem acyclic_subperm {F' F : List Edge} (hsub : F'.Subperm F)
    (hac : Acyclic F) : Acyclic F' := by
  intro F1 e F2 hsplit hconn
  have he : e ∈ F := hsub.subset
    (hsplit ▸ List.mem_append_right _ (List.mem_cons_self e F2))
  obtain ⟨G1, G2, hGsplit⟩ := List.append_of_mem he
  refine hac G1 e G2 hGsplit ?_
  have h1 : (e :: (F1 ++ F2)).Perm F' := by rw [hsplit]; exact List.perm_middle.symm
  have h2 : F.Perm (e :: (G1 ++ G2)) := by rw [hGsplit]; exact List.perm_middle
  have h3 : (e :: (F1 ++ F2)).Subperm (e :: (G1 ++ G2)) :=
    (h1.subperm.trans hsub).trans h2.subperm
  exact uconn_mono (fun f hf => (List.subperm_cons e).mp h3 |>.subset hf) hconn

theorem acyclic_extend {E : List Edge} {e : Edge} (hac : Acyclic E)
    (hnc : ¬ UConn E e.frm e.tov) : Acyclic (E ++ [e]) := by
  intro F1 x F2 hsplit
  rcases List.eq_nil_or_concat F2 with rfl | ⟨F2a, y, hF2⟩
  · obtain ⟨hE, hx⟩ := List.append_inj' hsplit rfl
    have hex : e = x := by simpa using hx
    rw [List.append_nil, ← hE, ← hex]
    exact hnc
  · rw [List.concat_eq_append] at hF2
    subst hF2
    have hsplit2 : E ++ [e] = (F1 ++ x :: F2a) ++ [y] := by
      rw [hsplit, List.append_assoc, List.cons_append]
    obtain ⟨hE, hy⟩ := List.append_inj' hsplit2 rfl
    have hey : e = y := by simpa using hy
    intro hconn
    rw [← List.append_assoc, ← hey] at hconn
    have hsub : ∀ f ∈ F1 ++ F2a, f ∈ E := by
      intro f hf
      rw [hE]
      rcases List.mem_append.mp hf with h | h
      · exact List.mem_append_left _ h
      · exact List.mem_append_right _ (List.mem_cons_of_mem x h)
    have harc : UConn E x.frm x.tov :=
      uconn_arc (by rw [hE]; exact List.mem_append_right _ (List.mem_cons_self x F2a))
    rcases uconn_snoc hconn with h | ⟨h1, h2⟩ | ⟨h1, h2⟩
    · exact hac F1 x F2a hE h
    · exact hnc (uconn_trans (uconn_trans (uconn_symm (uconn_mono hsub h1)) harc)
        (uconn_symm (uconn_mono hsub h2)))
    · exact hnc (uconn_trans (uconn_trans (uconn_mono hsub h2) (uconn_symm harc))
        (uconn_mono hsub h1))

theorem acyclic_no_redundant {F : List Edge} {f : Edge} (hac : Acyclic F)
    (hf : f ∈ F) : ¬ UConn (F.erase f) f.frm f.tov := by
  obtain ⟨l1, l2, _, hsplit, herase⟩ := List.exists_erase_eq hf
  rw [herase]
  exact hac l1 f l2 hsplit

theorem spanningForest_exists (es : List Edge) : ∃ F, SpanningForest es F := by
  induction es using List.reverseRecOn with
  | nil => exact ⟨[], List.nil_subperm, acyclic_nil, fun u v h => h⟩
  | append_singleton E e ih =>
    obtain ⟨F, hsub, hac, hsp⟩ := ih
    by_cases hc : UConn F e.frm e.tov
    · refine ⟨F, hsub.trans (List.sublist_append_left E [e]).subperm, hac, ?_⟩
      intro u v h
      rcases uconn_snoc h with h1 | ⟨h1, h2⟩ | ⟨h1, h2⟩
      · exact hsp u v h1
      · exact uconn_trans (uconn_trans (hsp _ _ h1) hc) (hsp _ _ h2)
      · exact uconn_trans (uconn_trans (hsp _ _ h1) (uconn_symm hc)) (hsp _ _ h2)
    · obtain ⟨l, hlp, hls⟩ := hsub
      refine ⟨F ++ [e], ⟨l ++ [e], hlp.append_right [e], hls.append_right [e]⟩,
        acyclic_extend hac hc, ?_⟩
      have hFsub : ∀ f ∈ F, f ∈ F ++ [e] := fun f hf => List.mem_append_left _ hf
      have harc : UConn (F ++ [e]) e.frm e.tov :=
        uconn_arc (List.mem_append_right _ (List.mem_singleton_self e))
      intro u v h
      rcases uconn_snoc h with h1 | ⟨h1, h2⟩ | ⟨h1, h2⟩
      · exact uconn_mono hFsub (hsp u v h1)
      · exact uconn_trans (uconn_trans (uconn_mono hFsub (hsp _ _ h1)) harc)
          (uconn_mono hFsub (hsp _ _ h2))
      · exact uconn_trans (uconn_trans (uconn_mono hFsub (hsp _ _ h1)) (uconn_symm harc))
          (uconn_mono hFsub (hsp _ _ h2))

theorem msf_exists (es : List Edge) :
    ∃ F, SpanningForest es F ∧ ∀ F2, SpanningForest es F2 → chainW F ≤ chainW F2 := by
  obtain ⟨F0, hF0⟩ := spanningForest_exists es
  have hfin : ({w : Int | ∃ F, SpanningForest es F ∧ chainW F = w}).Finite := by
    refine Set.Finite.subset (List.finite_toSet (es.sublists.map chainW)) ?_
    rintro w ⟨F, hF, hw⟩
    obtain ⟨l, hlp, hls⟩ := hF.1
    exact List.mem_map.mpr ⟨l, List.mem_sublists.mpr hls, by rw [chainW_perm hlp, hw]⟩
  obtain ⟨w, hwmem, hmin⟩ :=
    Set.exists_min_image _ id hfin ⟨chainW F0, F0, hF0, rfl⟩
  obtain ⟨F, hF, hw⟩ := hwmem
  refine ⟨F, hF, fun F2 hF2 => ?_⟩
  rw [hw]
  exact hmin _ ⟨F2, hF2, rfl⟩

theorem ufFind_map {uf : List Nat} {f : Nat → Nat} {x : Nat} (hx : x < uf.length) :
    ufFind (uf.map f) x = f (ufFind uf x) := by
  unfold ufFind
  rw [List.getD_eq_getElem?_getD, List.getD_eq_getElem?_getD, List.getElem?_map,
    List.getElem?_eq_getElem hx]
  rfl

theorem ufFind_init {V x : Nat} (hx : x < V) : ufFind (ufInit V) x = x := by
  unfold ufFind ufInit
  rw [List.getD_eq_getElem?_getD, List.getElem?_eq_getElem (by simpa using hx)]
  simp

theorem ufRep_init (V : Nat) : UFRep (ufInit V) [] V := by
  refine ⟨by simp [ufInit], ?_⟩
  intro x y hx hy
  rw [ufFind_init hx, ufFind_init hy, uconn_nil]

theorem ufUnite_false {uf : List Nat} {A : List Edge} {V : Nat} {a b : Nat}
    (hrep : UFRep uf A V) (ha : a < V) (hb : b < V)
    (heq : ufFind uf a = ufFind uf b) :
    (ufUnite uf a b).1 = false ∧ (ufUnite uf a b).2 = uf ∧ UConn A a b := by
  unfold ufUnite
  rw [if_pos heq]
  exact ⟨rfl, rfl, (hrep.2 a b ha hb).mp heq⟩

theorem ufUnite_true {uf : List Nat} {A : List Edge} {V : Nat} {e : Edge}
    (hrep : UFRep uf A V) (ha : e.frm < V) (hb : e.tov < V)
    (hne : ufFind uf e.frm ≠ ufFind uf e.tov) :
    (ufUnite uf e.frm e.tov).1 = true ∧ ¬ UConn A e.frm e.tov ∧
    UFRep (ufUnite uf e.frm e.tov).2 (A ++ [e]) V := by
  obtain ⟨hlen, hiff⟩ := hrep
  have hnc : ¬ UConn A e.frm e.tov := fun hc => hne ((hiff _ _ ha hb).mpr hc)
  have hres : ufUnite uf e.frm e.tov =
      (true, uf.map (fun r => if r = ufFind uf e.tov then ufFind uf e.frm else r)) := by
    unfold ufUnite
    rw [if_neg hne]
  have hfind : ∀ z, z < V → ufFind (ufUnite uf e.frm e.tov).2 z =
      (if ufFind uf z = ufFind uf e.tov then ufFind uf e.frm else ufFind uf z) := by
    intro z hz
    rw [hres]
    exact ufFind_map (hlen ▸ hz)
  refine ⟨by rw [hres], hnc, ?_, ?_⟩
  · rw [hres]
    simpa using hlen
  · intro x y hx hy
    rw [hfind x hx, hfind y hy]
    constructor
    · intro h
      by_cases hxb : ufFind uf x = ufFind uf e.tov <;>
        by_cases hyb : ufFind uf y = ufFind uf e.tov
      · exact uconn_snoc_of (Or.inl (uconn_trans ((hiff x e.tov hx hb).mp hxb)
          (uconn_symm ((hiff y e.tov hy hb).mp hyb))))
      · rw [if_pos hxb, if_neg hyb] at h
        exact uconn_snoc_of (Or.inr (Or.inr ⟨(hiff x e.tov hx hb).mp hxb,
          uconn_symm ((hiff y e.frm hy ha).mp h.symm)⟩))
      · rw [if_neg hxb, if_pos hyb] at h
        exact uconn_snoc_of (Or.inr (Or.inl ⟨(hiff x e.frm hx ha).mp h,
          uconn_symm ((hiff y e.tov hy hb).mp hyb)⟩))
      · rw [if_neg hxb, if_neg hyb] at h
        exact uconn_snoc_of (Or.inl ((hiff x y hx hy).mp h))
    · intro hconn
      rcases uconn_snoc hconn with h1 | ⟨h1, h2⟩ | ⟨h1, h2⟩
      · rw [(hiff x y hx hy).mpr h1]
      · rw [(hiff x e.frm hx ha).mpr h1, ((hiff e.tov y hb hy).mpr h2).symm,
          if_neg hne, if_pos rfl]
      · rw [(hiff x e.tov hx hb).mpr h1, ((hiff e.frm y ha hy).mpr h2).symm,
          if_pos rfl, if_neg hne]

theorem symCl_orig {E : List Edge} {g : Edge} (hg : g ∈ symCl E) :
    ∃ f ∈ E, g = f ∨ g = erev f := by
  rcases List.mem_append.mp hg with h | h
  · exact ⟨g, h, Or.inl rfl⟩
  · obtain ⟨f, hf, hfe⟩ := List.mem_map.mp h
    exact ⟨f, hf, Or.inr hfe.symm⟩

theorem mem_symCl_of_orig {E : List Edge} {f g : Edge} (hf : f ∈ E)
    (hg : g = f ∨ g = erev f) : g ∈ symCl E := by
  rcases hg with rfl | rfl
  · exact List.mem_append_left _ hf
  · exact List.mem_append_right _ (List.mem_map_of_mem erev hf)

theorem uconn_to_chain {E : List Edge} {x y : Nat} (h : UConn E x y) :
    ∃ l, IsChain (symCl E) x l y := by
  induction h using Relation.ReflTransGen.head_induction_on with
  | refl => exact ⟨[], IsChain.nil _⟩
  | head hadj _ ih =>
    obtain ⟨l, hl⟩ := ih
    obtain ⟨f, hf, hc⟩ := hadj
    rcases hc with ⟨ha, hb⟩ | ⟨ha, hb⟩
    · refine ⟨f :: l, ?_⟩
      have hch : IsChain (symCl E) f.frm (f :: l) y :=
        IsChain.cons (List.mem_append_left _ hf) (by rw [hb]; exact hl)
      rwa [ha] at hch
    · refine ⟨erev f :: l, ?_⟩
      have hch : IsChain (symCl E) (erev f).frm (erev f :: l) y :=
        IsChain.cons (List.mem_append_right _ (List.mem_map_of_mem erev hf))
          (by show IsChain (symCl E) f.frm l y; rw [ha]; exact hl)
      have hch2 : IsChain (symCl E) f.tov (erev f :: l) y := hch
      rwa [hb] at hch2

theorem chain_to_uconn {E : List Edge} : ∀ {l : List Edge} {x y : Nat},
    IsChain (symCl E) x l y → UConn E x y := by
  intro l
  induction l with
  | nil =>
    intro x y h
    rw [isChain_nil_iff.mp h]
    exact uconn_refl
  | cons g l ih =>
    intro x y h
    cases h with
    | cons hgm htail =>
      refine Relation.ReflTransGen.head ?_ (ih htail)
      obtain ⟨f, hf, hform⟩ := symCl_orig hgm
      rcases hform with rfl | rfl
      · exact ⟨g, hf, Or.inl ⟨rfl, rfl⟩⟩
      · exact ⟨f, hf, Or.inr ⟨rfl, rfl⟩⟩

theorem chain_nodup_aux {es : Edges} : ∀ (n : Nat) {s v : Nat} {l : List Edge},
    l.length ≤ n → IsChain es s l v →
    ∃ l2, IsChain es s l2 v ∧ (chainVerts s l2).Nodup := by
  intro n
  induction n with
  | zero =>
    intro s v l hlen h
    have hl0 : l = [] := List.length_eq_zero.mp (Nat.le_zero.mp hlen)
    subst hl0
    exact ⟨[], h, List.nodup_singleton s⟩
  | succ n ih =>
    intro s v l hlen h
    by_cases hnd : (chainVerts s l).Nodup
    · exact ⟨l, h, hnd⟩
    · obtain ⟨l1, c, l3, x, hdecomp, hc1, hcc, hcne, hc3⟩ := chain_dup_split h hnd
      have hchain13 : IsChain es s (l1 ++ l3) v := isChain_append.mpr ⟨x, hc1, hc3⟩
      have hlen13 : (l1 ++ l3).length ≤ n := by
        have hc_pos : 0 < c.length := List.length_pos.mpr hcne
        have hll : l.length = l1.length + c.length + l3.length := by
          rw [hdecomp]
          simp [List.length_append]
          omega
        rw [List.length_append]
        omega
      exact ih hlen13 hchain13

theorem chain_nodup {es : Edges} {s v : Nat} {l : List Edge}
    (h : IsChain es s l v) :
    ∃ l2, IsChain es s l2 v ∧ (chainVerts s l2).Nodup :=
  chain_nodup_aux l.length (le_refl _) h

theorem chain_first_exit {ES : List Edge} (C : Nat → Prop) :
    ∀ {l : List Edge} {x y : Nat}, IsChain ES x l y → C x → ¬ C y →
      ∃ p1 g p2, l = p1 ++ g :: p2 ∧ g ∈ ES ∧ IsChain ES x p1 g.frm ∧
        IsChain ES g.tov p2 y ∧ C g.frm ∧ ¬ C g.tov := by
  intro l
  induction l with
  | nil =>
    intro x y h hx hy
    rw [isChain_nil_iff.mp h] at hx
    exact absurd hx hy
  | cons e l ih =>
    intro x y h hx hy
    cases h with
    | cons hmem htail =>
      by_cases hC : C e.tov
      · obtain ⟨p1, g, p2, hsplit, hgm, hp1, hp2, hgf, hgt⟩ := ih htail hC hy
        exact ⟨e :: p1, g, p2, by rw [hsplit, List.cons_append], hgm,
          IsChain.cons hmem hp1, hp2, hgf, hgt⟩
      · exact ⟨[], e, l, rfl, hmem, IsChain.nil _, htail, hx, hC⟩

theorem chain_arc_verts {es : Edges} : ∀ {l : List Edge} {x y : Nat} {g : Edge},
    IsChain es x l y → g ∈ l →
    g.frm ∈ chainVerts x l ∧ g.tov ∈ chainVerts x l := by
  intro l
  induction l with
  | nil =>
    intro x y g _ hg
    exact absurd hg (by simp)
  | cons e l ih =>
    intro x y g h hg
    cases h with
    | cons hmem htail =>
      rcases List.mem_cons.mp hg with rfl | hg2
      · exact ⟨by simp [chainVerts], by simp [chainVerts]⟩
      · obtain ⟨h1, h2⟩ := ih htail hg2
        have h1a : g.frm ∈ e.tov :: l.map Edge.tov := h1
        have h2a : g.tov ∈ e.tov :: l.map Edge.tov := h2
        exact ⟨List.mem_cons_of_mem _ h1a, List.mem_cons_of_mem _ h2a⟩

theorem chain_end_verts {es : Edges} {x y : Nat} {l : List Edge}
    (h : IsChain es x l y) : y ∈ chainVerts x l := by
  rcases eq_or_ne l [] with rfl | hne
  · rw [← isChain_nil_iff.mp h]
    simp [chainVerts]
  · exact List.mem_cons_of_mem _ (chain_end_mem h hne)

theorem chainVerts_append (x : Nat) (l1 l2 : List Edge) :
    chainVerts x (l1 ++ l2) = chainVerts x l1 ++ l2.map Edge.tov := by
  simp [chainVerts]

theorem chain_split_avoid {F : List Edge} {forig g : Edge} {p1 p2 : List Edge}
    {x y : Nat}
    (hp1 : IsChain (symCl F) x p1 g.frm) (hp2 : IsChain (symCl F) g.tov p2 y)
    (hnd : (chainVerts x p1 ++ chainVerts g.tov p2).Nodup)
    (hpair : g = forig ∨ g = erev forig) :
    (∀ h ∈ p1, ∀ f, (h = f ∨ h = erev f) → f ≠ forig) ∧
    (∀ h ∈ p2, ∀ f, (h = f ∨ h = erev f) → f ≠ forig) := by
  have hdisj : (chainVerts x p1).Disjoint (chainVerts g.tov p2) :=
    (List.nodup_append.mp hnd).2.2
  constructor
  · intro h hh f hform hfe
    subst hfe
    have hends := chain_arc_verts hp1 hh
    have hgt1 : g.tov ∈ chainVerts x p1 := by
      rcases hpair with rfl | rfl <;> rcases hform with rfl | rfl
      · exact hends.2
      · exact hends.1
      · exact hends.1
      · exact hends.2
    exact hdisj hgt1 (List.mem_cons_self _ _)
  · intro h hh f hform hfe
    subst hfe
    have hends := chain_arc_verts hp2 hh
    have hgf2 : g.frm ∈ chainVerts g.tov p2 := by
      rcases hpair with rfl | rfl <;> rcases hform with rfl | rfl
      · exact hends.1
      · exact hends.2
      · exact hends.2
      · exact hends.1
    exact hdisj (chain_end_verts hp1) hgf2

theorem chain_erase {F : List Edge} {forig : Edge} {x y : Nat} {p : List Edge}
    (hch : IsChain (symCl F) x p y)
    (havoid : ∀ h ∈ p, ∀ f, (h = f ∨ h = erev f) → f ≠ forig) :
    UConn (F.erase forig) x y := by
  have hres : IsChain (symCl (F.erase forig)) x p y := by
    refine isChain_restrict hch ?_
    intro h hh
    obtain ⟨f, hfF, hform⟩ := symCl_orig (chain_edge_mem hch hh)
    exact mem_symCl_of_orig
      ((List.mem_erase_of_ne (havoid h hh f hform)).mpr hfF) hform
  exact chain_to_uconn hres

theorem uconn_reconnect {F F2 : List Edge} {f : Edge}
    (hrep : UConn F2 f.frm f.tov)
    (hsub : ∀ h ∈ F, h ≠ f → h ∈ F2) :
    ∀ {x y : Nat}, UConn F x y → UConn F2 x y := by
  intro x y h
  induction h using Relation.ReflTransGen.head_induction_on with
  | refl => exact uconn_refl
  | head hadj _ ih =>
    obtain ⟨g, hg, hc⟩ := hadj
    by_cases hgf : g = f
    · subst hgf
      rcases hc with ⟨ha, hb⟩ | ⟨ha, hb⟩
      · exact uconn_trans (ha ▸ hb ▸ hrep) ih
      · exact uconn_trans (ha ▸ hb ▸ uconn_symm hrep) ih
    · exact Relation.ReflTransGen.head ⟨g, hsub g hg hgf, hc⟩ ih

theorem kruskal_exchange {es A F : List Edge} {e : Edge}
    (hF : SpanningForest es F)
    (hmin : ∀ F2, SpanningForest es F2 → chainW F ≤ chainW F2)
    (hAF : A.Subperm F)
    (he_es : e ∈ es)
    (hcross : ¬ UConn A e.frm e.tov)
    (hwmin : ∀ f ∈ es, ¬ UConn A f.frm f.tov → e.weight ≤ f.weight) :
    ∃ F2, SpanningForest es F2 ∧
      (∀ F3, SpanningForest es F3 → chainW F2 ≤ chainW F3) ∧
      (A ++ [e]).Subperm F2 := by
  obtain ⟨hFsub, hFac, hFsp⟩ := hF
  have heA : e ∉ A := fun hmem => hcross (uconn_arc hmem)
  by_cases heF : e ∈ F
  · refine ⟨F, ⟨hFsub, hFac, hFsp⟩, hmin, ?_⟩
    rw [List.subperm_ext_iff]
    intro x hx
    rw [List.count_append]
    by_cases hxe : x = e
    · subst hxe
      have h1 : A.count x = 0 := List.count_eq_zero.mpr heA
      have h2 : List.count x [x] = 1 := by simp
      have h3 : 0 < F.count x := List.count_pos_iff.mpr heF
      omega
    · have h2 : List.count x [e] = 0 := by simp [List.count_singleton, Ne.symm hxe]
      have h3 : A.count x ≤ F.count x := hAF.count_le x
      omega
  · have hconnF : UConn F e.frm e.tov := hFsp _ _ (uconn_arc he_es)
    obtain ⟨l0, hl0⟩ := uconn_to_chain hconnF
    obtain ⟨l, hl, hlnd⟩ := chain_nodup hl0
    obtain ⟨p1, g, p2, hsplit, hgm, hp1, hp2, hCg, hCgt⟩ :=
      chain_first_exit (fun z => UConn A e.frm z) hl uconn_refl hcross
    obtain ⟨forig, hforigF, hform⟩ := symCl_orig hgm
    have hcrossf : ¬ UConn A forig.frm forig.tov := by
      intro hc
      rcases hform with rfl | rfl
      · exact hCgt (uconn_trans hCg hc)
      · exact hCgt (uconn_trans hCg (uconn_symm hc))
    have hfne : forig ≠ e := fun hfe => heF (hfe ▸ hforigF)
    have hfA : forig ∉ A := fun hmem => hcrossf (uconn_arc hmem)
    have hwle : e.weight ≤ forig.weight := hwmin forig (hFsub.subset hforigF) hcrossf
    have hndapp : (chainVerts e.frm p1 ++ chainVerts g.tov p2).Nodup := by
      have hv : chainVerts e.frm l = chainVerts e.frm p1 ++ chainVerts g.tov p2 := by
        rw [hsplit, chainVerts_append]
        rfl
      rw [← hv]
      exact hlnd
    obtain ⟨havoid1, havoid2⟩ := chain_split_avoid hp1 hp2 hndapp hform
    have hc1 : UConn (F.erase forig) e.frm g.frm := chain_erase hp1 havoid1
    have hc2 : UConn (F.erase forig) g.tov e.tov := chain_erase hp2 havoid2
    have hnoconn : ¬ UConn (F.erase forig) e.frm e.tov := by
      intro hc
      apply acyclic_no_redundant hFac hforigF
      have hgg : UConn (F.erase forig) g.frm g.tov :=
        uconn_trans (uconn_symm hc1) (uconn_trans hc (uconn_symm hc2))
      rcases hform with rfl | rfl
      · exact hgg
      · exact uconn_symm hgg
    have hsubF2 : ∀ h ∈ F, h ≠ forig → h ∈ F.erase forig ++ [e] := fun h hh hne =>
      List.mem_append_left _ ((List.mem_erase_of_ne hne).mpr hh)
    have heF2 : e ∈ F.erase forig ++ [e] :=
      List.mem_append_right _ (List.mem_singleton_self e)
    have herasesub : ∀ h ∈ F.erase forig, h ∈ F.erase forig ++ [e] :=
      fun h hh => List.mem_append_left _ hh
    have hrepair : UConn (F.erase forig ++ [e]) forig.frm forig.tov := by
      have h1 : UConn (F.erase forig ++ [e]) g.frm g.tov :=
        uconn_trans (uconn_trans (uconn_mono herasesub (uconn_symm hc1))
          (uconn_arc heF2)) (uconn_mono herasesub (uconn_symm hc2))
      rcases hform with rfl | rfl
      · exact h1
      · exact uconn_symm h1
    have hspan2 : ∀ u v, UConn es u v → UConn (F.erase forig ++ [e]) u v :=
      fun u v h => uconn_reconnect hrepair hsubF2 (hFsp u v h)
    have hac2 : Acyclic (F.erase forig ++ [e]) :=
      acyclic_extend (acyclic_subperm (List.erase_sublist forig F).subperm hFac)
        hnoconn
    have hsub2 : (F.erase forig ++ [e]).Subperm es := by
      rw [List.subperm_ext_iff]
      intro x hx
      rw [List.count_append]
      by_cases hxe : x = e
      · subst hxe
        have h1 : (F.erase forig).count x = F.count x :=
          List.count_erase_of_ne (Ne.symm hfne) F
        have h2 : List.count x [x] = 1 := by simp
        have h3 : F.count x = 0 := List.count_eq_zero.mpr heF
        have h4 : 0 < es.count x := List.count_pos_iff.mpr he_es
        omega
      · have h1 : (F.erase forig).count x ≤ F.count x :=
          (List.erase_sublist forig F).subperm.count_le x
        have h2 : List.count x [e] = 0 := by simp [List.count_singleton, Ne.symm hxe]
        have h3 : F.count x ≤ es.count x := hFsub.count_le x
        omega
    have hweight : chainW (F.erase forig ++ [e]) ≤ chainW F := by
      have hWF : chainW F = forig.weight + chainW (F.erase forig) := by
        rw [chainW_perm (List.perm_cons_erase hforigF), chainW_cons]
      rw [chainW_append, chainW_single]
      linarith
    refine ⟨F.erase forig ++ [e], ⟨hsub2, hac2, hspan2⟩,
      fun F3 h3 => le_trans hweight (hmin F3 h3), ?_⟩
    rw [List.subperm_ext_iff]
    intro x hx
    rw [List.count_append, List.count_append]
    by_cases hxe : x = e
    · subst hxe
      have h1 : A.count x = 0 := List.count_eq_zero.mpr heA
      have h2 : List.count x [x] = 1 := by simp
      omega
    · have h2 : List.count x [e] = 0 := by simp [List.count_singleton, Ne.symm hxe]
      by_cases hxf : x = forig
      · subst hxf
        have h1 : A.count x = 0 := List.count_eq_zero.mpr hfA
        omega
      · have h1 : (F.erase forig).count x = F.count x :=
          List.count_erase_of_ne hxf F
        have h3 : A.count x ≤ F.count x := hAF.count_le x
        omega

theorem kruskal_step {es : Edges} {V : Nat} (hwf : WFEdges es V)
    {done todo : List Edge} {e : Edge} {st : Int × List Nat}
    (hperm : (done ++ e :: todo).Perm es)
    (hsorted : (done ++ e :: todo).Pairwise (fun a b => a.weight ≤ b.weight))
    (hinv : KInv es V done st) :
    KInv es V (done ++ [e]) (kruskalFold st e) := by
  obtain ⟨A, hA1, hrep, hac, hsubdone, hdone, F, hSF, hFmin, hAF⟩ := hinv
  have he_es : e ∈ es :=
    hperm.subset (List.mem_append_right _ (List.mem_cons_self e todo))
  have ha : e.frm < V := (hwf e he_es).1
  have hb : e.tov < V := (hwf e he_es).2
  by_cases heq : ufFind st.2 e.frm = ufFind st.2 e.tov
  · obtain ⟨hb1, hb2, hcA⟩ := ufUnite_false hrep ha hb heq
    have hkf : kruskalFold st e = (st.1, st.2) := by
      unfold kruskalFold
      simp [hb1, hb2]
    refine ⟨A, by rw [hkf]; exact hA1, by rw [hkf]; exact hrep, hac,
      hsubdone.trans (List.sublist_append_left done [e]).subperm, ?_,
      F, hSF, hFmin, hAF⟩
    intro f hf
    rcases List.mem_append.mp hf with hfd | hfe
    · exact hdone f hfd
    · rw [List.mem_singleton.mp hfe]
      exact hcA
  · obtain ⟨hb1, hnc, hrep2⟩ := ufUnite_true hrep ha hb heq
    have hkf : kruskalFold st e =
        (st.1 + e.weight, (ufUnite st.2 e.frm e.tov).2) := by
      unfold kruskalFold
      simp [hb1]
    have hAsub : ∀ g ∈ A, g ∈ A ++ [e] := fun g hg => List.mem_append_left _ hg
    have hwmin : ∀ f ∈ es, ¬ UConn A f.frm f.tov → e.weight ≤ f.weight := by
      intro f hf hnf
      rcases List.mem_append.mp (hperm.mem_iff.mpr hf) with hfd | hfe
      · exact absurd (hdone f hfd) hnf
      · rcases List.mem_cons.mp hfe with hfeq | hft
        · rw [hfeq]
        · have hps : (e :: todo).Pairwise (fun a b => a.weight ≤ b.weight) :=
            hsorted.sublist (List.sublist_append_right done (e :: todo))
          exact (List.pairwise_cons.mp hps).1 f hft
    obtain ⟨F2, hSF2, hmin2, hsub2⟩ :=
      kruskal_exchange hSF hFmin hAF he_es hnc hwmin
    refine ⟨A ++ [e], ?_, by rw [hkf]; exact hrep2, acyclic_extend hac hnc,
      ?_, ?_, F2, hSF2, hmin2, hsub2⟩
    · rw [hkf, chainW_append, chainW_single, hA1]
    · obtain ⟨l, hpl, hsl⟩ := hsubdone
      exact ⟨l ++ [e], hpl.append_right [e], hsl.append_right [e]⟩
    · intro f hf
      rcases List.mem_append.mp hf with hfd | hfe
      · exact uconn_mono hAsub (hdone f hfd)
      · rw [List.mem_singleton.mp hfe]
        exact uconn_arc (List.mem_append_right _ (List.mem_singleton_self e))

theorem kruskal_fold_ok {es : Edges} {V : Nat} (hwf : WFEdges es V) :
    ∀ (todo done : List Edge) (st : Int × List Nat),
      (done ++ todo).Perm es →
      (done ++ todo).Pairwise (fun a b => a.weight ≤ b.weight) →
      KInv es V done st →
      KInv es V (done ++ todo) (todo.foldl kruskalFold st) := by
  intro todo
  induction todo with
  | nil =>
    intro done st _ _ hinv
    simpa using hinv
  | cons e todo ih =>
    intro done st hperm hsorted hinv
    have hassoc : done ++ e :: todo = (done ++ [e]) ++ todo := by simp
    rw [List.foldl_cons, hassoc]
    exact ih (done ++ [e]) (kruskalFold st e)
      (by rw [← hassoc]; exact hperm) (by rw [← hassoc]; exact hsorted)
      (kruskal_step hwf hperm hsorted hinv)

/-- C6: for every edge list over `V` well-formed vertices (with the
external union-find collaborator modelled from the spec), `Kruskal`
returns the total weight of a minimum spanning forest: there is a
spanning forest of the multigraph whose weight is the returned value and
which is of minimum weight among all spanning forests (on a disconnected
graph a spanning forest spans every component, so this is the sum of
per-component minimum-spanning-tree weights). -/
theorem claim_C6_kruskal {es : Edges} {V : Nat} (hwf : WFEdges es V) :
    ∃ F, SpanningForest es F ∧ chainW F = Kruskal es V ∧
      ∀ F2, SpanningForest es F2 → chainW F ≤ chainW F2 := by
  have hperm : (sortE es).Perm es := sortE_perm es
  have hinit : KInv es V [] (0, ufInit V) := by
    obtain ⟨F, hSF, hFmin⟩ := msf_exists es
    exact ⟨[], chainW_nil.symm, ufRep_init V, acyclic_nil, List.nil_subperm,
      fun f hf => absurd hf (by simp), F, hSF, hFmin, List.nil_subperm⟩
  have hfin := kruskal_fold_ok hwf (sortE es) [] (0, ufInit V)
    (by simpa using hperm) (by simpa using sortE_pairwise es) hinit
  obtain ⟨A, hA1, _, hacA, _, hdoneAll, F, hSF, hFmin, hAF⟩ := hfin
  obtain ⟨hFsub, hFac, hFsp⟩ := hSF
  have hdoneA : ∀ f ∈ es, UConn A f.frm f.tov := fun f hf =>
    hdoneAll f (by simpa using hperm.mem_iff.mpr hf)
  have hadjA : ∀ u v, UAdj es u v → UConn A u v := by
    rintro u v ⟨f, hf, ⟨h1, h2⟩ | ⟨h1, h2⟩⟩
    · exact h1 ▸ h2 ▸ hdoneA f hf
    · exact h1 ▸ h2 ▸ uconn_symm (hdoneA f hf)
  have hspanA : ∀ u v, UConn es u v → UConn A u v := by
    intro u v h
    induction h using Relation.ReflTransGen.head_induction_on with
    | refl => exact uconn_refl
    | head hadj _ ih => exact uconn_trans (hadjA _ _ hadj) ih
  have hFA : F.Subperm A := by
    rw [List.subperm_ext_iff]
    intro x hx
    by_contra hgt
    push_neg at hgt
    have hsubAE : ∀ g ∈ A, g ∈ F.erase x := by
      intro g hg
      by_cases hgx : g = x
      · subst hgx
        have h1 : 0 < A.count g := List.count_pos_iff.mpr hg
        have h2 : (F.erase g).count g = F.count g - 1 := List.count_erase_self g F
        exact List.count_pos_iff.mp (by omega)
      · have h1 : 0 < A.count g := List.count_pos_iff.mpr hg
        have h2 : A.count g ≤ F.count g := hAF.count_le g
        have h3 : (F.erase x).count g = F.count g := List.count_erase_of_ne hgx F
        exact List.count_pos_iff.mp (by omega)
    exact acyclic_no_redundant hFac hx
      (uconn_mono hsubAE (hspanA _ _ (uconn_arc (hFsub.subset hx))))
  have hperm2 : F.Perm A := hFA.antisymm hAF
  refine ⟨F, ⟨hFsub, hFac, hFsp⟩, ?_, hFmin⟩
  have hKr : Kruskal es V = ((sortE es).foldl kruskalFold (0, ufInit V)).1 := rfl
  rw [hKr, hA1, chainW_perm hperm2]

/-- Witness for C6: the triangle of the spec, edges (0,1,1),(1,2,2),(0,2,3),
is well-formed over 3 vertices, `Kruskal` computes 3 on it, and the claim
theorem applies. -/
theorem claim_C6_witness :
    WFEdges ([⟨0, 1, 1⟩, ⟨1, 2, 2⟩, ⟨0, 2, 3⟩] : Edges) 3 ∧
    Kruskal ([⟨0, 1, 1⟩, ⟨1, 2, 2⟩, ⟨0, 2, 3⟩] : Edges) 3 = 3 ∧
    ∃ F, SpanningForest ([⟨0, 1, 1⟩, ⟨1, 2, 2⟩, ⟨0, 2, 3⟩] : Edges) F ∧
      chainW F = Kruskal ([⟨0, 1, 1⟩, ⟨1, 2, 2⟩, ⟨0, 2, 3⟩] : Edges) 3 ∧
      ∀ F2, SpanningForest ([⟨0, 1, 1⟩, ⟨1, 2, 2⟩, ⟨0, 2, 3⟩] : Edges) F2 →
        chainW F ≤ chainW F2 :=
  ⟨by unfold WFEdges; decide, by decide, claim_C6_kruskal (by unfold WFEdges; decide)⟩

end GraphLib
